import Mathlib

/-! # Axis-aligned bounding boxes and the AABB tree of `Clothoids`

A shallow embedding of `src/include/Clothoids/AABBtree.hxx` and
`src/src/AABBtree.cc`, of the tree code of `PolyLine` (`src/src/PolyLine.cc`), of
the constructor and accessor of the Python binding that handle extrema, and of
`Utils::search_interval` (`src/src/Utils.hxx`).

* `real_type` is an arbitrary linearly ordered field `K` (the rationals give
  executable instances, the reals are used where `hypot` has to be a square
  root).  The value `numeric_limits<real_type>::infinity()` is the top
  element of `WithTop K`.
* `int_type` is `Int`; the tags are only stored and read back.
* `shared_ptr<BBox const>` is a value of type `BBox K`, a null pointer is
  `none`; a query that dereferences a null pointer returns `none`.
* `std::hypot` and `fmod` are parameters of the functions that call them;
  `std::lower_bound` is the binary search of the standard library.
* A pointer into an array is an index of type `Int`; a read outside the array
  returns `none`.
-/

set_option linter.unusedSectionVars false
set_option linter.unusedVariables false

namespace G2lib

/-! ## BBox -/

/-- The class `BBox`: `m_bbox[0..3]` are the four extrema. -/
structure BBox (K : Type) where
  x_min : K
  y_min : K
  x_max : K
  y_max : K
  m_id : Int
  m_ipos : Int
deriving DecidableEq, Repr

/-- The class `AABBtree`: the members `pBBox` and `children`. -/
inductive AABBtree (K : Type) where
  | mk (pBBox : Option (BBox K)) (children : List (AABBtree K)) : AABBtree K

section Defs

variable {K : Type} [LinearOrderedField K]

namespace BBox

/-- Accessor `BBox::Id()`. -/
def Id (b : BBox K) : Int := b.m_id

/-- Accessor `BBox::Ipos()`. -/
def Ipos (b : BBox K) : Int := b.m_ipos

/-- One pass of the body of the `for` loop of `BBox::join`. -/
def joinStep (self currBox : BBox K) : BBox K :=
  let self := if currBox.x_min < self.x_min then { self with x_min := currBox.x_min } else self
  let self := if currBox.y_min < self.y_min then { self with y_min := currBox.y_min } else self
  let self := if currBox.x_max > self.x_max then { self with x_max := currBox.x_max } else self
  let self := if currBox.y_max > self.y_max then { self with y_max := currBox.y_max } else self
  self

/-- Method `BBox::join`: the state of the box after the call. -/
def join (self : BBox K) (bboxes : List (BBox K)) : BBox K :=
  match bboxes with
  | [] => { self with x_min := 0, y_min := 0, x_max := 0, y_max := 0 }
  | first :: rest =>
    let self := { self with x_min := first.x_min, y_min := first.y_min,
                            x_max := first.x_max, y_max := first.y_max }
    rest.foldl joinStep self

/-- Constructor `BBox(vector<PtrBBox> const & bboxes, int_type id, int_type ipos)`;
the array `m_bbox` starts as `{0, 0, 0, 0}`. -/
def ofBoxes (bboxes : List (BBox K)) (id ipos : Int) : BBox K :=
  join { x_min := 0, y_min := 0, x_max := 0, y_max := 0, m_id := id, m_ipos := ipos } bboxes

/-- Method `BBox::distance`, with the `icase` classification and the `switch`. -/
def distance (hypot : K → K → K) (self : BBox K) (x y : K) : K :=
  let icase : Int := 4
  let icase : Int := if x < self.x_min then 3 else if x > self.x_max then 5 else icase
  let icase : Int := if y < self.y_min then icase - 3 else if y > self.y_max then icase + 3 else icase
  let dst : K := 0
  if icase = 0 then hypot (x - self.x_min) (y - self.y_min)
  else if icase = 1 then self.y_min - y
  else if icase = 2 then hypot (x - self.x_max) (y - self.y_min)
  else if icase = 3 then self.x_min - x
  else if icase = 4 then dst
  else if icase = 5 then x - self.x_max
  else if icase = 6 then hypot (x - self.x_min) (y - self.y_max)
  else if icase = 7 then y - self.y_max
  else if icase = 8 then hypot (x - self.x_max) (y - self.y_max)
  else dst

/-- Method `BBox::maxDistance`. -/
def maxDistance (hypot : K → K → K) (self : BBox K) (x y : K) : K :=
  let dx := max (|x - self.x_min|) (|x - self.x_max|)
  let dy := max (|y - self.y_min|) (|y - self.y_max|)
  hypot dx dy

/-- Method `BBox::collision`. -/
def collision (self box : BBox K) : Bool :=
  !(decide (box.x_min > self.x_max) || decide (box.x_max < self.x_min)
    || decide (box.y_min > self.y_max) || decide (box.y_max < self.y_min))

end BBox

namespace AABBtree

/-- Member `pBBox`. -/
def pBBox : AABBtree K → Option (BBox K)
  | mk b _ => b

/-- Member `children`. -/
def children : AABBtree K → List (AABBtree K)
  | mk _ c => c

/-- Method `AABBtree::clear`: `pBBox.reset(); children.clear();`. -/
def clear (_self : AABBtree K) : AABBtree K := mk none []

/-- Method `AABBtree::empty`. -/
def empty (self : AABBtree K) : Bool := self.children.isEmpty && self.pBBox.isNone

/-- Accessor `AABBtree::bbox(xmin, ymin, xmax, ymax)`: the four outputs, or
`none` when `pBBox` is null. -/
def bbox (self : AABBtree K) : Option (K × K × K × K) :=
  match self.pBBox with
  | none => none
  | some b => some (b.x_min, b.y_min, b.x_max, b.y_max)

/-- Lines 213-236 of `AABBtree::build`: the two `push_back` loops that fill
`posBoxes` and `negBoxes` from the node box; the result is
`(posBoxes, negBoxes)`. -/
def cutBoxes (box : BBox K) (bboxes : List (BBox K)) : List (BBox K) × List (BBox K) :=
  let xmin := box.x_min
  let ymin := box.y_min
  let xmax := box.x_max
  let ymax := box.y_max
  if (ymax - ymin) > (xmax - xmin) then
    let cutPos := (ymax + ymin) / 2
    bboxes.foldl (fun (acc : List (BBox K) × List (BBox K)) it =>
      let ymid := (it.y_min + it.y_max) / 2
      if ymid > cutPos then (acc.1 ++ [it], acc.2) else (acc.1, acc.2 ++ [it])) ([], [])
  else
    let cutPos := (xmax + xmin) / 2
    bboxes.foldl (fun (acc : List (BBox K) × List (BBox K)) it =>
      let xmid := (it.x_min + it.x_max) / 2
      if xmid > cutPos then (acc.1 ++ [it], acc.2) else (acc.1, acc.2 ++ [it])) ([], [])

/-- Lines 238-248 of `AABBtree::build`: when one side is empty the second
half of the other side is moved to it; takes and returns `(posBoxes, negBoxes)`. -/
def rebalance (pn : List (BBox K) × List (BBox K)) : List (BBox K) × List (BBox K) :=
  let posBoxes := pn.1
  let negBoxes := pn.2
  if negBoxes.isEmpty then
    let midIdx := posBoxes.length / 2
    (posBoxes.take midIdx, negBoxes ++ posBoxes.drop midIdx)
  else if posBoxes.isEmpty then
    let midIdx := negBoxes.length / 2
    (posBoxes ++ negBoxes.drop midIdx, negBoxes.take midIdx)
  else (posBoxes, negBoxes)

/-- The lists `(posBoxes, negBoxes)` that `AABBtree::build` hands to the two
recursive calls (lines 206-248). -/
def splitBoxes (bboxes : List (BBox K)) : List (BBox K) × List (BBox K) :=
  rebalance (cutBoxes (BBox.ofBoxes bboxes 0 0) bboxes)

/-- The loop of `cutBoxes` keeps every box: the two lists together are as long as
the input plus what was there before. -/
theorem cutLoop_length (p : BBox K → Prop) [DecidablePred p] (bboxes : List (BBox K)) :
    ∀ acc : List (BBox K) × List (BBox K),
      (bboxes.foldl (fun (acc : List (BBox K) × List (BBox K)) it =>
        if p it then (acc.1 ++ [it], acc.2) else (acc.1, acc.2 ++ [it])) acc).1.length +
      (bboxes.foldl (fun (acc : List (BBox K) × List (BBox K)) it =>
        if p it then (acc.1 ++ [it], acc.2) else (acc.1, acc.2 ++ [it])) acc).2.length
      = acc.1.length + acc.2.length + bboxes.length := by
  induction bboxes with
  | nil => intro acc; simp
  | cons b bs ih =>
    intro acc
    rw [List.foldl_cons, ih]
    by_cases h : p b <;> simp [h] <;> omega

theorem cutBoxes_length (box : BBox K) (bboxes : List (BBox K)) :
    (cutBoxes box bboxes).1.length + (cutBoxes box bboxes).2.length = bboxes.length := by
  unfold cutBoxes
  simp only []
  split
  · have h := cutLoop_length (fun it : BBox K => (it.y_min + it.y_max) / 2 > (box.y_max + box.y_min) / 2)
      bboxes ([], [])
    simpa using h
  · have h := cutLoop_length (fun it : BBox K => (it.x_min + it.x_max) / 2 > (box.x_max + box.x_min) / 2)
      bboxes ([], [])
    simpa using h

/-- Both lists of `rebalance` are non-empty and shorter than the two inputs
together, as soon as the inputs hold at least two boxes. -/
theorem rebalance_length (pn : List (BBox K) × List (BBox K))
    (h : 2 ≤ pn.1.length + pn.2.length) :
    0 < (rebalance pn).1.length ∧ (rebalance pn).1.length < pn.1.length + pn.2.length ∧
    0 < (rebalance pn).2.length ∧ (rebalance pn).2.length < pn.1.length + pn.2.length ∧
    (rebalance pn).1.length + (rebalance pn).2.length = pn.1.length + pn.2.length := by
  obtain ⟨pos, neg⟩ := pn
  simp only [] at h
  by_cases hn : neg = []
  · subst hn
    simp only [rebalance, List.isEmpty_nil, if_true, List.length_take, List.nil_append,
      List.length_drop, List.length_nil, Nat.add_zero] at *
    omega
  · have hn0 : 0 < neg.length := List.length_pos.mpr hn
    by_cases hp : pos = []
    · subst hp
      simp only [rebalance, List.isEmpty_eq_true, hn, if_false, List.isEmpty_nil, if_true,
        List.length_take, List.nil_append, List.length_drop, List.length_nil, Nat.zero_add] at *
      omega
    · have hp0 : 0 < pos.length := List.length_pos.mpr hp
      simp only [rebalance, List.isEmpty_eq_true, hn, hp, if_false]
      exact ⟨hp0, by omega, hn0, by omega, trivial⟩

theorem splitBoxes_length (bboxes : List (BBox K)) (h : 2 ≤ bboxes.length) :
    0 < (splitBoxes bboxes).1.length ∧ (splitBoxes bboxes).1.length < bboxes.length ∧
    0 < (splitBoxes bboxes).2.length ∧ (splitBoxes bboxes).2.length < bboxes.length ∧
    (splitBoxes bboxes).1.length + (splitBoxes bboxes).2.length = bboxes.length := by
  have hc := cutBoxes_length (BBox.ofBoxes bboxes 0 0) bboxes
  have hr := rebalance_length (cutBoxes (BBox.ofBoxes bboxes 0 0) bboxes) (by omega)
  unfold splitBoxes
  omega

/-- Method `AABBtree::build`: the state of the tree after the call, from its
state before and the list of boxes.  The two children are built from fresh
trees (`make_shared<AABBtree>()`). -/
def build (self : AABBtree K) (bboxes : List (BBox K)) : AABBtree K :=
  let self := self.clear
  if hempty : bboxes.isEmpty then self
  else
    if hsize : bboxes.length = 1 then mk bboxes.head? self.children
    else
      let self := mk (some (BBox.ofBoxes bboxes 0 0)) self.children
      let posBoxes := (splitBoxes bboxes).1
      let negBoxes := (splitBoxes bboxes).2
      let neg := build (mk none []) negBoxes
      let self := if !neg.empty then mk self.pBBox (self.children ++ [neg]) else self
      let pos := build (mk none []) posBoxes
      let self := if !pos.empty then mk self.pBBox (self.children ++ [pos]) else self
      self
termination_by bboxes.length
decreasing_by
  · have hne : bboxes ≠ [] := by simpa using hempty
    have hpos := List.length_pos.mpr hne
    have hsize1 : bboxes.length ≠ 1 := hsize
    exact (splitBoxes_length bboxes (by omega)).2.2.2.1
  · have hne : bboxes ≠ [] := by simpa using hempty
    have hpos := List.length_pos.mpr hne
    have hsize1 : bboxes.length ≠ 1 := hsize
    exact (splitBoxes_length bboxes (by omega)).2.1

mutual
/-- Method `AABBtree::intersect`: the list `intersectionList` after the call. -/
def intersect : AABBtree K → AABBtree K → List (BBox K × BBox K) → Bool →
    Option (List (BBox K × BBox K))
  | mk selfBox selfChildren, mk treeBox treeChildren, intersectionList, swap_tree =>
    match treeBox, selfBox with
    | some tb, some sb =>
      if !tb.collision sb then some intersectionList
      else
        let icase : Int := (if selfChildren.isEmpty then 0 else 1) + (if treeChildren.isEmpty then 0 else 2)
        if icase = 0 then
          if swap_tree then some (intersectionList ++ [(tb, sb)])
          else some (intersectionList ++ [(sb, tb)])
        else if icase = 1 then
          intersectEach (mk (some tb) treeChildren) selfChildren intersectionList (!swap_tree)
        else if icase = 2 then
          intersectEach (mk (some sb) selfChildren) treeChildren intersectionList swap_tree
        else if icase = 3 then
          intersectCross selfChildren treeChildren intersectionList swap_tree
        else some intersectionList
    | _, _ => none
termination_by self tree => 2 * (sizeOf self + sizeOf tree)
/-- The loop `for (it = cs.begin(); it != cs.end(); ++it) node.intersect(**it, ...)`. -/
def intersectEach : AABBtree K → List (AABBtree K) → List (BBox K × BBox K) → Bool →
    Option (List (BBox K × BBox K))
  | _, [], intersectionList, _ => some intersectionList
  | node, it :: rest, intersectionList, swap_tree =>
    match intersect node it intersectionList swap_tree with
    | none => none
    | some intersectionList => intersectEach node rest intersectionList swap_tree
termination_by node cs => 2 * (sizeOf node + sizeOf cs) + 1
/-- The double loop of case 3 of `AABBtree::intersect`. -/
def intersectCross : List (AABBtree K) → List (AABBtree K) → List (BBox K × BBox K) → Bool →
    Option (List (BBox K × BBox K))
  | [], _, intersectionList, _ => some intersectionList
  | c1 :: rest, cs2, intersectionList, swap_tree =>
    match intersectEach c1 cs2 intersectionList swap_tree with
    | none => none
    | some intersectionList => intersectCross rest cs2 intersectionList swap_tree
termination_by cs1 cs2 => 2 * (sizeOf cs1 + sizeOf cs2) + 2
end

mutual
/-- Method `AABBtree::collision` with the functor `ifun`. -/
def collision : AABBtree K → AABBtree K → (BBox K → BBox K → Bool) → Bool → Option Bool
  | mk selfBox selfChildren, mk treeBox treeChildren, ifun, swap_tree =>
    match treeBox, selfBox with
    | some tb, some sb =>
      if !tb.collision sb then some false
      else
        let icase : Int := (if selfChildren.isEmpty then 0 else 1) + (if treeChildren.isEmpty then 0 else 2)
        if icase = 0 then
          if swap_tree then some (ifun tb sb)
          else some (ifun sb tb)
        else if icase = 1 then
          collisionEach (mk (some tb) treeChildren) selfChildren ifun (!swap_tree)
        else if icase = 2 then
          collisionEach (mk (some sb) selfChildren) treeChildren ifun swap_tree
        else if icase = 3 then
          collisionCross selfChildren treeChildren ifun swap_tree
        else some false
    | _, _ => none
termination_by self tree => 2 * (sizeOf self + sizeOf tree)
/-- The loop `for (it ...) if (node.collision(**it, ifun, swap)) return true;`
followed by the `return false` after the `switch`. -/
def collisionEach : AABBtree K → List (AABBtree K) → (BBox K → BBox K → Bool) → Bool → Option Bool
  | _, [], _, _ => some false
  | node, it :: rest, ifun, swap_tree =>
    match collision node it ifun swap_tree with
    | none => none
    | some true => some true
    | some false => collisionEach node rest ifun swap_tree
termination_by node cs => 2 * (sizeOf node + sizeOf cs) + 1
/-- The double loop of case 3 of `AABBtree::collision`. -/
def collisionCross : List (AABBtree K) → List (AABBtree K) → (BBox K → BBox K → Bool) → Bool →
    Option Bool
  | [], _, _, _ => some false
  | c1 :: rest, cs2, ifun, swap_tree =>
    match collisionEach c1 cs2 ifun swap_tree with
    | none => none
    | some true => some true
    | some false => collisionCross rest cs2 ifun swap_tree
termination_by cs1 cs2 => 2 * (sizeOf cs1 + sizeOf cs2) + 2
end

mutual
/-- Method `AABBtree::collision` run with a functor that records its invocations:
every call `ifun(p, q)` of the source appends `(p, q)` to `log` before it answers.
The result is the returned value together with the log after the call. -/
def collisionLog : AABBtree K → AABBtree K → (BBox K → BBox K → Bool) → Bool →
    List (BBox K × BBox K) → Option (Bool × List (BBox K × BBox K))
  | mk selfBox selfChildren, mk treeBox treeChildren, ifun, swap_tree, log =>
    match treeBox, selfBox with
    | some tb, some sb =>
      if !tb.collision sb then some (false, log)
      else
        let icase : Int := (if selfChildren.isEmpty then 0 else 1) + (if treeChildren.isEmpty then 0 else 2)
        if icase = 0 then
          if swap_tree then some (ifun tb sb, log ++ [(tb, sb)])
          else some (ifun sb tb, log ++ [(sb, tb)])
        else if icase = 1 then
          collisionLogEach (mk (some tb) treeChildren) selfChildren ifun (!swap_tree) log
        else if icase = 2 then
          collisionLogEach (mk (some sb) selfChildren) treeChildren ifun swap_tree log
        else if icase = 3 then
          collisionLogCross selfChildren treeChildren ifun swap_tree log
        else some (false, log)
    | _, _ => none
termination_by self tree => 2 * (sizeOf self + sizeOf tree)
/-- The loop of `collisionEach`, with the log of invocations. -/
def collisionLogEach : AABBtree K → List (AABBtree K) → (BBox K → BBox K → Bool) → Bool →
    List (BBox K × BBox K) → Option (Bool × List (BBox K × BBox K))
  | _, [], _, _, log => some (false, log)
  | node, it :: rest, ifun, swap_tree, log =>
    match collisionLog node it ifun swap_tree log with
    | none => none
    | some (true, log) => some (true, log)
    | some (false, log) => collisionLogEach node rest ifun swap_tree log
termination_by node cs => 2 * (sizeOf node + sizeOf cs) + 1
/-- The double loop of `collisionCross`, with the log of invocations. -/
def collisionLogCross : List (AABBtree K) → List (AABBtree K) → (BBox K → BBox K → Bool) →
    Bool → List (BBox K × BBox K) → Option (Bool × List (BBox K × BBox K))
  | [], _, _, _, log => some (false, log)
  | c1 :: rest, cs2, ifun, swap_tree, log =>
    match collisionLogEach c1 cs2 ifun swap_tree log with
    | none => none
    | some (true, log) => some (true, log)
    | some (false, log) => collisionLogCross rest cs2 ifun swap_tree log
termination_by cs1 cs2 => 2 * (sizeOf cs1 + sizeOf cs2) + 2
end

mutual
/-- Static method `AABBtree::min_maxdist`. -/
def min_maxdist (hypot : K → K → K) (x y : K) : AABBtree K → WithTop K → Option (WithTop K)
  | mk pBBox children, mmDist =>
    if children.isEmpty then
      match pBBox with
      | none => none
      | some b =>
        let dst := b.maxDistance hypot x y
        some (min (dst : WithTop K) mmDist)
    else
      match pBBox with
      | none => none
      | some b =>
        let dmin := b.distance hypot x y
        if (dmin : WithTop K) > mmDist then some mmDist
        else min_maxdistLoop hypot x y children mmDist
/-- The loop `mmDist = min_maxdist(x, y, **it, mmDist)` over the children. -/
def min_maxdistLoop (hypot : K → K → K) (x y : K) : List (AABBtree K) → WithTop K → Option (WithTop K)
  | [], mmDist => some mmDist
  | it :: rest, mmDist =>
    match min_maxdist hypot x y it mmDist with
    | none => none
    | some mmDist => min_maxdistLoop hypot x y rest mmDist
end

mutual
/-- Static method `AABBtree::min_maxdist_select`: the list `candidateList`
after the call. -/
def min_maxdist_select (hypot : K → K → K) (x y : K) (mmDist : WithTop K) :
    AABBtree K → List (BBox K) → Option (List (BBox K))
  | mk pBBox children, candidateList =>
    match pBBox with
    | none => none
    | some b =>
      let dst := b.distance hypot x y
      if (dst : WithTop K) ≤ mmDist then
        if children.isEmpty then some (candidateList ++ [b])
        else min_maxdist_selectLoop hypot x y mmDist children candidateList
      else some candidateList
/-- The loop over the children in `AABBtree::min_maxdist_select`. -/
def min_maxdist_selectLoop (hypot : K → K → K) (x y : K) (mmDist : WithTop K) :
    List (AABBtree K) → List (BBox K) → Option (List (BBox K))
  | [], candidateList => some candidateList
  | it :: rest, candidateList =>
    match min_maxdist_select hypot x y mmDist it candidateList with
    | none => none
    | some candidateList => min_maxdist_selectLoop hypot x y mmDist rest candidateList
end

/-- Method `AABBtree::min_distance`: the list `candidateList` after the call. -/
def min_distance (hypot : K → K → K) (self : AABBtree K) (x y : K)
    (candidateList : List (BBox K)) : Option (List (BBox K)) :=
  match min_maxdist hypot x y self ⊤ with
  | none => none
  | some mmDist => min_maxdist_select hypot x y mmDist self candidateList

mutual
/-- The boxes of the leaf nodes (nodes whose `children` is empty) of a tree,
from left to right. -/
def leaves : AABBtree K → List (BBox K)
  | mk pBBox [] => pBBox.toList
  | mk _ (c :: cs) => leaves c ++ leavesList cs
/-- The leaf boxes of a list of trees, from left to right. -/
def leavesList : List (AABBtree K) → List (BBox K)
  | [] => []
  | c :: cs => leaves c ++ leavesList cs
end

mutual
/-- All the nodes of a tree: the tree itself and the nodes of its children. -/
def subtrees : AABBtree K → List (AABBtree K)
  | mk pBBox children => mk pBBox children :: subtreesList children
/-- All the nodes of a list of trees. -/
def subtreesList : List (AABBtree K) → List (AABBtree K)
  | [] => []
  | c :: cs => subtrees c ++ subtreesList cs
end

end AABBtree

/-! ## PolyLine: the cached tree -/

/-- The members of `LineSegment` that the tree code of `PolyLine` calls, and the
constant `G2LIB_LINE`; `LineSegment` is declared in another header of the library. -/
structure LineSegmentOps (S K : Type) where
  bbox : S → K × K × K × K
  translate : K → K → S → S
  collision : S → S → Bool
  G2LIB_LINE : Int

/-- The members of `PolyLine` that its tree code reads and writes: the segments,
the flag `m_aabb_done` and the cached `m_aabb_tree`. -/
structure PolyLine (S K : Type) where
  m_polylineList : List S
  m_aabb_done : Bool
  m_aabb_tree : AABBtree K

namespace PolyLine

variable {S : Type}

/-- The loop of `PolyLine::build_AABBtree(AABBtree &)` that fills `bboxes`, with its
counter `ipos`. -/
def segmentBoxes (ops : LineSegmentOps S K) (self : PolyLine S K) : List (BBox K) :=
  (self.m_polylineList.foldl (fun (acc : List (BBox K) × Int) it =>
    let r := ops.bbox it
    (acc.1 ++ [(⟨r.1, r.2.1, r.2.2.1, r.2.2.2, ops.G2LIB_LINE, acc.2⟩ : BBox K)], acc.2 + 1))
    (([] : List (BBox K)), (0 : Int))).1

/-- Method `PolyLine::build_AABBtree(AABBtree & aabbtree)`: the tree after the call. -/
def build_AABBtree_into (ops : LineSegmentOps S K) (self : PolyLine S K)
    (aabbtree : AABBtree K) : AABBtree K :=
  aabbtree.build (segmentBoxes ops self)

/-- Method `PolyLine::build_AABBtree()`: the poly line after the call. -/
def build_AABBtree (ops : LineSegmentOps S K) (self : PolyLine S K) : PolyLine S K :=
  if !self.m_aabb_done then
    { self with m_aabb_tree := build_AABBtree_into ops self self.m_aabb_tree,
                m_aabb_done := true }
  else self

/-- Method `PolyLine::translate`: the poly line after the call. -/
def translate (ops : LineSegmentOps S K) (self : PolyLine S K) (tx ty : K) : PolyLine S K :=
  { self with m_polylineList := self.m_polylineList.map (ops.translate tx ty) }

/-- The functor `PolyLine::Collision_list`; an index outside the segment list, which
the source does not guard, is read as `false`. -/
def Collision_list (ops : LineSegmentOps S K) (pPL1 pPL2 : PolyLine S K)
    (ptr1 ptr2 : BBox K) : Bool :=
  match pPL1.m_polylineList[ptr1.Ipos.toNat]?, pPL2.m_polylineList[ptr2.Ipos.toNat]? with
  | some LS1, some LS2 => ops.collision LS1 LS2
  | _, _ => false

/-- Method `PolyLine::collision(PolyLine const & C)`: the returned value, `none` when
the traversal dereferences a null pointer. -/
def collision (ops : LineSegmentOps S K) (self C : PolyLine S K) : Option Bool :=
  let self := self.build_AABBtree ops
  let C := C.build_AABBtree ops
  self.m_aabb_tree.collision C.m_aabb_tree (Collision_list ops self C) false

end PolyLine

/-! ## The Python binding of `BBox` and `AABBtree` -/

namespace Py

/-- The constructor `BBox(extrema, id, ipos)` of the Python binding. -/
def BBox_init_extrema (extrema : (K × K) × (K × K)) (id ipos : Int) : BBox K :=
  let x_min := extrema.1.1
  let y_min := extrema.2.1
  let x_max := extrema.1.2
  let y_max := extrema.2.2
  ⟨x_min, y_min, x_max, y_max, id, ipos⟩

/-- The method `AABBtree.bbox()` of the Python binding. -/
def AABBtree_bbox (self : AABBtree K) : Option ((K × K) × (K × K)) :=
  match self.bbox with
  | none => none
  | some (x_min, y_min, x_max, y_max) => some ((x_min, y_min), (x_max, y_max))

end Py

/-! ## The interval search of `Utils.hxx` -/

namespace Utils

/-- The read `X[i]` through the pointer `X`: `none` outside the array. -/
def rd (X : List K) (i : Int) : Option K :=
  if 0 ≤ i then X[i.toNat]? else none

/-- Function `Utils::isZero`: `FP_ZERO == std::fpclassify(x)`. -/
def isZero (x : K) : Bool := decide (x = 0)

/-- The loop of `std::lower_bound`: the binary search over the `len` elements that
start at index `first`. -/
def lower_boundLoop (X : List K) (x : K) (first : Int) (len : Nat) : Option Int :=
  if h : 0 < len then
    let half := len / 2
    let middle := first + half
    match rd X middle with
    | none => none
    | some v =>
      if v < x then lower_boundLoop X x (middle + 1) (len - half - 1)
      else lower_boundLoop X x first half
  else some first
termination_by len
decreasing_by
  all_goals simp_wf
  all_goals omega

/-- The call `std::lower_bound(X + first, X + last, x) - X`. -/
def lower_bound (X : List K) (first last : Int) (x : K) : Option Int :=
  lower_boundLoop X x first (last - first).toNat

/-- Function `Utils::search_interval`: the values of `x` and `*lastInterval` after the
call, `none` when an assertion fails or a read is outside the array. -/
def search_interval (fmod : K → K → K) (npts : Int) (X : List K) (x : K) (lastInterval : Int)
    (closed can_extend : Bool) : Option (K × Int) :=
  let n := npts - 1
  if !(decide (npts > 1) && decide (lastInterval ≥ 0) && decide (lastInterval < n)) then none
  else
    (rd X 0).bind fun xl =>
    (rd X n).bind fun xr =>
    (if closed then
        let L := xr - xl
        let x := x - xl
        let x := fmod x L
        let x := x + (if x < 0 then L else 0)
        let x := x + xl
        some x
      else if !(can_extend || (decide (x ≥ xl) && decide (x ≤ xr))) then none
      else some x).bind fun x =>
    let XL := lastInterval
    (rd X (XL + 1)).bind fun XL1 =>
    (if XL1 < x then
      (rd X (n - 1)).bind fun Xn1 =>
        if x ≥ Xn1 then some (n - 1)
        else (rd X (XL + 2)).bind fun XL2 =>
          if x < XL2 then some (lastInterval + 1)
          else (lower_bound X XL n x).bind fun it =>
            let lastInterval := lastInterval + (it - XL)
            let XX := lastInterval
            (rd X XX).bind fun XX0 =>
              if x < XX0 then some (lastInterval - 1)
              else (rd X (XX + 1)).bind fun XX1 =>
                if isZero (XX0 - XX1) then some (lastInterval - 1) else some lastInterval
    else
      (rd X XL).bind fun XL0 =>
        if x < XL0 then
          (rd X 1).bind fun X1 =>
            if x ≤ X1 then some 0
            else (rd X (XL - 1)).bind fun XLm1 =>
              if XLm1 ≤ x then some (lastInterval - 1)
              else (lower_bound X 1 XL x).bind fun it =>
                let lastInterval := it
                let XX := lastInterval
                (rd X XX).bind fun XX0 =>
                  if x < XX0 then some (lastInterval - 1)
                  else (rd X (XX + 1)).bind fun XX1 =>
                    if isZero (XX0 - XX1) then some (lastInterval - 1) else some lastInterval
        else some lastInterval).bind fun lastInterval =>
    if !(decide (lastInterval ≥ 0) && decide (lastInterval < n)) then none
    else some (x, lastInterval)

end Utils

end Defs

/-! ## Notions used to state the properties -/

section SpecDefs

variable {K : Type} [LinearOrderedField K]

/-- The box `outer` encloses the box `inner`. -/
def BBox.covers (outer inner : BBox K) : Prop :=
  outer.x_min ≤ inner.x_min ∧ outer.y_min ≤ inner.y_min ∧
  inner.x_max ≤ outer.x_max ∧ inner.y_max ≤ outer.y_max

namespace AABBtree

mutual
/-- Every node of the tree has a box, and the box encloses every leaf box below it. -/
def Valid : AABBtree K → Prop
  | mk pBBox cs => (∃ b, pBBox = some b ∧ ∀ l ∈ leaves (mk pBBox cs), b.covers l) ∧ ValidList cs
/-- Every tree of the list is `Valid`. -/
def ValidList : List (AABBtree K) → Prop
  | [] => True
  | c :: cs => Valid c ∧ ValidList cs
end

/-- The pair handed to the output for the leaves `a` of `self` and `b` of `tree`. -/
def orient (swap_tree : Bool) (a b : BBox K) : BBox K × BBox K :=
  if swap_tree then (b, a) else (a, b)

/-- What `intersect` has to add for the leaf lists `xs` of `self` and `ys` of `tree`:
each colliding pair as often as it occurs, oriented by `swap_tree`, and nothing else. -/
def PairsOf (swap_tree : Bool) (xs ys : List (BBox K)) (l : List (BBox K × BBox K)) : Prop :=
  ∀ a b, l.count (orient swap_tree a b) = if a.collision b then xs.count a * ys.count b else 0

/-- The contract of `intersect` on one pair of nodes. -/
def IntersectOK (self tree : AABBtree K) : Prop :=
  ∀ out swap, ∃ l, intersect self tree out swap = some (out ++ l) ∧
    PairsOf swap (leaves self) (leaves tree) l

/-- Some leaf of `xs` and some leaf of `ys` collide and satisfy the functor, which
gets its arguments in the order given by `swap_tree`. -/
def Hit (ifun : BBox K → BBox K → Bool) (swap_tree : Bool) (xs ys : List (BBox K)) : Prop :=
  ∃ a ∈ xs, ∃ b ∈ ys, a.collision b = true ∧
    (if swap_tree then ifun b a else ifun a b) = true

/-- The contract of `collision` on one pair of nodes. -/
def CollisionOK (ifun : BBox K → BBox K → Bool) (self tree : AABBtree K) : Prop :=
  ∀ swap, ∃ r, collision self tree ifun swap = some r ∧
    (r = true ↔ Hit ifun swap (leaves self) (leaves tree))

/-- The pair `p` is what the functor receives for some leaf of `xs` and some leaf of
`ys`, in the order given by `swap_tree`. -/
def IsCall (swap_tree : Bool) (xs ys : List (BBox K)) (p : BBox K × BBox K) : Prop :=
  ∃ a ∈ xs, ∃ b ∈ ys, p = orient swap_tree a b

/-- The contract of the logged `collision` on one pair of nodes: it returns what
`collision` returns, and it extends the log by invocations on leaf pairs only. -/
def LogOK (ifun : BBox K → BBox K → Bool) (self tree : AABBtree K) : Prop :=
  ∀ swap log, ∃ r l, collisionLog self tree ifun swap log = some (r, log ++ l) ∧
    collision self tree ifun swap = some r ∧
    ∀ p ∈ l, IsCall swap (leaves self) (leaves tree) p

/-- The partition "by y-midpoints against the y-midpoint of the node box":
`(posBoxes, negBoxes)` with the boxes whose y-midpoint is above the cut first. -/
def partitionByY (box : BBox K) (bboxes : List (BBox K)) : List (BBox K) × List (BBox K) :=
  (bboxes.filter (fun it => decide ((it.y_min + it.y_max) / 2 > (box.y_max + box.y_min) / 2)),
   bboxes.filter (fun it => !decide ((it.y_min + it.y_max) / 2 > (box.y_max + box.y_min) / 2)))

/-- The partition "by x-midpoints against the x-midpoint of the node box":
`(posBoxes, negBoxes)` with the boxes whose x-midpoint is right of the cut first. -/
def partitionByX (box : BBox K) (bboxes : List (BBox K)) : List (BBox K) × List (BBox K) :=
  (bboxes.filter (fun it => decide ((it.x_min + it.x_max) / 2 > (box.x_max + box.x_min) / 2)),
   bboxes.filter (fun it => !decide ((it.x_min + it.x_max) / 2 > (box.x_max + box.x_min) / 2)))

/-- The node box is split along y: its height is larger than its width. -/
def splitsOnY (box : BBox K) : Prop :=
  box.y_max - box.y_min > box.x_max - box.x_min

instance (box : BBox K) : Decidable (splitsOnY box) := by
  unfold splitsOnY; infer_instance

/-- The midpoint `(min + max) / 2` of a box on the split axis of the node box. -/
def axisMid (box it : BBox K) : K :=
  if splitsOnY box then (it.y_min + it.y_max) / 2 else (it.x_min + it.x_max) / 2

/-- The midpoint `cutPos` of the node box on its split axis. -/
def cutPos (box : BBox K) : K :=
  if splitsOnY box then (box.y_max + box.y_min) / 2 else (box.x_max + box.x_min) / 2

/-- The least `maxDistance` from `(x, y)` over a list of boxes, `⊤` for no box. -/
def leastMaxDistance (hypot : K → K → K) (x y : K) (ls : List (BBox K)) : WithTop K :=
  (ls.map (fun L => L.maxDistance hypot x y)).minimum

end AABBtree

end SpecDefs

/-- The function `std::hypot` over the reals. -/
noncomputable def hypot (a b : ℝ) : ℝ := Real.sqrt (a ^ 2 + b ^ 2)

/-- Euclidean distance between the points `(px, py)` and `(qx, qy)`. -/
noncomputable def euclid (px py qx qy : ℝ) : ℝ := Real.sqrt ((px - qx) ^ 2 + (py - qy) ^ 2)

/-- The closed rectangle of a box contains the point `(qx, qy)`. -/
def BBox.contains {K : Type} [LinearOrderedField K] (b : BBox K) (qx qy : K) : Prop :=
  b.x_min ≤ qx ∧ qx ≤ b.x_max ∧ b.y_min ≤ qy ∧ qy ≤ b.y_max

/-- A box is well formed: `x_min ≤ x_max` and `y_min ≤ y_max`. -/
def BBox.wellFormed {K : Type} [LinearOrderedField K] (b : BBox K) : Prop :=
  b.x_min ≤ b.x_max ∧ b.y_min ≤ b.y_max

/-- A freshly constructed tree, `AABBtree()`. -/
def AABBtree.fresh {K : Type} : AABBtree K := AABBtree.mk none []

namespace AABBtree

/-- The contract of `min_maxdist` on one node: it returns, and the bound it returns
is either the finite bound it was given or the `maxDistance` of a leaf below. -/
def BoundOK (x y : ℝ) (tree : AABBtree ℝ) : Prop :=
  ∀ m : WithTop ℝ, ∃ r, min_maxdist hypot x y tree m = some r ∧
    ((r = m ∧ m ≠ ⊤) ∨ ∃ L ∈ leaves tree, r = ((L.maxDistance hypot x y : ℝ) : WithTop ℝ))

/-- The box `L` holds a point within the bound `mm` of `(x, y)`. -/
def Near (x y : ℝ) (mm : WithTop ℝ) (L : BBox ℝ) : Prop :=
  ∃ qx qy : ℝ, L.contains qx qy ∧ ((euclid x y qx qy : ℝ) : WithTop ℝ) ≤ mm

/-- The contract of `min_maxdist_select` on one node: it appends to the candidate
list, and what it appends holds every leaf box below with a point within the bound. -/
def SelectOK (x y : ℝ) (mm : WithTop ℝ) (tree : AABBtree ℝ) : Prop :=
  ∀ cand : List (BBox ℝ), ∃ l, min_maxdist_select hypot x y mm tree cand = some (cand ++ l) ∧
    ∀ L ∈ leaves tree, Near x y mm L → L ∈ l

end AABBtree

/-- The three boxes of the end-to-end scenario of the specification. -/
def scenarioBoxes (K : Type) [LinearOrderedField K] : List (BBox K) :=
  [⟨0, 0, 1, 1, 0, 0⟩, ⟨2, 2, 3, 3, 0, 1⟩, ⟨0, 2, 1, 3, 0, 2⟩]

/-- The query box of the end-to-end scenario of the specification. -/
def queryBoxes (K : Type) [LinearOrderedField K] : List (BBox K) :=
  [⟨1 / 2, 1 / 2, 2, 2, 0, 0⟩]

/-- The lower left corner of each box of a list, as a choice of one point in
each box. -/
def cornerPoints {K : Type} [LinearOrderedField K] (bs : List (BBox K)) :
    Fin bs.length → K × K :=
  fun j => ((bs.get j).x_min, (bs.get j).y_min)

/-- Two boxes whose union is the square `[0, 2] × [0, 2]`: width and height of the
node box are equal. -/
def tieBoxes : List (BBox ℚ) :=
  [⟨1, 0, 2, 2, 0, 0⟩, ⟨0, 0, 1, 2, 0, 1⟩]

/-- A line segment as its two end points: its box is spanned by the end points,
a translation moves both; segments always collide. -/
def pointSegments : LineSegmentOps ((ℚ × ℚ) × (ℚ × ℚ)) ℚ where
  bbox s := (min s.1.1 s.2.1, min s.1.2 s.2.2, max s.1.1 s.2.1, max s.1.2 s.2.2)
  translate tx ty s := ((s.1.1 + tx, s.1.2 + ty), (s.2.1 + tx, s.2.2 + ty))
  collision _ _ := true
  G2LIB_LINE := 0

/-- Three boxes that share the center `(1, 1)`. -/
def sameCenterBoxes : List (BBox ℚ) :=
  [⟨0, 0, 2, 2, 0, 0⟩, ⟨0, 0, 2, 2, 0, 1⟩, ⟨0, 0, 2, 2, 0, 2⟩]

/-- The value read at an index inside the array. -/
def Utils.val {K : Type} [LinearOrderedField K] (X : List K) (i : Int) : K := X.getD i.toNat 0

/-! ## Point distance of a box -/

theorem gap_of_lt {lo hi t : ℝ} (h : lo ≤ hi) (ht : t < lo) :
    max (lo - t) (max 0 (t - hi)) = lo - t := by
  rw [max_eq_left]
  apply max_le <;> linarith

theorem gap_of_gt {lo hi t : ℝ} (h : lo ≤ hi) (ht : hi < t) :
    max (lo - t) (max 0 (t - hi)) = t - hi := by
  rw [max_eq_right, max_eq_right] <;> [linarith; (apply le_max_of_le_right; linarith)]

theorem gap_of_mem {lo hi t : ℝ} (h1 : ¬ t < lo) (h2 : ¬ hi < t) :
    max (lo - t) (max 0 (t - hi)) = 0 := by
  rw [max_eq_right, max_eq_left] <;> [linarith; (apply le_max_of_le_left; linarith)]

theorem distance_eq_sqrt (b : BBox ℝ) (x y : ℝ) (hx : b.x_min ≤ b.x_max) (hy : b.y_min ≤ b.y_max) :
    b.distance hypot x y =
      Real.sqrt (max (b.x_min - x) (max 0 (x - b.x_max)) ^ 2
        + max (b.y_min - y) (max 0 (y - b.y_max)) ^ 2) := by
  have e1 : ∀ u v : ℝ, (u - v) ^ 2 = (v - u) ^ 2 := fun u v => by ring
  have s1 : ∀ u : ℝ, 0 ≤ u → Real.sqrt (u ^ 2 + 0 ^ 2) = u := fun u hu => by
    rw [zero_pow two_ne_zero, add_zero, Real.sqrt_sq hu]
  have s2 : ∀ u : ℝ, 0 ≤ u → Real.sqrt (0 ^ 2 + u ^ 2) = u := fun u hu => by
    rw [zero_pow two_ne_zero, zero_add, Real.sqrt_sq hu]
  unfold BBox.distance hypot
  by_cases hx1 : x < b.x_min
  · have hx2 : ¬ x > b.x_max := by intro h; linarith
    rw [gap_of_lt hx hx1]
    by_cases hy1 : y < b.y_min
    · rw [gap_of_lt hy hy1]
      simp [hx1, hy1, e1 x, e1 y]
    · by_cases hy2 : y > b.y_max
      · rw [gap_of_gt hy hy2]
        simp [hx1, hy1, hy2, e1 x]
      · rw [gap_of_mem hy1 hy2, s1 _ (by linarith)]
        simp [hx1, hy1, hy2]
  · by_cases hx2 : x > b.x_max
    · rw [gap_of_gt hx hx2]
      by_cases hy1 : y < b.y_min
      · rw [gap_of_lt hy hy1]
        simp [hx1, hx2, hy1, e1 y]
      · by_cases hy2 : y > b.y_max
        · rw [gap_of_gt hy hy2]
          simp [hx1, hx2, hy1, hy2]
        · rw [gap_of_mem hy1 hy2, s1 _ (by linarith)]
          simp [hx1, hx2, hy1, hy2]
    · rw [gap_of_mem hx1 hx2]
      by_cases hy1 : y < b.y_min
      · rw [gap_of_lt hy hy1, s2 _ (by linarith)]
        simp [hx1, hx2, hy1]
      · by_cases hy2 : y > b.y_max
        · rw [gap_of_gt hy hy2, s2 _ (by linarith)]
          simp [hx1, hx2, hy1, hy2]
        · rw [gap_of_mem hy1 hy2]
          simp [hx1, hx2, hy1, hy2]

theorem gap_nonneg (lo hi t : ℝ) : 0 ≤ max (lo - t) (max 0 (t - hi)) :=
  le_max_of_le_right (le_max_left _ _)

theorem gap_eq_zero_iff (lo hi t : ℝ) :
    max (lo - t) (max 0 (t - hi)) = 0 ↔ lo ≤ t ∧ t ≤ hi := by
  constructor
  · intro h
    have h1 : lo - t ≤ max (lo - t) (max 0 (t - hi)) := le_max_left _ _
    have h2 : t - hi ≤ max (lo - t) (max 0 (t - hi)) :=
      le_max_of_le_right (le_max_right _ _)
    constructor <;> linarith
  · rintro ⟨h1, h2⟩
    exact gap_of_mem (by linarith) (by linarith)

theorem gap_sq_le (lo hi t q : ℝ) (h1 : lo ≤ q) (h2 : q ≤ hi) :
    max (lo - t) (max 0 (t - hi)) ^ 2 ≤ (t - q) ^ 2 := by
  rw [sq_le_sq, abs_of_nonneg (gap_nonneg lo hi t)]
  apply max_le
  · exact le_trans (by linarith) (neg_le_abs (t - q))
  · apply max_le (abs_nonneg _)
    exact le_trans (by linarith) (le_abs_self (t - q))

theorem gap_clamp (lo hi t : ℝ) (h : lo ≤ hi) :
    lo ≤ max lo (min t hi) ∧ max lo (min t hi) ≤ hi ∧
      (t - max lo (min t hi)) ^ 2 = max (lo - t) (max 0 (t - hi)) ^ 2 := by
  refine ⟨le_max_left _ _, max_le h (min_le_right _ _), ?_⟩
  by_cases h1 : t < lo
  · rw [gap_of_lt h h1, max_eq_left (le_trans (min_le_left _ _) h1.le)]; ring
  · by_cases h2 : hi < t
    · rw [gap_of_gt h h2, min_eq_right h2.le, max_eq_right h]
    · rw [gap_of_mem h1 h2, min_eq_left (not_lt.mp h2), max_eq_right (not_lt.mp h1)]; ring

theorem distance_le_euclid (b : BBox ℝ) (px py qx qy : ℝ) (hq : b.contains qx qy) :
    b.distance hypot px py ≤ euclid px py qx qy := by
  obtain ⟨h1, h2, h3, h4⟩ := hq
  rw [distance_eq_sqrt b px py (h1.trans h2) (h3.trans h4)]
  unfold euclid
  apply Real.sqrt_le_sqrt
  have := gap_sq_le b.x_min b.x_max px qx h1 h2
  have := gap_sq_le b.y_min b.y_max py qy h3 h4
  linarith

/-! ## Union of boxes -/

section Build

variable {K : Type} [LinearOrderedField K]

namespace BBox

theorem joinStep_eq (s c : BBox K) :
    joinStep s c = { x_min := min s.x_min c.x_min, y_min := min s.y_min c.y_min,
                     x_max := max s.x_max c.x_max, y_max := max s.y_max c.y_max,
                     m_id := s.m_id, m_ipos := s.m_ipos } := by
  have e1 : min s.x_min c.x_min = if c.x_min < s.x_min then c.x_min else s.x_min := by
    split_ifs with h
    · exact min_eq_right h.le
    · exact min_eq_left (not_lt.mp h)
  have e2 : min s.y_min c.y_min = if c.y_min < s.y_min then c.y_min else s.y_min := by
    split_ifs with h
    · exact min_eq_right h.le
    · exact min_eq_left (not_lt.mp h)
  have e3 : max s.x_max c.x_max = if c.x_max > s.x_max then c.x_max else s.x_max := by
    split_ifs with h
    · exact max_eq_right (le_of_lt h)
    · exact max_eq_left (not_lt.mp h)
  have e4 : max s.y_max c.y_max = if c.y_max > s.y_max then c.y_max else s.y_max := by
    split_ifs with h
    · exact max_eq_right (le_of_lt h)
    · exact max_eq_left (not_lt.mp h)
  rw [e1, e2, e3, e4]
  unfold joinStep
  by_cases h1 : c.x_min < s.x_min <;> by_cases h2 : c.y_min < s.y_min <;>
    by_cases h3 : c.x_max > s.x_max <;> by_cases h4 : c.y_max > s.y_max <;>
    simp [h1, h2, h3, h4]

theorem joinStep_x_min (s c : BBox K) : (joinStep s c).x_min = min s.x_min c.x_min := by
  rw [joinStep_eq]

theorem joinStep_y_min (s c : BBox K) : (joinStep s c).y_min = min s.y_min c.y_min := by
  rw [joinStep_eq]

theorem joinStep_x_max (s c : BBox K) : (joinStep s c).x_max = max s.x_max c.x_max := by
  rw [joinStep_eq]

theorem joinStep_y_max (s c : BBox K) : (joinStep s c).y_max = max s.y_max c.y_max := by
  rw [joinStep_eq]

theorem foldl_joinStep_x_min (rest : List (BBox K)) : ∀ s : BBox K,
    (((rest.foldl joinStep s).x_min : K) : WithTop K) = min ↑s.x_min (rest.map x_min).minimum := by
  induction rest with
  | nil => intro s; simp
  | cons c cs ih =>
    intro s
    rw [List.foldl_cons, ih, joinStep_x_min, List.map_cons, List.minimum_cons, WithTop.coe_min,
      min_assoc]

theorem foldl_joinStep_y_min (rest : List (BBox K)) : ∀ s : BBox K,
    (((rest.foldl joinStep s).y_min : K) : WithTop K) = min ↑s.y_min (rest.map y_min).minimum := by
  induction rest with
  | nil => intro s; simp
  | cons c cs ih =>
    intro s
    rw [List.foldl_cons, ih, joinStep_y_min, List.map_cons, List.minimum_cons, WithTop.coe_min,
      min_assoc]

theorem foldl_joinStep_x_max (rest : List (BBox K)) : ∀ s : BBox K,
    (((rest.foldl joinStep s).x_max : K) : WithBot K) = max ↑s.x_max (rest.map x_max).maximum := by
  induction rest with
  | nil => intro s; simp
  | cons c cs ih =>
    intro s
    rw [List.foldl_cons, ih, joinStep_x_max, List.map_cons, List.maximum_cons, WithBot.coe_max,
      max_assoc]

theorem foldl_joinStep_y_max (rest : List (BBox K)) : ∀ s : BBox K,
    (((rest.foldl joinStep s).y_max : K) : WithBot K) = max ↑s.y_max (rest.map y_max).maximum := by
  induction rest with
  | nil => intro s; simp
  | cons c cs ih =>
    intro s
    rw [List.foldl_cons, ih, joinStep_y_max, List.map_cons, List.maximum_cons, WithBot.coe_max,
      max_assoc]

/-- The extrema of a box joined over a non-empty list are the extrema of the list. -/
theorem join_extrema (s : BBox K) (bs : List (BBox K)) (h : bs ≠ []) :
    (bs.map x_min).minimum = ↑(join s bs).x_min ∧ (bs.map y_min).minimum = ↑(join s bs).y_min ∧
    (bs.map x_max).maximum = ↑(join s bs).x_max ∧ (bs.map y_max).maximum = ↑(join s bs).y_max := by
  cases bs with
  | nil => exact absurd rfl h
  | cons first rest =>
    simp only [join, List.map_cons, List.minimum_cons, List.maximum_cons,
      foldl_joinStep_x_min, foldl_joinStep_y_min, foldl_joinStep_x_max, foldl_joinStep_y_max]
    exact ⟨trivial, trivial, trivial, trivial⟩

end BBox

/-! ## Construction of the tree -/

namespace AABBtree

theorem build_nil (t : AABBtree K) : build t [] = mk none [] := by
  rw [build]; simp [clear]

theorem build_singleton (t : AABBtree K) (b : BBox K) : build t [b] = mk (some b) [] := by
  rw [build]; simp [clear, children]

theorem empty_eq_false_of_pBBox {t : AABBtree K} {b : BBox K} (h : t.pBBox = some b) :
    t.empty = false := by
  simp [empty, h]

theorem build_pBBox (t : AABBtree K) (bs : List (BBox K)) (h : bs ≠ []) :
    ∃ b, (build t bs).pBBox = some b := by
  rw [build]
  have h0 : bs.isEmpty = false := by simpa using h
  simp only [h0]
  by_cases h1 : bs.length = 1
  · obtain ⟨b, rfl⟩ := List.length_eq_one.mp h1
    exact ⟨b, by simp [pBBox]⟩
  · simp only [h1]
    refine ⟨BBox.ofBoxes bs 0 0, ?_⟩
    simp only [Bool.false_eq_true, ↓reduceDIte, ↓reduceIte]
    split <;> split <;> simp [pBBox]

theorem build_empty_eq_false (t : AABBtree K) (bs : List (BBox K)) (h : bs ≠ []) :
    (build t bs).empty = false := by
  obtain ⟨b, hb⟩ := build_pBBox t bs h
  exact empty_eq_false_of_pBBox hb

theorem build_node (t : AABBtree K) (bs : List (BBox K)) (h : 2 ≤ bs.length) :
    build t bs = mk (some (BBox.ofBoxes bs 0 0))
      [build (mk none []) (splitBoxes bs).2, build (mk none []) (splitBoxes bs).1] := by
  have hl := splitBoxes_length bs h
  have hneg : (splitBoxes bs).2 ≠ [] := List.length_pos.mp hl.2.2.1
  have hpos : (splitBoxes bs).1 ≠ [] := List.length_pos.mp hl.1
  have h0 : bs.isEmpty = false := by
    cases bs with
    | nil => simp at h
    | cons _ _ => rfl
  have h1 : ¬ bs.length = 1 := by omega
  rw [build]
  simp only [h0, h1, build_empty_eq_false _ _ hneg, build_empty_eq_false _ _ hpos]
  simp [clear, children, pBBox]


theorem cutLoop_eq (p : BBox K → Bool) (bs : List (BBox K)) :
    ∀ acc : List (BBox K) × List (BBox K),
      bs.foldl (fun (acc : List (BBox K) × List (BBox K)) it =>
        if p it = true then (acc.1 ++ [it], acc.2) else (acc.1, acc.2 ++ [it])) acc
      = (acc.1 ++ bs.filter p, acc.2 ++ bs.filter (fun b => !p b)) := by
  induction bs with
  | nil => intro acc; simp
  | cons b bs ih =>
    intro acc
    rw [List.foldl_cons, ih]
    by_cases h : p b = true <;> simp [h]

theorem cutBoxes_perm (box : BBox K) (bs : List (BBox K)) :
    ((cutBoxes box bs).1 ++ (cutBoxes box bs).2).Perm bs := by
  unfold cutBoxes
  simp only []
  split
  · have h := cutLoop_eq (fun it : BBox K => decide ((it.y_min + it.y_max) / 2 > (box.y_max + box.y_min) / 2))
      bs ([], [])
    simp only [decide_eq_true_eq] at h
    rw [h]
    exact List.filter_append_perm _ _
  · have h := cutLoop_eq (fun it : BBox K => decide ((it.x_min + it.x_max) / 2 > (box.x_max + box.x_min) / 2))
      bs ([], [])
    simp only [decide_eq_true_eq] at h
    rw [h]
    exact List.filter_append_perm _ _

theorem rebalance_perm (pn : List (BBox K) × List (BBox K)) :
    ((rebalance pn).2 ++ (rebalance pn).1).Perm (pn.1 ++ pn.2) := by
  obtain ⟨pos, neg⟩ := pn
  unfold rebalance
  simp only []
  split
  · rename_i hn
    have hn0 : neg = [] := by simpa using hn
    subst hn0
    simp only [List.nil_append, List.append_nil]
    exact (List.perm_append_comm).trans (by rw [List.take_append_drop])
  · split
    · rename_i hp
      have hp0 : pos = [] := by simpa using hp
      subst hp0
      simp only [List.nil_append]
      rw [List.take_append_drop]
    · exact List.perm_append_comm

theorem splitBoxes_perm (bs : List (BBox K)) :
    ((splitBoxes bs).2 ++ (splitBoxes bs).1).Perm bs :=
  (rebalance_perm _).trans (cutBoxes_perm _ bs)

theorem leaves_build (n : Nat) : ∀ (t : AABBtree K) (bs : List (BBox K)), bs.length ≤ n →
    (build t bs).leaves.Perm bs := by
  induction n with
  | zero =>
    intro t bs h
    have : bs = [] := List.length_eq_zero.mp (by omega)
    subst this
    rw [build_nil]; simp [leaves]
  | succ n ih =>
    intro t bs h
    by_cases h0 : bs = []
    · subst h0; rw [build_nil]; simp [leaves]
    by_cases h1 : bs.length = 1
    · obtain ⟨b, rfl⟩ := List.length_eq_one.mp h1
      rw [build_singleton]; simp [leaves]
    have h2 : 2 ≤ bs.length := by
      have := List.length_pos.mpr h0
      omega
    have hl := splitBoxes_length bs h2
    rw [build_node t bs h2]
    simp only [leaves, leavesList, List.append_nil]
    exact (List.Perm.append (ih _ _ (by omega)) (ih _ _ (by omega))).trans (splitBoxes_perm bs)



end AABBtree

/-! ## The invariant of built trees -/

namespace BBox

theorem collision_iff (a b : BBox K) :
    a.collision b = true ↔
      b.x_min ≤ a.x_max ∧ a.x_min ≤ b.x_max ∧ b.y_min ≤ a.y_max ∧ a.y_min ≤ b.y_max := by
  simp only [collision, Bool.not_eq_true', Bool.or_eq_false_iff, decide_eq_false_iff_not,
    not_lt, gt_iff_lt, and_assoc]

theorem collision_comm (a b : BBox K) : a.collision b = b.collision a := by
  rw [Bool.eq_iff_iff, collision_iff, collision_iff]
  tauto

theorem collision_of_covers {A B a b : BBox K} (hA : A.covers a) (hB : B.covers b)
    (h : a.collision b = true) : A.collision B = true := by
  rw [collision_iff] at h ⊢
  obtain ⟨a1, a2, a3, a4⟩ := hA
  obtain ⟨b1, b2, b3, b4⟩ := hB
  obtain ⟨h1, h2, h3, h4⟩ := h
  exact ⟨b1.trans (h1.trans a3), a1.trans (h2.trans b3), b2.trans (h3.trans a4),
    a2.trans (h4.trans b4)⟩

theorem covers_refl (a : BBox K) : a.covers a := ⟨le_rfl, le_rfl, le_rfl, le_rfl⟩

end BBox

namespace AABBtree

theorem validList_iff (cs : List (AABBtree K)) : ValidList cs ↔ ∀ c ∈ cs, Valid c := by
  induction cs with
  | nil => simp [ValidList]
  | cons c cs ih => simp [ValidList, ih]

theorem leaves_mk_nil (pb : Option (BBox K)) : leaves (mk pb []) = pb.toList := by
  rw [leaves]

theorem leaves_mk_of_ne_nil (pb : Option (BBox K)) {cs : List (AABBtree K)} (h : cs ≠ []) :
    leaves (mk pb cs) = leavesList cs := by
  cases cs with
  | nil => exact absurd rfl h
  | cons c cs => rw [leaves, leavesList]

theorem mem_leavesList {l : BBox K} (cs : List (AABBtree K)) :
    l ∈ leavesList cs ↔ ∃ c ∈ cs, l ∈ leaves c := by
  induction cs with
  | nil => simp [leavesList]
  | cons c cs ih => simp [leavesList, ih]

theorem valid_mk {pb : Option (BBox K)} {cs : List (AABBtree K)} (h : Valid (mk pb cs)) :
    ∃ b, pb = some b ∧ (∀ l ∈ leaves (mk pb cs), b.covers l) ∧ ∀ c ∈ cs, Valid c := by
  rw [Valid] at h
  obtain ⟨⟨b, hb, hc⟩, hl⟩ := h
  exact ⟨b, hb, hc, (validList_iff cs).mp hl⟩

theorem sizeOf_lt_of_mem_children (pb : Option (BBox K)) {cs : List (AABBtree K)}
    {c : AABBtree K} (h : c ∈ cs) : sizeOf c < sizeOf (mk pb cs) := by
  have := List.sizeOf_lt_of_mem h
  simp only [mk.sizeOf_spec]
  omega

theorem build_valid (n : Nat) : ∀ (t : AABBtree K) (bs : List (BBox K)), bs.length ≤ n →
    bs ≠ [] → Valid (build t bs) := by
  induction n with
  | zero =>
    intro t bs h hne
    exact absurd (List.length_eq_zero.mp (by omega)) hne
  | succ n ih =>
    intro t bs h hne
    by_cases h1 : bs.length = 1
    · obtain ⟨b, rfl⟩ := List.length_eq_one.mp h1
      rw [build_singleton, Valid]
      refine ⟨⟨b, rfl, ?_⟩, trivial⟩
      intro l hl
      rw [leaves_mk_nil] at hl
      simp only [Option.toList, List.mem_singleton] at hl
      subst hl
      exact BBox.covers_refl _
    · have h2 : 2 ≤ bs.length := by
        have := List.length_pos.mpr hne
        omega
      have hl := splitBoxes_length bs h2
      have hb := build_node t bs h2
      have hleaves := leaves_build bs.length t bs le_rfl
      rw [hb] at hleaves ⊢
      rw [Valid]
      refine ⟨⟨_, rfl, ?_⟩, ?_⟩
      · intro l hl
        have hmem : l ∈ bs := hleaves.subset hl
        obtain ⟨e1, e2, e3, e4⟩ := BBox.join_extrema
          ({ x_min := 0, y_min := 0, x_max := 0, y_max := 0, m_id := 0, m_ipos := 0 } : BBox K) bs hne
        exact ⟨(List.minimum_eq_coe_iff.mp e1).2 _ (List.mem_map_of_mem _ hmem),
          (List.minimum_eq_coe_iff.mp e2).2 _ (List.mem_map_of_mem _ hmem),
          (List.maximum_eq_coe_iff.mp e3).2 _ (List.mem_map_of_mem _ hmem),
          (List.maximum_eq_coe_iff.mp e4).2 _ (List.mem_map_of_mem _ hmem)⟩
      · rw [validList_iff]
        intro c hc
        simp only [List.mem_cons, List.mem_singleton, List.not_mem_nil, or_false] at hc
        rcases hc with rfl | rfl
        · exact ih _ _ (by omega) (List.length_pos.mp hl.2.2.1)
        · exact ih _ _ (by omega) (List.length_pos.mp hl.1)

/-! ## Enumeration of the colliding leaf pairs -/

theorem pairsOf_append_right {s : Bool} {xs ys1 ys2 : List (BBox K)}
    {l1 l2 : List (BBox K × BBox K)} (h1 : PairsOf s xs ys1 l1) (h2 : PairsOf s xs ys2 l2) :
    PairsOf s xs (ys1 ++ ys2) (l1 ++ l2) := by
  intro a b
  rw [List.count_append, h1 a b, h2 a b, List.count_append]
  split_ifs
  · ring
  · rfl

theorem pairsOf_append_left {s : Bool} {xs1 xs2 ys : List (BBox K)}
    {l1 l2 : List (BBox K × BBox K)} (h1 : PairsOf s xs1 ys l1) (h2 : PairsOf s xs2 ys l2) :
    PairsOf s (xs1 ++ xs2) ys (l1 ++ l2) := by
  intro a b
  rw [List.count_append, h1 a b, h2 a b, List.count_append]
  split_ifs
  · ring
  · rfl

theorem pairsOf_swap {s : Bool} {xs ys : List (BBox K)} {l : List (BBox K × BBox K)}
    (h : PairsOf (!s) ys xs l) : PairsOf s xs ys l := by
  intro a b
  have e : orient s a b = orient (!s) b a := by cases s <;> rfl
  rw [e, h b a, BBox.collision_comm b a, Nat.mul_comm]

theorem pairsOf_nil_left (s : Bool) (ys : List (BBox K)) : PairsOf s [] ys [] := by
  intro a b; simp

theorem pairsOf_nil_right (s : Bool) (xs : List (BBox K)) : PairsOf s xs [] [] := by
  intro a b; simp

theorem orient_injective (s : Bool) (a b a' b' : BBox K) :
    orient s a b = orient s a' b' ↔ a = a' ∧ b = b' := by
  cases s
  · simp [orient]
  · simp [orient]; tauto

theorem pairsOf_singleton (s : Bool) (x y : BBox K) (h : x.collision y = true) :
    PairsOf s [x] [y] [orient s x y] := by
  intro a b
  by_cases hab : a = x ∧ b = y
  · obtain ⟨rfl, rfl⟩ := hab
    simp [h]
  · have hne : orient s a b ∉ [orient s x y] := by
      rw [List.mem_singleton, orient_injective]; exact hab
    rw [List.count_eq_zero_of_not_mem hne]
    split_ifs
    · by_cases ha : a = x
      · have hb : b ∉ [y] := by
          rw [List.mem_singleton]; exact fun hb => hab ⟨ha, hb⟩
        rw [List.count_eq_zero_of_not_mem hb, Nat.mul_zero]
      · have ha' : a ∉ [x] := by rw [List.mem_singleton]; exact ha
        rw [List.count_eq_zero_of_not_mem ha', Nat.zero_mul]
    · rfl

/-- When the boxes of two nodes do not collide, no leaf below one collides with a
leaf below the other. -/
theorem pairsOf_nil_of_not_collision (s : Bool) {A B : BBox K} {xs ys : List (BBox K)}
    (hA : ∀ l ∈ xs, A.covers l) (hB : ∀ l ∈ ys, B.covers l) (h : A.collision B = false) :
    PairsOf s xs ys [] := by
  intro a b
  rw [List.count_nil]
  split_ifs with hc
  · by_cases ha : a ∈ xs
    · by_cases hb : b ∈ ys
      · have := BBox.collision_of_covers (hA a ha) (hB b hb) hc
        rw [h] at this
        exact absurd this Bool.false_ne_true
      · rw [List.count_eq_zero_of_not_mem hb, Nat.mul_zero]
    · rw [List.count_eq_zero_of_not_mem ha, Nat.zero_mul]
  · rfl

theorem intersectEach_ok (node : AABBtree K) (cs : List (AABBtree K))
    (h : ∀ c ∈ cs, IntersectOK node c) :
    ∀ out swap, ∃ l, intersectEach node cs out swap = some (out ++ l) ∧
      PairsOf swap (leaves node) (leavesList cs) l := by
  induction cs with
  | nil =>
    intro out swap
    refine ⟨[], ?_, ?_⟩
    · rw [intersectEach, List.append_nil]
    · rw [leavesList]; exact pairsOf_nil_right _ _
  | cons c cs ih =>
    intro out swap
    obtain ⟨l1, e1, p1⟩ := h c (List.mem_cons_self _ _) out swap
    obtain ⟨l2, e2, p2⟩ := ih (fun c' hc' => h c' (List.mem_cons_of_mem _ hc')) (out ++ l1) swap
    refine ⟨l1 ++ l2, ?_, ?_⟩
    · rw [intersectEach, e1]
      simp only []
      rw [e2, List.append_assoc]
    · rw [leavesList]; exact pairsOf_append_right p1 p2

theorem intersectCross_ok (cs1 cs2 : List (AABBtree K))
    (h : ∀ c1 ∈ cs1, ∀ c2 ∈ cs2, IntersectOK c1 c2) :
    ∀ out swap, ∃ l, intersectCross cs1 cs2 out swap = some (out ++ l) ∧
      PairsOf swap (leavesList cs1) (leavesList cs2) l := by
  induction cs1 with
  | nil =>
    intro out swap
    refine ⟨[], ?_, ?_⟩
    · rw [intersectCross, List.append_nil]
    · rw [leavesList]; exact pairsOf_nil_left _ _
  | cons c cs ih =>
    intro out swap
    obtain ⟨l1, e1, p1⟩ := intersectEach_ok c cs2 (h c (List.mem_cons_self _ _)) out swap
    obtain ⟨l2, e2, p2⟩ := ih (fun c' hc' => h c' (List.mem_cons_of_mem _ hc')) (out ++ l1) swap
    refine ⟨l1 ++ l2, ?_, ?_⟩
    · rw [intersectCross, e1]
      simp only []
      rw [e2, List.append_assoc]
    · rw [leavesList]; exact pairsOf_append_left p1 p2

theorem intersect_ok (n : Nat) : ∀ self tree : AABBtree K, sizeOf self + sizeOf tree ≤ n →
    Valid self → Valid tree → IntersectOK self tree := by
  induction n with
  | zero =>
    intro self tree h
    cases self
    simp only [mk.sizeOf_spec] at h
    omega
  | succ n ih =>
    intro self tree h hs ht
    obtain ⟨spb, sc⟩ := self
    obtain ⟨tpb, tc⟩ := tree
    obtain ⟨sb, rfl, hscov, hsch⟩ := valid_mk hs
    obtain ⟨tb, rfl, htcov, htch⟩ := valid_mk ht
    intro out swap
    rw [intersect]
    by_cases hcol : tb.collision sb = true
    · simp only [hcol, Bool.not_true, Bool.false_eq_true, if_false]
      by_cases hsc : sc = []
      · by_cases htc : tc = []
        · -- both leaves
          subst hsc; subst htc
          refine ⟨[orient swap sb tb], ?_, ?_⟩
          · cases swap <;> simp [orient]
          · rw [leaves_mk_nil, leaves_mk_nil]
            exact pairsOf_singleton swap sb tb (by rw [BBox.collision_comm]; exact hcol)
        · -- first is a leaf, second is a tree
          subst hsc
          have hi : ((if ([] : List (AABBtree K)).isEmpty = true then (0 : Int) else 1)
              + if tc.isEmpty = true then 0 else 2) = 2 := by simp [htc]
          simp only [hi]
          norm_num
          obtain ⟨l, e, p⟩ := intersectEach_ok (mk (some sb) []) tc
            (fun c hc => ih _ _ (by have := sizeOf_lt_of_mem_children (some tb) hc; omega)
              hs (htch c hc)) out swap
          exact ⟨l, e, by rw [leaves_mk_of_ne_nil _ htc]; exact p⟩
      · by_cases htc : tc = []
        · -- first is a tree, second is a leaf
          subst htc
          have hi : ((if sc.isEmpty = true then (0 : Int) else 1)
              + if ([] : List (AABBtree K)).isEmpty = true then 0 else 2) = 1 := by simp [hsc]
          simp only [hi]
          norm_num
          obtain ⟨l, e, p⟩ := intersectEach_ok (mk (some tb) []) sc
            (fun c hc => ih _ _ (by have := sizeOf_lt_of_mem_children (some sb) hc; omega)
              ht (hsch c hc)) out (!swap)
          exact ⟨l, e, by rw [leaves_mk_of_ne_nil _ hsc]; exact pairsOf_swap p⟩
        · -- both are trees
          have hi : ((if sc.isEmpty = true then (0 : Int) else 1)
              + if tc.isEmpty = true then 0 else 2) = 3 := by simp [hsc, htc]
          simp only [hi]
          norm_num
          obtain ⟨l, e, p⟩ := intersectCross_ok sc tc
            (fun c1 h1 c2 h2 => ih _ _ (by
              have := sizeOf_lt_of_mem_children (some sb) h1
              have := sizeOf_lt_of_mem_children (some tb) h2
              omega) (hsch c1 h1) (htch c2 h2)) out swap
          exact ⟨l, e, by rw [leaves_mk_of_ne_nil _ hsc, leaves_mk_of_ne_nil _ htc]; exact p⟩
    · have hcol' : tb.collision sb = false := by simpa using hcol
      simp only [hcol', Bool.not_false, if_true]
      refine ⟨[], by rw [List.append_nil], ?_⟩
      exact pairsOf_nil_of_not_collision swap hscov htcov
        (by rw [BBox.collision_comm]; exact hcol')


theorem count_map_pair (x b : BBox K) (ys : List (BBox K)) :
    (ys.map (fun b => (x, b))).count (x, b) = ys.count b := by
  induction ys with
  | nil => rfl
  | cons y ys ih =>
    rw [List.map_cons, List.count_cons, List.count_cons, ih]
    by_cases h : y = b <;> simp [h]

theorem count_product (xs ys : List (BBox K)) (a b : BBox K) :
    (xs ×ˢ ys).count (a, b) = xs.count a * ys.count b := by
  induction xs with
  | nil => simp
  | cons x xs ih =>
    rw [List.product_cons, List.count_append, ih, List.count_cons]
    by_cases hx : x = a
    · subst hx
      rw [count_map_pair]
      simp; ring
    · have hnot : (a, b) ∉ List.map (fun b => (x, b)) ys := by
        intro hm
        obtain ⟨u, _, hu⟩ := List.mem_map.mp hm
        exact hx (Prod.mk.inj hu).1
      rw [List.count_eq_zero_of_not_mem hnot]
      simp [hx]

theorem count_filter_product (xs ys : List (BBox K)) (a b : BBox K) :
    ((xs ×ˢ ys).filter (fun p => p.1.collision p.2)).count (a, b)
      = if a.collision b then xs.count a * ys.count b else 0 := by
  split_ifs with h
  · rw [List.count_filter (by exact h), count_product]
  · apply List.count_eq_zero_of_not_mem
    intro hm
    exact h (List.mem_filter.mp hm).2

theorem beq_pair_eq : (instBEqProd : BEq (BBox K × BBox K)) = instBEqOfDecidableEq := by
  have h : ∀ a b : BBox K × BBox K,
      @BEq.beq _ instBEqProd a b = @BEq.beq _ instBEqOfDecidableEq a b := by
    intro a b
    rw [Bool.eq_iff_iff, @beq_iff_eq _ instBEqProd]
    exact (decide_eq_true_iff (p := a = b)).symm
  cases hi : (instBEqProd : BEq (BBox K × BBox K)) with
  | mk f =>
    cases hj : (instBEqOfDecidableEq : BEq (BBox K × BBox K)) with
    | mk g =>
      congr
      funext a b
      have := h a b
      rw [hi, hj] at this
      exact this

theorem perm_of_pairsOf {xs ys : List (BBox K)} {l : List (BBox K × BBox K)}
    (h : PairsOf false xs ys l) :
    l.Perm ((xs ×ˢ ys).filter (fun p => p.1.collision p.2)) := by
  rw [List.perm_iff_count]
  rintro ⟨a, b⟩
  have h1 := h a b
  have h2 := count_filter_product xs ys a b
  rw [← h2] at h1
  simp only [orient, Bool.false_eq_true, if_false] at h1
  rw [beq_pair_eq] at h1
  exact h1

theorem hit_swap {ifun : BBox K → BBox K → Bool} {s : Bool} {xs ys : List (BBox K)} :
    Hit ifun (!s) ys xs ↔ Hit ifun s xs ys := by
  constructor
  · rintro ⟨b, hb, a, ha, hc, hf⟩
    refine ⟨a, ha, b, hb, by rw [BBox.collision_comm]; exact hc, ?_⟩
    cases s <;> simpa using hf
  · rintro ⟨a, ha, b, hb, hc, hf⟩
    refine ⟨b, hb, a, ha, by rw [BBox.collision_comm]; exact hc, ?_⟩
    cases s <;> simpa using hf

theorem hit_append_right {ifun : BBox K → BBox K → Bool} {s : Bool} {xs ys1 ys2 : List (BBox K)} :
    Hit ifun s xs (ys1 ++ ys2) ↔ Hit ifun s xs ys1 ∨ Hit ifun s xs ys2 := by
  constructor
  · rintro ⟨a, ha, b, hb, hc⟩
    rcases List.mem_append.mp hb with h | h
    · exact Or.inl ⟨a, ha, b, h, hc⟩
    · exact Or.inr ⟨a, ha, b, h, hc⟩
  · rintro (⟨a, ha, b, hb, hc⟩ | ⟨a, ha, b, hb, hc⟩)
    · exact ⟨a, ha, b, List.mem_append_left _ hb, hc⟩
    · exact ⟨a, ha, b, List.mem_append_right _ hb, hc⟩

theorem hit_append_left {ifun : BBox K → BBox K → Bool} {s : Bool} {xs1 xs2 ys : List (BBox K)} :
    Hit ifun s (xs1 ++ xs2) ys ↔ Hit ifun s xs1 ys ∨ Hit ifun s xs2 ys := by
  constructor
  · rintro ⟨a, ha, hr⟩
    rcases List.mem_append.mp ha with h | h
    · exact Or.inl ⟨a, h, hr⟩
    · exact Or.inr ⟨a, h, hr⟩
  · rintro (⟨a, ha, hr⟩ | ⟨a, ha, hr⟩)
    · exact ⟨a, List.mem_append_left _ ha, hr⟩
    · exact ⟨a, List.mem_append_right _ ha, hr⟩

theorem not_hit_nil_right (ifun : BBox K → BBox K → Bool) (s : Bool) (xs : List (BBox K)) :
    ¬ Hit ifun s xs [] := by
  rintro ⟨a, _, b, hb, _⟩
  exact List.not_mem_nil _ hb

theorem not_hit_nil_left (ifun : BBox K → BBox K → Bool) (s : Bool) (ys : List (BBox K)) :
    ¬ Hit ifun s [] ys := by
  rintro ⟨a, ha, _⟩
  exact List.not_mem_nil _ ha

theorem collisionEach_ok (ifun : BBox K → BBox K → Bool) (node : AABBtree K)
    (cs : List (AABBtree K)) (h : ∀ c ∈ cs, CollisionOK ifun node c) :
    ∀ swap, ∃ r, collisionEach node cs ifun swap = some r ∧
      (r = true ↔ Hit ifun swap (leaves node) (leavesList cs)) := by
  induction cs with
  | nil =>
    intro swap
    refine ⟨false, ?_, ?_⟩
    · rw [collisionEach]
    · rw [leavesList]
      simp [not_hit_nil_right]
  | cons c cs ih =>
    intro swap
    obtain ⟨r1, e1, p1⟩ := h c (List.mem_cons_self _ _) swap
    obtain ⟨r2, e2, p2⟩ := ih (fun c' hc' => h c' (List.mem_cons_of_mem _ hc')) swap
    rw [collisionEach, e1, leavesList]
    cases r1 with
    | true =>
      refine ⟨true, rfl, ?_⟩
      rw [hit_append_right]
      simp [p1.mp rfl]
    | false =>
      refine ⟨r2, e2, ?_⟩
      rw [hit_append_right, p2]
      have : ¬ Hit ifun swap node.leaves c.leaves := fun hh => Bool.false_ne_true (p1.mpr hh)
      simp [this]

theorem collisionCross_ok (ifun : BBox K → BBox K → Bool) (cs1 cs2 : List (AABBtree K))
    (h : ∀ c1 ∈ cs1, ∀ c2 ∈ cs2, CollisionOK ifun c1 c2) :
    ∀ swap, ∃ r, collisionCross cs1 cs2 ifun swap = some r ∧
      (r = true ↔ Hit ifun swap (leavesList cs1) (leavesList cs2)) := by
  induction cs1 with
  | nil =>
    intro swap
    refine ⟨false, ?_, ?_⟩
    · rw [collisionCross]
    · rw [leavesList]
      simp [not_hit_nil_left]
  | cons c cs ih =>
    intro swap
    obtain ⟨r1, e1, p1⟩ := collisionEach_ok ifun c cs2 (h c (List.mem_cons_self _ _)) swap
    obtain ⟨r2, e2, p2⟩ := ih (fun c' hc' => h c' (List.mem_cons_of_mem _ hc')) swap
    rw [collisionCross, e1, leavesList]
    cases r1 with
    | true =>
      refine ⟨true, rfl, ?_⟩
      rw [hit_append_left]
      simp [p1.mp rfl]
    | false =>
      refine ⟨r2, e2, ?_⟩
      rw [hit_append_left, p2]
      have : ¬ Hit ifun swap c.leaves (leavesList cs2) := fun hh => Bool.false_ne_true (p1.mpr hh)
      simp [this]

theorem collision_ok (ifun : BBox K → BBox K → Bool) (n : Nat) :
    ∀ self tree : AABBtree K, sizeOf self + sizeOf tree ≤ n →
    Valid self → Valid tree → CollisionOK ifun self tree := by
  induction n with
  | zero =>
    intro self tree h
    cases self
    simp only [mk.sizeOf_spec] at h
    omega
  | succ n ih =>
    intro self tree h hs ht
    obtain ⟨spb, sc⟩ := self
    obtain ⟨tpb, tc⟩ := tree
    obtain ⟨sb, rfl, hscov, hsch⟩ := valid_mk hs
    obtain ⟨tb, rfl, htcov, htch⟩ := valid_mk ht
    intro swap
    rw [collision]
    by_cases hcol : tb.collision sb = true
    · simp only [hcol, Bool.not_true, Bool.false_eq_true, if_false]
      by_cases hsc : sc = []
      · by_cases htc : tc = []
        · -- both leaves
          subst hsc; subst htc
          refine ⟨if swap = true then ifun tb sb else ifun sb tb, ?_, ?_⟩
          · cases swap <;> simp
          · rw [leaves_mk_nil, leaves_mk_nil]
            constructor
            · intro hf
              exact ⟨sb, by simp, tb, by simp, by rw [BBox.collision_comm]; exact hcol, hf⟩
            · rintro ⟨a, ha, b, hb, _, hf⟩
              simp only [Option.toList, List.mem_singleton] at ha hb
              subst ha; subst hb
              exact hf
        · -- first is a leaf, second is a tree
          subst hsc
          have hi : ((if ([] : List (AABBtree K)).isEmpty = true then (0 : Int) else 1)
              + if tc.isEmpty = true then 0 else 2) = 2 := by simp [htc]
          obtain ⟨r, e, p⟩ := collisionEach_ok ifun (mk (some sb) []) tc
            (fun c hc => ih _ _ (by have := sizeOf_lt_of_mem_children (some tb) hc; omega)
              hs (htch c hc)) swap
          refine ⟨r, ?_, by rw [leaves_mk_of_ne_nil _ htc]; exact p⟩
          simp only [hi]
          norm_num
          exact e
      · by_cases htc : tc = []
        · -- first is a tree, second is a leaf
          subst htc
          have hi : ((if sc.isEmpty = true then (0 : Int) else 1)
              + if ([] : List (AABBtree K)).isEmpty = true then 0 else 2) = 1 := by simp [hsc]
          obtain ⟨r, e, p⟩ := collisionEach_ok ifun (mk (some tb) []) sc
            (fun c hc => ih _ _ (by have := sizeOf_lt_of_mem_children (some sb) hc; omega)
              ht (hsch c hc)) (!swap)
          refine ⟨r, ?_, by rw [leaves_mk_of_ne_nil _ hsc, p]; exact hit_swap⟩
          simp only [hi]
          norm_num
          exact e
        · -- both are trees
          have hi : ((if sc.isEmpty = true then (0 : Int) else 1)
              + if tc.isEmpty = true then 0 else 2) = 3 := by simp [hsc, htc]
          obtain ⟨r, e, p⟩ := collisionCross_ok ifun sc tc
            (fun c1 h1 c2 h2 => ih _ _ (by
              have := sizeOf_lt_of_mem_children (some sb) h1
              have := sizeOf_lt_of_mem_children (some tb) h2
              omega) (hsch c1 h1) (htch c2 h2)) swap
          refine ⟨r, ?_, by rw [leaves_mk_of_ne_nil _ hsc, leaves_mk_of_ne_nil _ htc]; exact p⟩
          simp only [hi]
          norm_num
          exact e
    · have hcol' : tb.collision sb = false := by simpa using hcol
      simp only [hcol', Bool.not_false, if_true]
      refine ⟨false, rfl, ?_⟩
      constructor
      · intro hf; exact absurd hf Bool.false_ne_true
      · rintro ⟨a, ha, b, hb, hc, _⟩
        have := BBox.collision_of_covers (htcov b hb) (hscov a ha)
          (by rw [BBox.collision_comm]; exact hc)
        rw [hcol'] at this
        exact this

/-! ## Tree induction -/

/-- Induction over a tree: a property that passes from the children of a node to
the node holds for every tree. -/
theorem tree_induction {K : Type} [LinearOrderedField K] {P : AABBtree K → Prop}
    (step : ∀ pb cs, (∀ c ∈ cs, P c) → P (mk pb cs)) : ∀ t, P t := by
  have aux : ∀ n : Nat, ∀ t : AABBtree K, sizeOf t ≤ n → P t := by
    intro n
    induction n with
    | zero =>
      intro t h
      cases t
      simp only [mk.sizeOf_spec] at h
      omega
    | succ n ih =>
      intro t h
      obtain ⟨pb, cs⟩ := t
      exact step pb cs (fun c hc => ih c (by
        have := sizeOf_lt_of_mem_children pb hc
        omega))
  exact fun t => aux _ t le_rfl

end AABBtree

end Build

/-! ## Nearest-candidate selection -/

theorem abs_sub_le_max_abs {lo hi t q : ℝ} (h1 : lo ≤ q) (h2 : q ≤ hi) :
    |t - q| ≤ max (|t - lo|) (|t - hi|) := by
  rw [abs_le]
  constructor
  · have : -(max (|t - lo|) (|t - hi|)) ≤ -|t - hi| := neg_le_neg (le_max_right _ _)
    have := neg_abs_le (t - hi)
    linarith
  · exact le_trans (by linarith) (le_trans (le_abs_self (t - lo)) (le_max_left _ _))

theorem euclid_le_maxDistance (b : BBox ℝ) (px py qx qy : ℝ) (hq : b.contains qx qy) :
    euclid px py qx qy ≤ b.maxDistance hypot px py := by
  obtain ⟨h1, h2, h3, h4⟩ := hq
  unfold euclid BBox.maxDistance hypot
  apply Real.sqrt_le_sqrt
  have hx := abs_sub_le_max_abs (t := px) h1 h2
  have hy := abs_sub_le_max_abs (t := py) h3 h4
  have hx2 : (px - qx) ^ 2 ≤ max (|px - b.x_min|) (|px - b.x_max|) ^ 2 := by
    rw [← sq_abs (px - qx)]
    exact pow_le_pow_left₀ (abs_nonneg _) hx 2
  have hy2 : (py - qy) ^ 2 ≤ max (|py - b.y_min|) (|py - b.y_max|) ^ 2 := by
    rw [← sq_abs (py - qy)]
    exact pow_le_pow_left₀ (abs_nonneg _) hy 2
  exact add_le_add hx2 hy2

theorem contains_of_covers {A b : BBox ℝ} {qx qy : ℝ} (hA : A.covers b) (hq : b.contains qx qy) :
    A.contains qx qy := by
  obtain ⟨a1, a2, a3, a4⟩ := hA
  obtain ⟨h1, h2, h3, h4⟩ := hq
  exact ⟨a1.trans h1, h2.trans a3, a2.trans h3, h4.trans a4⟩

namespace AABBtree

theorem min_maxdistLoop_ok (x y : ℝ) (cs : List (AABBtree ℝ)) (h : ∀ c ∈ cs, BoundOK x y c) :
    ∀ m : WithTop ℝ, ∃ r, min_maxdistLoop hypot x y cs m = some r ∧
      ((r = m ∧ (m ≠ ⊤ ∨ cs = [])) ∨
        ∃ L ∈ leavesList cs, r = ((L.maxDistance hypot x y : ℝ) : WithTop ℝ)) := by
  induction cs with
  | nil =>
    intro m
    exact ⟨m, by rw [min_maxdistLoop], Or.inl ⟨rfl, Or.inr rfl⟩⟩
  | cons c cs ih =>
    intro m
    obtain ⟨r1, e1, p1⟩ := h c (List.mem_cons_self _ _) m
    obtain ⟨r2, e2, p2⟩ := ih (fun c' hc' => h c' (List.mem_cons_of_mem _ hc')) r1
    refine ⟨r2, ?_, ?_⟩
    · rw [min_maxdistLoop, e1]
      exact e2
    · rw [leavesList]
      rcases p2 with ⟨rfl, _⟩ | ⟨L, hL, rfl⟩
      · rcases p1 with ⟨rfl, hm⟩ | ⟨L, hL, hr⟩
        · exact Or.inl ⟨rfl, Or.inl hm⟩
        · exact Or.inr ⟨L, List.mem_append_left _ hL, hr⟩
      · exact Or.inr ⟨L, List.mem_append_right _ hL, rfl⟩

theorem min_maxdist_ok (x y : ℝ) :
    ∀ tree : AABBtree ℝ, Valid tree → BoundOK x y tree := by
  apply tree_induction
  · intro pb cs ih hv
    obtain ⟨b, rfl, hcov, hch⟩ := valid_mk hv
    intro m
    rw [min_maxdist]
    by_cases hcs : cs = []
    · subst hcs
      simp only [List.isEmpty_nil, if_true]
      refine ⟨_, rfl, ?_⟩
      rw [leaves_mk_nil]
      rcases le_total ((b.maxDistance hypot x y : ℝ) : WithTop ℝ) m with hle | hle
      · exact Or.inr ⟨b, by simp, min_eq_left hle⟩
      · rcases eq_or_ne m ⊤ with hm | hm
        · subst hm
          exact Or.inr ⟨b, by simp, min_eq_left le_top⟩
        · exact Or.inl ⟨min_eq_right hle, hm⟩
    · have hne : cs.isEmpty = false := by simpa using hcs
      simp only [hne, Bool.false_eq_true, if_false]
      by_cases hprune : ((b.distance hypot x y : ℝ) : WithTop ℝ) > m
      · simp only [hprune, if_true]
        exact ⟨m, rfl, Or.inl ⟨rfl, ne_top_of_lt hprune⟩⟩
      · simp only [hprune, if_false]
        obtain ⟨r, e, p⟩ := min_maxdistLoop_ok x y cs
          (fun c hc => ih c hc (hch c hc)) m
        refine ⟨r, e, ?_⟩
        rw [leaves_mk_of_ne_nil _ hcs]
        rcases p with ⟨hr, hm | hnil⟩ | hL
        · exact Or.inl ⟨hr, hm⟩
        · exact absurd hnil hcs
        · exact Or.inr hL

theorem min_maxdist_selectLoop_ok (x y : ℝ) (mm : WithTop ℝ) (cs : List (AABBtree ℝ))
    (h : ∀ c ∈ cs, SelectOK x y mm c) :
    ∀ cand : List (BBox ℝ), ∃ l,
      min_maxdist_selectLoop hypot x y mm cs cand = some (cand ++ l) ∧
      ∀ L ∈ leavesList cs, Near x y mm L → L ∈ l := by
  induction cs with
  | nil =>
    intro cand
    refine ⟨[], by rw [min_maxdist_selectLoop, List.append_nil], ?_⟩
    intro L hL
    rw [leavesList] at hL
    exact absurd hL (List.not_mem_nil _)
  | cons c cs ih =>
    intro cand
    obtain ⟨l1, e1, p1⟩ := h c (List.mem_cons_self _ _) cand
    obtain ⟨l2, e2, p2⟩ := ih (fun c' hc' => h c' (List.mem_cons_of_mem _ hc')) (cand ++ l1)
    refine ⟨l1 ++ l2, ?_, ?_⟩
    · rw [min_maxdist_selectLoop, e1]
      simp only []
      rw [e2, List.append_assoc]
    · intro L hL hnear
      rw [leavesList] at hL
      rcases List.mem_append.mp hL with hL | hL
      · exact List.mem_append_left _ (p1 L hL hnear)
      · exact List.mem_append_right _ (p2 L hL hnear)

theorem min_maxdist_select_ok (x y : ℝ) (mm : WithTop ℝ) :
    ∀ tree : AABBtree ℝ, Valid tree → SelectOK x y mm tree := by
  apply tree_induction
  · intro pb cs ih hv
    obtain ⟨b, rfl, hcov, hch⟩ := valid_mk hv
    intro cand
    rw [min_maxdist_select]
    by_cases hd : ((b.distance hypot x y : ℝ) : WithTop ℝ) ≤ mm
    · simp only [hd, if_true]
      by_cases hcs : cs = []
      · subst hcs
        simp only [List.isEmpty_nil, if_true]
        refine ⟨[b], rfl, ?_⟩
        intro L hL _
        rw [leaves_mk_nil] at hL
        simpa using hL
      · have hne : cs.isEmpty = false := by simpa using hcs
        simp only [hne, Bool.false_eq_true, if_false]
        obtain ⟨l, e, p⟩ := min_maxdist_selectLoop_ok x y mm cs
          (fun c hc => ih c hc (hch c hc)) cand
        exact ⟨l, e, by rw [leaves_mk_of_ne_nil _ hcs]; exact p⟩
    · simp only [hd, if_false]
      refine ⟨[], by rw [List.append_nil], ?_⟩
      rintro L hL ⟨qx, qy, hq, hle⟩
      exfalso
      apply hd
      have h1 := distance_le_euclid b x y qx qy (contains_of_covers (hcov L hL) hq)
      exact le_trans (WithTop.coe_le_coe.mpr h1) hle

end AABBtree

/-! ## The claims -/

section Claims

variable {K : Type} [LinearOrderedField K]

open AABBtree

/-- C1: for the tree built from a non-empty list of well-formed boxes, a query point
`p` and a point `q j` chosen inside each input box `j`: `min_distance(p)` returns, and
every box `i` whose point `q i` is at minimum Euclidean distance from `p` among all
the chosen points is among the candidates it appends. -/
theorem C1_nearest_box_is_candidate (t : AABBtree ℝ) (bs : List (BBox ℝ)) (hne : bs ≠ [])
    (hwf : ∀ b ∈ bs, b.x_min ≤ b.x_max ∧ b.y_min ≤ b.y_max) (px py : ℝ)
    (q : Fin bs.length → ℝ × ℝ) (hq : ∀ j, (bs.get j).contains (q j).1 (q j).2)
    (i : Fin bs.length)
    (hmin : ∀ j, euclid px py (q i).1 (q i).2 ≤ euclid px py (q j).1 (q j).2)
    (cand : List (BBox ℝ)) :
    ∃ l, (build t bs).min_distance hypot px py cand = some (cand ++ l) ∧ bs.get i ∈ l := by
  have hv := build_valid _ t bs le_rfl hne
  have hperm := leaves_build _ t bs le_rfl
  obtain ⟨r, e, p⟩ := min_maxdist_ok px py _ hv ⊤
  have hr : ((euclid px py (q i).1 (q i).2 : ℝ) : WithTop ℝ) ≤ r := by
    rcases p with ⟨_, h⟩ | ⟨L, hL, rfl⟩
    · exact absurd rfl h
    · obtain ⟨j, rfl⟩ := List.mem_iff_get.mp (hperm.subset hL)
      exact WithTop.coe_le_coe.mpr
        ((hmin j).trans (euclid_le_maxDistance _ px py _ _ (hq j)))
  obtain ⟨l, e2, p2⟩ := min_maxdist_select_ok px py r _ hv cand
  refine ⟨l, ?_, ?_⟩
  · rw [min_distance, e]
    exact e2
  · exact p2 _ (hperm.symm.subset (List.get_mem _ _ _)) ⟨_, _, hq i, hr⟩


/-- C1 at the three boxes of the end-to-end scenario, the query point `(0, 0)` and
the lower left corner chosen in each box. -/
theorem C1_nearest_box_is_candidate_witness :
    (scenarioBoxes ℝ ≠ [] ∧
      ∀ b ∈ scenarioBoxes ℝ, b.x_min ≤ b.x_max ∧ b.y_min ≤ b.y_max) ∧
    ∃ l, (build fresh (scenarioBoxes ℝ)).min_distance hypot 0 0 [] = some ([] ++ l) ∧
      (scenarioBoxes ℝ).get ⟨0, by decide⟩ ∈ l := by
  have hwf : ∀ b ∈ scenarioBoxes ℝ, b.x_min ≤ b.x_max ∧ b.y_min ≤ b.y_max := by
    intro b hb
    simp only [scenarioBoxes, List.mem_cons, List.mem_singleton, List.not_mem_nil,
      or_false] at hb
    rcases hb with rfl | rfl | rfl <;> norm_num
  refine ⟨⟨by decide, hwf⟩, ?_⟩
  refine C1_nearest_box_is_candidate fresh (scenarioBoxes ℝ) (by decide) hwf 0 0
    (cornerPoints (scenarioBoxes ℝ)) ?_ ⟨0, by decide⟩ ?_ []
  · intro j
    have h := hwf _ (List.get_mem _ j.1 j.2)
    exact ⟨le_rfl, h.1, le_rfl, h.2⟩
  · intro j
    have h0 : euclid 0 0 (cornerPoints (scenarioBoxes ℝ) ⟨0, by decide⟩).1
        (cornerPoints (scenarioBoxes ℝ) ⟨0, by decide⟩).2 = 0 := by
      simp [euclid, cornerPoints, scenarioBoxes]
    rw [h0]
    exact Real.sqrt_nonneg _

/-- C2: for trees `A` and `B` built from non-empty box lists, `A.intersect(B, out)`
with `swap_tree = false` returns, and it appends to `out` exactly the pairs `(a, b)`
of a leaf box `a` of `A` and a leaf box `b` of `B` with `a.collision(b)`: the appended
list is a permutation of the colliding pairs of the product of the two leaf
sequences, so every such pair of leaves appears exactly once, nothing else appears,
and the first component comes from `A`. -/
theorem C2_intersect_exact (tA tB : AABBtree K) (as bs : List (BBox K))
    (hA : as ≠ []) (hB : bs ≠ []) (out : List (BBox K × BBox K)) :
    ∃ l, (build tA as).intersect (build tB bs) out false = some (out ++ l) ∧
      l.Perm (((build tA as).leaves ×ˢ (build tB bs).leaves).filter
        (fun p => p.1.collision p.2)) ∧
      ∀ p ∈ l, p.1 ∈ (build tA as).leaves ∧ p.2 ∈ (build tB bs).leaves ∧
        p.1.collision p.2 = true := by
  obtain ⟨l, e, hp⟩ := intersect_ok _ (build tA as) (build tB bs) le_rfl
    (build_valid _ tA as le_rfl hA) (build_valid _ tB bs le_rfl hB) out false
  have hperm := perm_of_pairsOf hp
  refine ⟨l, e, hperm, ?_⟩
  intro p hpl
  have hm := hperm.subset hpl
  rw [List.mem_filter, List.mem_product] at hm
  exact ⟨hm.1.1, hm.1.2, hm.2⟩

/-- C2 at the end-to-end scenario of the specification. -/
theorem C2_intersect_exact_witness :
    (scenarioBoxes ℚ ≠ [] ∧ queryBoxes ℚ ≠ []) ∧
    ∃ l, (build fresh (scenarioBoxes ℚ)).intersect (build fresh (queryBoxes ℚ)) [] false
        = some ([] ++ l) ∧
      l.Perm (((build fresh (scenarioBoxes ℚ)).leaves ×ˢ
        (build fresh (queryBoxes ℚ)).leaves).filter (fun p => p.1.collision p.2)) ∧
      ∀ p ∈ l, p.1 ∈ (build fresh (scenarioBoxes ℚ)).leaves ∧
        p.2 ∈ (build fresh (queryBoxes ℚ)).leaves ∧ p.1.collision p.2 = true :=
  ⟨⟨by decide, by decide⟩,
   C2_intersect_exact fresh fresh (scenarioBoxes ℚ) (queryBoxes ℚ) (by decide) (by decide) []⟩

/-- C3: for trees `A` and `B` built from non-empty box lists and a predicate `pred`,
`A.collision(B, pred)` returns, and it returns true exactly when some leaf box `a` of
`A` and some leaf box `b` of `B` have `a.collision(b)` and `pred(a, b)` true. -/
theorem C3_collision_iff_exists (tA tB : AABBtree K) (as bs : List (BBox K))
    (hA : as ≠ []) (hB : bs ≠ []) (pred : BBox K → BBox K → Bool) :
    ∃ r, (build tA as).collision (build tB bs) pred false = some r ∧
      (r = true ↔ ∃ a ∈ (build tA as).leaves, ∃ b ∈ (build tB bs).leaves,
        a.collision b = true ∧ pred a b = true) := by
  obtain ⟨r, e, hp⟩ := collision_ok pred _ (build tA as) (build tB bs) le_rfl
    (build_valid _ tA as le_rfl hA) (build_valid _ tB bs le_rfl hB) false
  refine ⟨r, e, ?_⟩
  rw [hp]
  simp [Hit]

/-- C3 at the end-to-end scenario of the specification, with the always-true
predicate. -/
theorem C3_collision_iff_exists_witness :
    (scenarioBoxes ℚ ≠ [] ∧ queryBoxes ℚ ≠ []) ∧
    ∃ r, (build fresh (scenarioBoxes ℚ)).collision (build fresh (queryBoxes ℚ))
        (fun _ _ => true) false = some r ∧
      (r = true ↔ ∃ a ∈ (build fresh (scenarioBoxes ℚ)).leaves,
        ∃ b ∈ (build fresh (queryBoxes ℚ)).leaves,
        a.collision b = true ∧ (fun _ _ => true) a b = true) :=
  ⟨⟨by decide, by decide⟩,
   C3_collision_iff_exists fresh fresh (scenarioBoxes ℚ) (queryBoxes ℚ) (by decide) (by decide)
     (fun _ _ => true)⟩

/-- C4: for a non-empty list of boxes, after `build` the accessor `bbox()` returns
the minimum of the inputs' `x_min` and `y_min` and the maximum of the inputs'
`x_max` and `y_max` (for a single box, its own extrema). -/
theorem C4_root_box_is_union (t : AABBtree K) (bs : List (BBox K)) (h : bs ≠ []) :
    ∃ xmin ymin xmax ymax : K,
      (build t bs).bbox = some (xmin, ymin, xmax, ymax) ∧
      (bs.map BBox.x_min).minimum = ↑xmin ∧ (bs.map BBox.y_min).minimum = ↑ymin ∧
      (bs.map BBox.x_max).maximum = ↑xmax ∧ (bs.map BBox.y_max).maximum = ↑ymax := by
  by_cases h1 : bs.length = 1
  · obtain ⟨b, rfl⟩ := List.length_eq_one.mp h1
    refine ⟨b.x_min, b.y_min, b.x_max, b.y_max, ?_, ?_⟩
    · rw [build_singleton]; rfl
    · simp
  · have h2 : 2 ≤ bs.length := by
      have := List.length_pos.mpr h
      omega
    refine ⟨(BBox.ofBoxes bs 0 0).x_min, (BBox.ofBoxes bs 0 0).y_min,
      (BBox.ofBoxes bs 0 0).x_max, (BBox.ofBoxes bs 0 0).y_max, ?_, ?_⟩
    · rw [build_node t bs h2]; rfl
    · exact BBox.join_extrema _ bs h

/-- C4 at the three boxes of the end-to-end scenario. -/
theorem C4_root_box_is_union_witness :
    (scenarioBoxes ℚ) ≠ [] ∧
    ∃ xmin ymin xmax ymax : ℚ,
      (build fresh (scenarioBoxes ℚ)).bbox = some (xmin, ymin, xmax, ymax) ∧
      ((scenarioBoxes ℚ).map BBox.x_min).minimum = ↑xmin ∧
      ((scenarioBoxes ℚ).map BBox.y_min).minimum = ↑ymin ∧
      ((scenarioBoxes ℚ).map BBox.x_max).maximum = ↑xmax ∧
      ((scenarioBoxes ℚ).map BBox.y_max).maximum = ↑ymax :=
  ⟨by decide, C4_root_box_is_union fresh (scenarioBoxes ℚ) (by decide)⟩

/-- C5: for a list of `N ≥ 1` boxes the tree made by `build` has exactly `N` leaves,
and the left-to-right sequence of leaf boxes is a permutation of the input list:
every leaf stores an input box unchanged and every input box is stored by exactly
one leaf. -/
theorem C5_leaves_are_inputs (t : AABBtree K) (bs : List (BBox K)) (h : 1 ≤ bs.length) :
    (build t bs).leaves.length = bs.length ∧ (build t bs).leaves.Perm bs :=
  ⟨(leaves_build bs.length t bs le_rfl).length_eq, leaves_build bs.length t bs le_rfl⟩

/-- C5 at the three boxes of the end-to-end scenario. -/
theorem C5_leaves_are_inputs_witness :
    1 ≤ (scenarioBoxes ℚ).length ∧
    (build fresh (scenarioBoxes ℚ)).leaves.length = (scenarioBoxes ℚ).length ∧
    (build fresh (scenarioBoxes ℚ)).leaves.Perm (scenarioBoxes ℚ) :=
  ⟨by decide, C5_leaves_are_inputs fresh (scenarioBoxes ℚ) (by decide)⟩

/-- C6: `build` is a total function, and on `n ≥ 2` boxes the two lists it passes
to the recursive builds (`negBoxes`, `posBoxes`) are both non-empty and both
strictly shorter than `n`, the tree being the node over the two recursive builds;
from `N` boxes, whatever they are (in particular when all of them share one
center), it yields a tree with exactly `N` leaves. -/
theorem C6_build_terminates (t : AABBtree K) (bs : List (BBox K)) :
    (2 ≤ bs.length →
      (splitBoxes bs).2 ≠ [] ∧ (splitBoxes bs).1 ≠ [] ∧
      (splitBoxes bs).2.length < bs.length ∧ (splitBoxes bs).1.length < bs.length ∧
      build t bs = mk (some (BBox.ofBoxes bs 0 0))
        [build (mk none []) (splitBoxes bs).2, build (mk none []) (splitBoxes bs).1]) ∧
    (build t bs).leaves.length = bs.length := by
  refine ⟨fun h => ?_, (leaves_build bs.length t bs le_rfl).length_eq⟩
  have hl := splitBoxes_length bs h
  exact ⟨List.length_pos.mp hl.2.2.1, List.length_pos.mp hl.1, hl.2.2.2.1, hl.2.1,
    build_node t bs h⟩

/-- C6 at three boxes that share one center. -/
theorem C6_build_terminates_witness :
    2 ≤ sameCenterBoxes.length ∧
    ((splitBoxes sameCenterBoxes).2 ≠ [] ∧ (splitBoxes sameCenterBoxes).1 ≠ [] ∧
      (splitBoxes sameCenterBoxes).2.length < sameCenterBoxes.length ∧
      (splitBoxes sameCenterBoxes).1.length < sameCenterBoxes.length ∧
      build fresh sameCenterBoxes = mk (some (BBox.ofBoxes sameCenterBoxes 0 0))
        [build (mk none []) (splitBoxes sameCenterBoxes).2,
         build (mk none []) (splitBoxes sameCenterBoxes).1]) ∧
    (build fresh sameCenterBoxes).leaves.length = sameCenterBoxes.length :=
  ⟨by decide, (C6_build_terminates fresh sameCenterBoxes).1 (by decide),
    (C6_build_terminates fresh sameCenterBoxes).2⟩

/-- C7: whatever the tree held before, after `build(L)` the call `empty()` returns
true exactly when `L` is empty, and for the empty list the tree has no box and no
children. -/
theorem C7_empty_iff_no_boxes (t : AABBtree K) (bs : List (BBox K)) :
    ((build t bs).empty = true ↔ bs = []) ∧
    (build t []).pBBox = none ∧ (build t []).children = [] := by
  refine ⟨?_, by rw [build_nil]; rfl, by rw [build_nil]; rfl⟩
  constructor
  · intro h
    by_contra hne
    rw [build_empty_eq_false t bs hne] at h
    exact Bool.false_ne_true h
  · rintro rfl
    rw [build_nil]; rfl

/-- C8: `build([b])` gives a tree without children whose stored box is `b` itself,
with the extrema, `Id()` and `Ipos()` of `b`. -/
theorem C8_single_box_is_leaf (t : AABBtree K) (b : BBox K) :
    (build t [b]).children = [] ∧ (build t [b]).pBBox = some b ∧
    (build t [b]).bbox = some (b.x_min, b.y_min, b.x_max, b.y_max) ∧
    (build t [b]).pBBox.map BBox.Id = some b.Id ∧
    (build t [b]).pBBox.map BBox.Ipos = some b.Ipos := by
  rw [build_singleton]
  exact ⟨rfl, rfl, rfl, rfl, rfl⟩

end Claims

/-- C9: for a box with `x_min ≤ x_max` and `y_min ≤ y_max`, `distance(x, y)` is
`sqrt(dx² + dy²)` with `dx = max(x_min − x, 0, x − x_max)` and
`dy = max(y_min − y, 0, y − y_max)`, and it is `0` exactly when `(x, y)` lies in the
closed rectangle. -/
theorem C9_distance_formula (b : BBox ℝ) (x y : ℝ)
    (hx : b.x_min ≤ b.x_max) (hy : b.y_min ≤ b.y_max) :
    b.distance hypot x y =
      Real.sqrt (max (b.x_min - x) (max 0 (x - b.x_max)) ^ 2
        + max (b.y_min - y) (max 0 (y - b.y_max)) ^ 2) ∧
    (b.distance hypot x y = 0 ↔
      (b.x_min ≤ x ∧ x ≤ b.x_max ∧ b.y_min ≤ y ∧ y ≤ b.y_max)) := by
  refine ⟨distance_eq_sqrt b x y hx hy, ?_⟩
  rw [distance_eq_sqrt b x y hx hy, Real.sqrt_eq_zero (by positivity)]
  have hgx := gap_nonneg b.x_min b.x_max x
  have hgy := gap_nonneg b.y_min b.y_max y
  constructor
  · intro h
    have h1 : max (b.x_min - x) (max 0 (x - b.x_max)) = 0 := by nlinarith
    have h2 : max (b.y_min - y) (max 0 (y - b.y_max)) = 0 := by nlinarith
    have := (gap_eq_zero_iff _ _ _).mp h1
    have := (gap_eq_zero_iff _ _ _).mp h2
    tauto
  · rintro ⟨a1, a2, a3, a4⟩
    rw [(gap_eq_zero_iff _ _ _).mpr ⟨a1, a2⟩, (gap_eq_zero_iff _ _ _).mpr ⟨a3, a4⟩]
    norm_num

/-- C9 at the unit box and the point `(3, 5)`. -/
theorem C9_distance_formula_witness :
    ((0 : ℝ) ≤ 1 ∧ (0 : ℝ) ≤ 1) ∧
    ((⟨0, 0, 1, 1, 0, 0⟩ : BBox ℝ).distance hypot 3 5 =
      Real.sqrt (max ((0 : ℝ) - 3) (max 0 (3 - 1)) ^ 2 + max ((0 : ℝ) - 5) (max 0 (5 - 1)) ^ 2) ∧
     ((⟨0, 0, 1, 1, 0, 0⟩ : BBox ℝ).distance hypot 3 5 = 0 ↔
      ((0 : ℝ) ≤ 3 ∧ (3 : ℝ) ≤ 1 ∧ (0 : ℝ) ≤ 5 ∧ (5 : ℝ) ≤ 1))) :=
  ⟨⟨by norm_num, by norm_num⟩,
   C9_distance_formula ⟨0, 0, 1, 1, 0, 0⟩ 3 5 (by norm_num) (by norm_num)⟩

/-- C10: `distance` is a lower bound on the distance to every point of the closed
rectangle of a well-formed box, and some point of the rectangle attains it. -/
theorem C10_distance_lower_bound (b : BBox ℝ) (px py : ℝ)
    (hx : b.x_min ≤ b.x_max) (hy : b.y_min ≤ b.y_max) :
    (∀ qx qy : ℝ, b.contains qx qy → b.distance hypot px py ≤ euclid px py qx qy) ∧
    (∃ qx qy : ℝ, b.contains qx qy ∧ b.distance hypot px py = euclid px py qx qy) := by
  refine ⟨fun qx qy hq => distance_le_euclid b px py qx qy hq, ?_⟩
  obtain ⟨a1, a2, a3⟩ := gap_clamp b.x_min b.x_max px hx
  obtain ⟨c1, c2, c3⟩ := gap_clamp b.y_min b.y_max py hy
  refine ⟨max b.x_min (min px b.x_max), max b.y_min (min py b.y_max), ⟨a1, a2, c1, c2⟩, ?_⟩
  rw [distance_eq_sqrt b px py hx hy, euclid, a3, c3]

/-- C10 at the unit box and the point `(3, 5)`. -/
theorem C10_distance_lower_bound_witness :
    ((0 : ℝ) ≤ 1 ∧ (0 : ℝ) ≤ 1) ∧
    ((∀ qx qy : ℝ, (⟨0, 0, 1, 1, 0, 0⟩ : BBox ℝ).contains qx qy →
        (⟨0, 0, 1, 1, 0, 0⟩ : BBox ℝ).distance hypot 3 5 ≤ euclid 3 5 qx qy) ∧
     (∃ qx qy : ℝ, (⟨0, 0, 1, 1, 0, 0⟩ : BBox ℝ).contains qx qy ∧
        (⟨0, 0, 1, 1, 0, 0⟩ : BBox ℝ).distance hypot 3 5 = euclid 3 5 qx qy)) :=
  ⟨⟨by norm_num, by norm_num⟩,
   C10_distance_lower_bound ⟨0, 0, 1, 1, 0, 0⟩ 3 5 (by norm_num) (by norm_num)⟩

/-! ## Farthest corner, tags of a joined box -/

theorem euclid_eq_abs (px py cx cy : ℝ) :
    euclid px py cx cy = Real.sqrt (|px - cx| ^ 2 + |py - cy| ^ 2) := by
  rw [euclid, sq_abs, sq_abs]

theorem sqrt_sq_add_mono {a b c d : ℝ} (ha : 0 ≤ a) (hc : 0 ≤ c) (hab : a ≤ b) (hcd : c ≤ d) :
    Real.sqrt (a ^ 2 + c ^ 2) ≤ Real.sqrt (b ^ 2 + d ^ 2) :=
  Real.sqrt_le_sqrt (add_le_add (pow_le_pow_left₀ ha hab 2) (pow_le_pow_left₀ hc hcd 2))

/-- The `maxDistance` of a box is the largest of the distances to its four corners. -/
theorem maxDistance_eq_corners (b : BBox ℝ) (px py : ℝ) :
    b.maxDistance hypot px py =
      max (max (euclid px py b.x_min b.y_min) (euclid px py b.x_min b.y_max))
          (max (euclid px py b.x_max b.y_min) (euclid px py b.x_max b.y_max)) := by
  simp only [euclid_eq_abs, BBox.maxDistance, hypot]
  have hA := abs_nonneg (px - b.x_min)
  have hB := abs_nonneg (px - b.x_max)
  have hC := abs_nonneg (py - b.y_min)
  have hD := abs_nonneg (py - b.y_max)
  apply le_antisymm
  · rcases le_total (|px - b.x_min|) (|px - b.x_max|) with h1 | h1 <;>
      rcases le_total (|py - b.y_min|) (|py - b.y_max|) with h2 | h2
    · rw [max_eq_right h1, max_eq_right h2]
      exact le_max_of_le_right (le_max_right _ _)
    · rw [max_eq_right h1, max_eq_left h2]
      exact le_max_of_le_right (le_max_left _ _)
    · rw [max_eq_left h1, max_eq_right h2]
      exact le_max_of_le_left (le_max_right _ _)
    · rw [max_eq_left h1, max_eq_left h2]
      exact le_max_of_le_left (le_max_left _ _)
  · refine max_le (max_le ?_ ?_) (max_le ?_ ?_)
    · exact sqrt_sq_add_mono hA hC (le_max_left _ _) (le_max_left _ _)
    · exact sqrt_sq_add_mono hA hD (le_max_left _ _) (le_max_right _ _)
    · exact sqrt_sq_add_mono hB hC (le_max_right _ _) (le_max_left _ _)
    · exact sqrt_sq_add_mono hB hD (le_max_right _ _) (le_max_right _ _)

section More

variable {K : Type} [LinearOrderedField K]

theorem BBox.foldl_joinStep_tags (rest : List (BBox K)) : ∀ s : BBox K,
    (rest.foldl BBox.joinStep s).m_id = s.m_id ∧ (rest.foldl BBox.joinStep s).m_ipos = s.m_ipos := by
  induction rest with
  | nil => intro s; exact ⟨rfl, rfl⟩
  | cons c cs ih =>
    intro s
    rw [List.foldl_cons]
    have h := ih (BBox.joinStep s c)
    have e1 : (BBox.joinStep s c).m_id = s.m_id := by rw [BBox.joinStep_eq]
    have e2 : (BBox.joinStep s c).m_ipos = s.m_ipos := by rw [BBox.joinStep_eq]
    exact ⟨h.1.trans e1, h.2.trans e2⟩

/-! ## The invocations of the functor -/

namespace AABBtree

theorem isCall_swap {s : Bool} {xs ys : List (BBox K)} {p : BBox K × BBox K}
    (h : IsCall (!s) ys xs p) : IsCall s xs ys p := by
  obtain ⟨b, hb, a, ha, rfl⟩ := h
  exact ⟨a, ha, b, hb, by cases s <;> rfl⟩

theorem collisionLogEach_ok (ifun : BBox K → BBox K → Bool) (node : AABBtree K)
    (cs : List (AABBtree K)) (h : ∀ c ∈ cs, LogOK ifun node c) :
    ∀ swap log, ∃ r l, collisionLogEach node cs ifun swap log = some (r, log ++ l) ∧
      collisionEach node cs ifun swap = some r ∧
      ∀ p ∈ l, IsCall swap (leaves node) (leavesList cs) p := by
  induction cs with
  | nil =>
    intro swap log
    refine ⟨false, [], ?_, ?_, ?_⟩
    · rw [collisionLogEach, List.append_nil]
    · rw [collisionEach]
    · intro p hp; exact absurd hp (List.not_mem_nil _)
  | cons c cs ih =>
    intro swap log
    obtain ⟨r1, l1, e1, c1, p1⟩ := h c (List.mem_cons_self _ _) swap log
    have p1' : ∀ p ∈ l1, IsCall swap (leaves node) (leavesList (c :: cs)) p := by
      intro p hp
      obtain ⟨a, ha, b, hb, e⟩ := p1 p hp
      exact ⟨a, ha, b, by rw [leavesList]; exact List.mem_append_left _ hb, e⟩
    rw [collisionLogEach, collisionEach, e1, c1]
    cases r1 with
    | true => exact ⟨true, l1, rfl, rfl, p1'⟩
    | false =>
      obtain ⟨r2, l2, e2, c2, p2⟩ :=
        ih (fun c' hc' => h c' (List.mem_cons_of_mem _ hc')) swap (log ++ l1)
      refine ⟨r2, l1 ++ l2, ?_, c2, ?_⟩
      · simp only []
        rw [e2, List.append_assoc]
      · intro p hp
        rcases List.mem_append.mp hp with hp | hp
        · exact p1' p hp
        · obtain ⟨a, ha, b, hb, e⟩ := p2 p hp
          exact ⟨a, ha, b, by rw [leavesList]; exact List.mem_append_right _ hb, e⟩

theorem collisionLogCross_ok (ifun : BBox K → BBox K → Bool) (cs1 cs2 : List (AABBtree K))
    (h : ∀ c1 ∈ cs1, ∀ c2 ∈ cs2, LogOK ifun c1 c2) :
    ∀ swap log, ∃ r l, collisionLogCross cs1 cs2 ifun swap log = some (r, log ++ l) ∧
      collisionCross cs1 cs2 ifun swap = some r ∧
      ∀ p ∈ l, IsCall swap (leavesList cs1) (leavesList cs2) p := by
  induction cs1 with
  | nil =>
    intro swap log
    refine ⟨false, [], ?_, ?_, ?_⟩
    · rw [collisionLogCross, List.append_nil]
    · rw [collisionCross]
    · intro p hp; exact absurd hp (List.not_mem_nil _)
  | cons c cs ih =>
    intro swap log
    obtain ⟨r1, l1, e1, c1, p1⟩ :=
      collisionLogEach_ok ifun c cs2 (h c (List.mem_cons_self _ _)) swap log
    have p1' : ∀ p ∈ l1, IsCall swap (leavesList (c :: cs)) (leavesList cs2) p := by
      intro p hp
      obtain ⟨a, ha, hr⟩ := p1 p hp
      exact ⟨a, by rw [leavesList]; exact List.mem_append_left _ ha, hr⟩
    rw [collisionLogCross, collisionCross, e1, c1]
    cases r1 with
    | true => exact ⟨true, l1, rfl, rfl, p1'⟩
    | false =>
      obtain ⟨r2, l2, e2, c2, p2⟩ :=
        ih (fun c' hc' => h c' (List.mem_cons_of_mem _ hc')) swap (log ++ l1)
      refine ⟨r2, l1 ++ l2, ?_, c2, ?_⟩
      · simp only []
        rw [e2, List.append_assoc]
      · intro p hp
        rcases List.mem_append.mp hp with hp | hp
        · exact p1' p hp
        · obtain ⟨a, ha, hr⟩ := p2 p hp
          exact ⟨a, by rw [leavesList]; exact List.mem_append_right _ ha, hr⟩

theorem collisionLog_ok (ifun : BBox K → BBox K → Bool) (n : Nat) :
    ∀ self tree : AABBtree K, sizeOf self + sizeOf tree ≤ n →
    Valid self → Valid tree → LogOK ifun self tree := by
  induction n with
  | zero =>
    intro self tree h
    cases self
    simp only [mk.sizeOf_spec] at h
    omega
  | succ n ih =>
    intro self tree h hs ht
    obtain ⟨spb, sc⟩ := self
    obtain ⟨tpb, tc⟩ := tree
    obtain ⟨sb, rfl, hscov, hsch⟩ := valid_mk hs
    obtain ⟨tb, rfl, htcov, htch⟩ := valid_mk ht
    intro swap log
    rw [collisionLog, collision]
    by_cases hcol : tb.collision sb = true
    · simp only [hcol, Bool.not_true, Bool.false_eq_true, if_false]
      by_cases hsc : sc = []
      · by_cases htc : tc = []
        · -- both leaves
          subst hsc; subst htc
          refine ⟨if swap = true then ifun tb sb else ifun sb tb, [orient swap sb tb], ?_, ?_, ?_⟩
          · cases swap <;> simp [orient]
          · cases swap <;> simp
          · intro p hp
            rw [List.mem_singleton] at hp
            rw [leaves_mk_nil, leaves_mk_nil]
            exact ⟨sb, by simp, tb, by simp, hp⟩
        · -- first is a leaf, second is a tree
          subst hsc
          have hi : ((if ([] : List (AABBtree K)).isEmpty = true then (0 : Int) else 1)
              + if tc.isEmpty = true then 0 else 2) = 2 := by simp [htc]
          obtain ⟨r, l, e, c, p⟩ := collisionLogEach_ok ifun (mk (some sb) []) tc
            (fun c hc => ih _ _ (by have := sizeOf_lt_of_mem_children (some tb) hc; omega)
              hs (htch c hc)) swap log
          refine ⟨r, l, ?_, ?_, by rw [leaves_mk_of_ne_nil _ htc]; exact p⟩
          · simp only [hi]; norm_num; exact e
          · simp only [hi]; norm_num; exact c
      · by_cases htc : tc = []
        · -- first is a tree, second is a leaf
          subst htc
          have hi : ((if sc.isEmpty = true then (0 : Int) else 1)
              + if ([] : List (AABBtree K)).isEmpty = true then 0 else 2) = 1 := by simp [hsc]
          obtain ⟨r, l, e, c, p⟩ := collisionLogEach_ok ifun (mk (some tb) []) sc
            (fun c hc => ih _ _ (by have := sizeOf_lt_of_mem_children (some sb) hc; omega)
              ht (hsch c hc)) (!swap) log
          refine ⟨r, l, ?_, ?_, ?_⟩
          · simp only [hi]; norm_num; exact e
          · simp only [hi]; norm_num; exact c
          · intro q hq
            rw [leaves_mk_of_ne_nil _ hsc]
            exact isCall_swap (p q hq)
        · -- both are trees
          have hi : ((if sc.isEmpty = true then (0 : Int) else 1)
              + if tc.isEmpty = true then 0 else 2) = 3 := by simp [hsc, htc]
          obtain ⟨r, l, e, c, p⟩ := collisionLogCross_ok ifun sc tc
            (fun c1 h1 c2 h2 => ih _ _ (by
              have := sizeOf_lt_of_mem_children (some sb) h1
              have := sizeOf_lt_of_mem_children (some tb) h2
              omega) (hsch c1 h1) (htch c2 h2)) swap log
          refine ⟨r, l, ?_, ?_,
            by rw [leaves_mk_of_ne_nil _ hsc, leaves_mk_of_ne_nil _ htc]; exact p⟩
          · simp only [hi]; norm_num; exact e
          · simp only [hi]; norm_num; exact c
    · have hcol' : tb.collision sb = false := by simpa using hcol
      simp only [hcol', Bool.not_false, if_true]
      exact ⟨false, [], by rw [List.append_nil], rfl,
        fun p hp => absurd hp (List.not_mem_nil _)⟩

/-! ## The cut of `build` -/

theorem cutBoxes_of_taller (box : BBox K) (bs : List (BBox K))
    (h : box.y_max - box.y_min > box.x_max - box.x_min) :
    cutBoxes box bs = partitionByY box bs := by
  have hc := cutLoop_eq
    (fun it : BBox K => decide ((it.y_min + it.y_max) / 2 > (box.y_max + box.y_min) / 2)) bs ([], [])
  simp only [decide_eq_true_eq, List.nil_append] at hc
  simp only [cutBoxes, h, if_true, partitionByY]
  exact hc

theorem cutBoxes_of_not_taller (box : BBox K) (bs : List (BBox K))
    (h : ¬ box.y_max - box.y_min > box.x_max - box.x_min) :
    cutBoxes box bs = partitionByX box bs := by
  have hc := cutLoop_eq
    (fun it : BBox K => decide ((it.x_min + it.x_max) / 2 > (box.x_max + box.x_min) / 2)) bs ([], [])
  simp only [decide_eq_true_eq, List.nil_append] at hc
  simp only [cutBoxes, h, if_false, partitionByX]
  exact hc

end AABBtree

end More

/-! ## Exact results of the two phases of the nearest-candidate search -/

theorem minimum_append_eq {α : Type} [LinearOrder α] (l1 l2 : List α) :
    (l1 ++ l2).minimum = min l1.minimum l2.minimum := by
  induction l1 with
  | nil => simp
  | cons a l ih => rw [List.cons_append, List.minimum_cons, ih, List.minimum_cons, min_assoc]

/-- The distance of a well-formed box is attained at a point of its rectangle. -/
theorem exists_contains_distance_eq (b : BBox ℝ) (px py : ℝ) (h : b.wellFormed) :
    ∃ qx qy : ℝ, b.contains qx qy ∧ b.distance hypot px py = euclid px py qx qy := by
  obtain ⟨a1, a2, a3⟩ := gap_clamp b.x_min b.x_max px h.1
  obtain ⟨c1, c2, c3⟩ := gap_clamp b.y_min b.y_max py h.2
  refine ⟨max b.x_min (min px b.x_max), max b.y_min (min py b.y_max), ⟨a1, a2, c1, c2⟩, ?_⟩
  rw [distance_eq_sqrt b px py h.1 h.2, euclid, a3, c3]

/-- An enclosing box is at most as far from a point as a well-formed box inside it. -/
theorem distance_le_of_covers {A L : BBox ℝ} (px py : ℝ) (hA : A.covers L) (hL : L.wellFormed) :
    A.distance hypot px py ≤ L.distance hypot px py := by
  obtain ⟨qx, qy, hq, e⟩ := exists_contains_distance_eq L px py hL
  rw [e]
  exact distance_le_euclid A px py qx qy (contains_of_covers hA hq)

theorem distance_le_maxDistance (L : BBox ℝ) (px py : ℝ) (hL : L.wellFormed) :
    L.distance hypot px py ≤ L.maxDistance hypot px py := by
  obtain ⟨qx, qy, hq, e⟩ := exists_contains_distance_eq L px py hL
  rw [e]
  exact euclid_le_maxDistance L px py qx qy hq

namespace AABBtree

theorem leaves_subset_of_mem_children {K : Type} [LinearOrderedField K]
    (pb : Option (BBox K)) {cs : List (AABBtree K)} {c : AABBtree K}
    (hc : c ∈ cs) : ∀ L ∈ leaves c, L ∈ leaves (mk pb cs) := by
  intro L hL
  rw [leaves_mk_of_ne_nil pb (List.ne_nil_of_mem hc), mem_leavesList]
  exact ⟨c, hc, hL⟩

theorem min_maxdistLoop_eq (x y : ℝ) (cs : List (AABBtree ℝ))
    (h : ∀ c ∈ cs, ∀ m : WithTop ℝ,
      min_maxdist hypot x y c m = some (min m (leastMaxDistance hypot x y (leaves c)))) :
    ∀ m : WithTop ℝ, min_maxdistLoop hypot x y cs m
      = some (min m (leastMaxDistance hypot x y (leavesList cs))) := by
  induction cs with
  | nil =>
    intro m
    rw [min_maxdistLoop, leavesList]
    simp [leastMaxDistance]
  | cons c cs ih =>
    intro m
    rw [min_maxdistLoop, h c (List.mem_cons_self _ _) m]
    simp only []
    rw [ih (fun c' hc' => h c' (List.mem_cons_of_mem _ hc')), leavesList]
    simp only [leastMaxDistance, List.map_append, minimum_append_eq, min_assoc]

theorem min_maxdist_eq (x y : ℝ) : ∀ tree : AABBtree ℝ, Valid tree →
    (∀ L ∈ leaves tree, L.wellFormed) →
    ∀ m : WithTop ℝ, min_maxdist hypot x y tree m
      = some (min m (leastMaxDistance hypot x y (leaves tree))) := by
  apply tree_induction
  · intro pb cs ih hv hwf m
    obtain ⟨b, rfl, hcov, hch⟩ := valid_mk hv
    rw [min_maxdist]
    by_cases hcs : cs = []
    · subst hcs
      simp only [List.isEmpty_nil, if_true]
      rw [leaves_mk_nil]
      simp [leastMaxDistance, min_comm]
    · have hne : cs.isEmpty = false := by simpa using hcs
      simp only [hne, Bool.false_eq_true, if_false]
      by_cases hprune : ((b.distance hypot x y : ℝ) : WithTop ℝ) > m
      · simp only [hprune, if_true]
        congr 1
        symm
        apply min_eq_left
        apply List.le_minimum_of_forall_le
        intro a ha
        obtain ⟨L, hL, rfl⟩ := List.mem_map.mp ha
        have h1 := distance_le_of_covers x y (hcov L hL) (hwf L hL)
        have h2 := distance_le_maxDistance L x y (hwf L hL)
        exact le_trans hprune.le (WithTop.coe_le_coe.mpr (h1.trans h2))
      · simp only [hprune, if_false]
        rw [leaves_mk_of_ne_nil _ hcs]
        exact min_maxdistLoop_eq x y cs
          (fun c hc => ih c hc (hch c hc)
            (fun L hL => hwf L (leaves_subset_of_mem_children (some b) hc L hL))) m

theorem min_maxdist_selectLoop_eq (x y : ℝ) (d : WithTop ℝ) (cs : List (AABBtree ℝ))
    (h : ∀ c ∈ cs, ∀ out : List (BBox ℝ), min_maxdist_select hypot x y d c out
      = some (out ++ (leaves c).filter
          (fun L => decide (((L.distance hypot x y : ℝ) : WithTop ℝ) ≤ d)))) :
    ∀ out : List (BBox ℝ), min_maxdist_selectLoop hypot x y d cs out
      = some (out ++ (leavesList cs).filter
          (fun L => decide (((L.distance hypot x y : ℝ) : WithTop ℝ) ≤ d))) := by
  induction cs with
  | nil =>
    intro out
    rw [min_maxdist_selectLoop, leavesList]
    simp
  | cons c cs ih =>
    intro out
    rw [min_maxdist_selectLoop, h c (List.mem_cons_self _ _) out]
    simp only []
    rw [ih (fun c' hc' => h c' (List.mem_cons_of_mem _ hc')), leavesList, List.filter_append,
      List.append_assoc]

theorem min_maxdist_select_eq (x y : ℝ) (d : WithTop ℝ) : ∀ tree : AABBtree ℝ, Valid tree →
    (∀ L ∈ leaves tree, L.wellFormed) →
    ∀ out : List (BBox ℝ), min_maxdist_select hypot x y d tree out
      = some (out ++ (leaves tree).filter
          (fun L => decide (((L.distance hypot x y : ℝ) : WithTop ℝ) ≤ d))) := by
  apply tree_induction
  · intro pb cs ih hv hwf out
    obtain ⟨b, rfl, hcov, hch⟩ := valid_mk hv
    rw [min_maxdist_select]
    by_cases hd : ((b.distance hypot x y : ℝ) : WithTop ℝ) ≤ d
    · simp only [hd, if_true]
      by_cases hcs : cs = []
      · subst hcs
        simp only [List.isEmpty_nil, if_true]
        rw [leaves_mk_nil]
        simp [hd]
      · have hne : cs.isEmpty = false := by simpa using hcs
        simp only [hne, Bool.false_eq_true, if_false]
        rw [leaves_mk_of_ne_nil _ hcs]
        exact min_maxdist_selectLoop_eq x y d cs
          (fun c hc => ih c hc (hch c hc)
            (fun L hL => hwf L (leaves_subset_of_mem_children (some b) hc L hL))) out
    · simp only [hd, if_false]
      congr 1
      have hnone : (leaves (mk (some b) cs)).filter
          (fun L => decide (((L.distance hypot x y : ℝ) : WithTop ℝ) ≤ d)) = [] := by
        rw [List.filter_eq_nil_iff]
        intro L hL hLd
        apply hd
        have h1 := distance_le_of_covers x y (hcov L hL) (hwf L hL)
        exact le_trans (WithTop.coe_le_coe.mpr h1) (of_decide_eq_true hLd)
      rw [hnone, List.append_nil]

theorem leastMaxDistance_perm {x y : ℝ} {l1 l2 : List (BBox ℝ)} (h : l1.Perm l2) :
    leastMaxDistance hypot x y l1 = leastMaxDistance hypot x y l2 := by
  have key : ∀ u v : List (BBox ℝ), (∀ L ∈ v, L ∈ u) →
      leastMaxDistance hypot x y u ≤ leastMaxDistance hypot x y v := by
    intro u v huv
    apply List.le_minimum_of_forall_le
    intro a ha
    obtain ⟨L, hL, rfl⟩ := List.mem_map.mp ha
    exact List.minimum_le_of_mem' (List.mem_map_of_mem _ (huv L hL))
  exact le_antisymm (key _ _ (fun L hL => h.symm.subset hL)) (key _ _ (fun L hL => h.subset hL))

theorem wellFormed_leaves_build (t : AABBtree ℝ) (bs : List (BBox ℝ))
    (hwf : ∀ b ∈ bs, b.x_min ≤ b.x_max ∧ b.y_min ≤ b.y_max) :
    ∀ L ∈ (build t bs).leaves, L.wellFormed :=
  fun L hL => hwf L ((leaves_build _ t bs le_rfl).subset hL)

end AABBtree

/-! ## The end-to-end scenario, evaluated -/

section Scenario

open AABBtree

theorem splitBoxes_scenario :
    splitBoxes (scenarioBoxes ℚ) = ([⟨2, 2, 3, 3, 0, 1⟩], [⟨0, 0, 1, 1, 0, 0⟩, ⟨0, 2, 1, 3, 0, 2⟩]) := by
  simp [splitBoxes, cutBoxes, rebalance, BBox.ofBoxes, BBox.join, BBox.joinStep, scenarioBoxes]
  norm_num
  exact List.cons_ne_nil _ _

theorem splitBoxes_scenario_left :
    splitBoxes ([⟨0, 0, 1, 1, 0, 0⟩, ⟨0, 2, 1, 3, 0, 2⟩] : List (BBox ℚ))
      = ([⟨0, 2, 1, 3, 0, 2⟩], [⟨0, 0, 1, 1, 0, 0⟩]) := by
  simp [splitBoxes, cutBoxes, rebalance, BBox.ofBoxes, BBox.join, BBox.joinStep]
  norm_num

/-- The tree that `build` makes of the three boxes of the end-to-end scenario. -/
theorem build_scenario :
    build fresh (scenarioBoxes ℚ) =
      mk (some ⟨0, 0, 3, 3, 0, 0⟩)
        [mk (some ⟨0, 0, 1, 3, 0, 0⟩)
          [mk (some ⟨0, 0, 1, 1, 0, 0⟩) [], mk (some ⟨0, 2, 1, 3, 0, 2⟩) []],
         mk (some ⟨2, 2, 3, 3, 0, 1⟩) []] := by
  rw [build_node _ _ (by decide), splitBoxes_scenario]
  simp only []
  rw [build_singleton, build_node _ _ (by decide), splitBoxes_scenario_left]
  simp only []
  rw [build_singleton, build_singleton]
  simp [BBox.ofBoxes, BBox.join, BBox.joinStep_eq, scenarioBoxes]

theorem build_query :
    build fresh (queryBoxes ℚ) = mk (some ⟨1 / 2, 1 / 2, 2, 2, 0, 0⟩) [] := by
  rw [queryBoxes, build_singleton]

theorem intersect_scenario :
    (build fresh (scenarioBoxes ℚ)).intersect (build fresh (queryBoxes ℚ)) [] false
      = some [(⟨0, 0, 1, 1, 0, 0⟩, ⟨1 / 2, 1 / 2, 2, 2, 0, 0⟩),
              (⟨0, 2, 1, 3, 0, 2⟩, ⟨1 / 2, 1 / 2, 2, 2, 0, 0⟩),
              (⟨2, 2, 3, 3, 0, 1⟩, ⟨1 / 2, 1 / 2, 2, 2, 0, 0⟩)] := by
  rw [build_scenario, build_query]
  simp [intersect, intersectEach, BBox.collision]
  norm_num

theorem ofBoxes_tieBoxes : BBox.ofBoxes tieBoxes 0 0 = ⟨0, 0, 2, 2, 0, 0⟩ := by
  simp [BBox.ofBoxes, BBox.join, BBox.joinStep_eq, tieBoxes]

end Scenario

/-! ## The claims, continued -/

section Claims2

variable {K : Type} [LinearOrderedField K]

open AABBtree

/-- C11: for a well-formed box, `maxDistance(p)` bounds from above the distance from
`p` to every point of the closed rectangle, and it equals the largest of the
Euclidean distances from `p` to the four corners. -/
theorem C11_maxDistance_farthest_corner (b : BBox ℝ) (px py : ℝ)
    (hx : b.x_min ≤ b.x_max) (hy : b.y_min ≤ b.y_max) :
    (∀ qx qy : ℝ, b.contains qx qy → euclid px py qx qy ≤ b.maxDistance hypot px py) ∧
    b.maxDistance hypot px py =
      max (max (euclid px py b.x_min b.y_min) (euclid px py b.x_min b.y_max))
          (max (euclid px py b.x_max b.y_min) (euclid px py b.x_max b.y_max)) :=
  ⟨fun qx qy hq => euclid_le_maxDistance b px py qx qy hq, maxDistance_eq_corners b px py⟩

/-- C11 at the unit box and the point `(3, 5)`. -/
theorem C11_maxDistance_farthest_corner_witness :
    ((0 : ℝ) ≤ 1 ∧ (0 : ℝ) ≤ 1) ∧
    ((∀ qx qy : ℝ, (⟨0, 0, 1, 1, 0, 0⟩ : BBox ℝ).contains qx qy →
        euclid 3 5 qx qy ≤ (⟨0, 0, 1, 1, 0, 0⟩ : BBox ℝ).maxDistance hypot 3 5) ∧
     (⟨0, 0, 1, 1, 0, 0⟩ : BBox ℝ).maxDistance hypot 3 5 =
      max (max (euclid 3 5 0 0) (euclid 3 5 0 1)) (max (euclid 3 5 1 0) (euclid 3 5 1 1))) :=
  ⟨⟨by norm_num, by norm_num⟩,
   C11_maxDistance_farthest_corner ⟨0, 0, 1, 1, 0, 0⟩ 3 5 (by norm_num) (by norm_num)⟩

/-- C12: for two well-formed boxes, `a.collision(b)` is true exactly when the two
closed rectangles have a point in common; boxes that touch along an edge or at a
corner collide, and boxes strictly separated on an axis do not. -/
theorem C12_collision_iff_common_point (a b : BBox K)
    (ha : a.x_min ≤ a.x_max ∧ a.y_min ≤ a.y_max) (hb : b.x_min ≤ b.x_max ∧ b.y_min ≤ b.y_max) :
    (a.collision b = true ↔ ∃ qx qy : K, a.contains qx qy ∧ b.contains qx qy) ∧
    (a.x_max = b.x_min → b.y_min ≤ a.y_max → a.y_min ≤ b.y_max → a.collision b = true) ∧
    (a.y_max = b.y_min → b.x_min ≤ a.x_max → a.x_min ≤ b.x_max → a.collision b = true) ∧
    (a.x_max = b.x_min → a.y_max = b.y_min → a.collision b = true) ∧
    (a.x_max < b.x_min ∨ b.x_max < a.x_min ∨ a.y_max < b.y_min ∨ b.y_max < a.y_min →
      a.collision b = false) := by
  obtain ⟨hax, hay⟩ := ha
  obtain ⟨hbx, hby⟩ := hb
  refine ⟨?_, ?_, ?_, ?_, ?_⟩
  · rw [BBox.collision_iff]
    constructor
    · rintro ⟨h1, h2, h3, h4⟩
      refine ⟨max a.x_min b.x_min, max a.y_min b.y_min,
        ⟨le_max_left _ _, max_le hax h1, le_max_left _ _, max_le hay h3⟩,
        ⟨le_max_right _ _, max_le h2 hbx, le_max_right _ _, max_le h4 hby⟩⟩
    · rintro ⟨qx, qy, ⟨a1, a2, a3, a4⟩, ⟨b1, b2, b3, b4⟩⟩
      exact ⟨b1.trans a2, a1.trans b2, b3.trans a4, a3.trans b4⟩
  · intro h h1 h2
    rw [BBox.collision_iff]
    exact ⟨h.ge, hax.trans (h.le.trans hbx), h1, h2⟩
  · intro h h1 h2
    rw [BBox.collision_iff]
    exact ⟨h1, h2, h.ge, hay.trans (h.le.trans hby)⟩
  · intro h1 h2
    rw [BBox.collision_iff]
    exact ⟨h1.ge, hax.trans (h1.le.trans hbx), h2.ge, hay.trans (h2.le.trans hby)⟩
  · intro h
    rw [← Bool.not_eq_true, BBox.collision_iff]
    rintro ⟨h1, h2, h3, h4⟩
    rcases h with h | h | h | h
    · exact absurd h1 (not_le.mpr h)
    · exact absurd h2 (not_le.mpr h)
    · exact absurd h3 (not_le.mpr h)
    · exact absurd h4 (not_le.mpr h)

/-- C12 at two unit squares that share the corner `(1, 1)`. -/
theorem C12_collision_iff_common_point_witness :
    (((0 : ℚ) ≤ 1 ∧ (0 : ℚ) ≤ 1) ∧ ((1 : ℚ) ≤ 2 ∧ (1 : ℚ) ≤ 2)) ∧
    (⟨0, 0, 1, 1, 0, 0⟩ : BBox ℚ).collision ⟨1, 1, 2, 2, 0, 1⟩ = true :=
  ⟨⟨⟨by norm_num, by norm_num⟩, ⟨by norm_num, by norm_num⟩⟩,
   (C12_collision_iff_common_point (⟨0, 0, 1, 1, 0, 0⟩ : BBox ℚ) ⟨1, 1, 2, 2, 0, 1⟩
     ⟨by norm_num, by norm_num⟩ ⟨by norm_num, by norm_num⟩).2.2.2.1 rfl rfl⟩

/-- C13: `join` changes only the four extrema: `id` and `ipos` after the call equal
`id` and `ipos` before it, for every box and every list; on the empty list the four
extrema become `0` whatever they were, and the constructor over a list keeps the
tags it is given. -/
theorem C13_join_frame (s : BBox K) (bs : List (BBox K)) (id ipos : Int) :
    ((s.join bs).Id = s.Id ∧ (s.join bs).Ipos = s.Ipos) ∧
    ((s.join []).x_min = 0 ∧ (s.join []).y_min = 0 ∧
      (s.join []).x_max = 0 ∧ (s.join []).y_max = 0) ∧
    ((BBox.ofBoxes bs id ipos).Id = id ∧ (BBox.ofBoxes bs id ipos).Ipos = ipos) ∧
    BBox.ofBoxes [] id ipos = (⟨0, 0, 0, 0, id, ipos⟩ : BBox K) := by
  have hj : ∀ t : BBox K, (t.join bs).m_id = t.m_id ∧ (t.join bs).m_ipos = t.m_ipos := by
    intro t
    cases bs with
    | nil => exact ⟨rfl, rfl⟩
    | cons first rest => exact BBox.foldl_joinStep_tags rest _
  exact ⟨hj s, ⟨rfl, rfl, rfl, rfl⟩, hj _, rfl⟩

/-- C14: for trees `A` and `B` built from non-empty box lists and a predicate with
`pred(a, b) = pred(b, a)`, `A.collision(B, pred)` and `B.collision(A, pred)` both
return, with the same value. -/
theorem C14_collision_symmetric (tA tB : AABBtree K) (as bs : List (BBox K))
    (hA : as ≠ []) (hB : bs ≠ []) (pred : BBox K → BBox K → Bool)
    (hsym : ∀ a b, pred a b = pred b a) :
    ∃ r, (build tA as).collision (build tB bs) pred false = some r ∧
      (build tB bs).collision (build tA as) pred false = some r := by
  have hvA := build_valid _ tA as le_rfl hA
  have hvB := build_valid _ tB bs le_rfl hB
  obtain ⟨r1, e1, p1⟩ := collision_ok pred _ (build tA as) (build tB bs) le_rfl hvA hvB false
  obtain ⟨r2, e2, p2⟩ := collision_ok pred _ (build tB bs) (build tA as) le_rfl hvB hvA false
  refine ⟨r1, e1, ?_⟩
  rw [e2]
  congr 1
  rw [Bool.eq_iff_iff, p1, p2]
  constructor
  · rintro ⟨b, hb, a, ha, hc, hf⟩
    refine ⟨a, ha, b, hb, by rw [BBox.collision_comm]; exact hc, ?_⟩
    simp only [Bool.false_eq_true, if_false] at hf ⊢
    rw [hsym]; exact hf
  · rintro ⟨a, ha, b, hb, hc, hf⟩
    refine ⟨b, hb, a, ha, by rw [BBox.collision_comm]; exact hc, ?_⟩
    simp only [Bool.false_eq_true, if_false] at hf ⊢
    rw [hsym]; exact hf

/-- C14 at the end-to-end scenario of the specification, with the always-true
predicate. -/
theorem C14_collision_symmetric_witness :
    (scenarioBoxes ℚ ≠ [] ∧ queryBoxes ℚ ≠ [] ∧
      ∀ a b : BBox ℚ, (fun _ _ => true) a b = (fun _ _ => true) b a) ∧
    ∃ r, (build fresh (scenarioBoxes ℚ)).collision (build fresh (queryBoxes ℚ))
        (fun _ _ => true) false = some r ∧
      (build fresh (queryBoxes ℚ)).collision (build fresh (scenarioBoxes ℚ))
        (fun _ _ => true) false = some r :=
  ⟨⟨by decide, by decide, fun _ _ => rfl⟩,
   C14_collision_symmetric fresh fresh (scenarioBoxes ℚ) (queryBoxes ℚ) (by decide) (by decide)
     (fun _ _ => true) (fun _ _ => rfl)⟩

/-- C15: for trees `A` and `B` built from non-empty box lists, the run of
`A.collision(B, pred)` that records the invocations of `pred` returns the value of
`A.collision(B, pred)`, and every invocation it records, at whatever depth and in
whichever of the four cases, has a leaf box of `A` first and a leaf box of `B`
second when started with `swap_tree = false`, and a leaf box of `B` first and a leaf
box of `A` second when started with `swap_tree = true`. -/
theorem C15_predicate_argument_order (tA tB : AABBtree K) (as bs : List (BBox K))
    (hA : as ≠ []) (hB : bs ≠ []) (pred : BBox K → BBox K → Bool)
    (log : List (BBox K × BBox K)) :
    (∃ r l, (build tA as).collisionLog (build tB bs) pred false log = some (r, log ++ l) ∧
      (build tA as).collision (build tB bs) pred false = some r ∧
      ∀ p ∈ l, p.1 ∈ (build tA as).leaves ∧ p.2 ∈ (build tB bs).leaves) ∧
    (∃ r l, (build tA as).collisionLog (build tB bs) pred true log = some (r, log ++ l) ∧
      (build tA as).collision (build tB bs) pred true = some r ∧
      ∀ p ∈ l, p.1 ∈ (build tB bs).leaves ∧ p.2 ∈ (build tA as).leaves) := by
  have hok := collisionLog_ok pred _ (build tA as) (build tB bs) le_rfl
    (build_valid _ tA as le_rfl hA) (build_valid _ tB bs le_rfl hB)
  constructor
  · obtain ⟨r, l, e, c, p⟩ := hok false log
    refine ⟨r, l, e, c, ?_⟩
    intro q hq
    obtain ⟨a, ha, b, hb, rfl⟩ := p q hq
    exact ⟨ha, hb⟩
  · obtain ⟨r, l, e, c, p⟩ := hok true log
    refine ⟨r, l, e, c, ?_⟩
    intro q hq
    obtain ⟨a, ha, b, hb, rfl⟩ := p q hq
    exact ⟨hb, ha⟩

/-- C15 at the end-to-end scenario of the specification, with the always-true
predicate and an empty log. -/
theorem C15_predicate_argument_order_witness :
    (scenarioBoxes ℚ ≠ [] ∧ queryBoxes ℚ ≠ []) ∧
    ∃ r l, (build fresh (scenarioBoxes ℚ)).collisionLog (build fresh (queryBoxes ℚ))
        (fun _ _ => true) false [] = some (r, [] ++ l) ∧
      (build fresh (scenarioBoxes ℚ)).collision (build fresh (queryBoxes ℚ))
        (fun _ _ => true) false = some r ∧
      ∀ p ∈ l, p.1 ∈ (build fresh (scenarioBoxes ℚ)).leaves ∧
        p.2 ∈ (build fresh (queryBoxes ℚ)).leaves :=
  ⟨⟨by decide, by decide⟩,
   (C15_predicate_argument_order fresh fresh (scenarioBoxes ℚ) (queryBoxes ℚ)
     (by decide) (by decide) (fun _ _ => true) []).1⟩

/-- C16: for the tree built from a non-empty list of well-formed boxes, a point
`(x, y)` and a starting bound `m0`, `min_maxdist` returns
`min(m0, least maxDistance(x, y) over the leaves)` (the leaves are the input boxes);
started from `+infinity` the result is finite and is the least `maxDistance` of the
leaves. -/
theorem C16_min_maxdist_exact (t : AABBtree ℝ) (bs : List (BBox ℝ)) (hne : bs ≠ [])
    (hwf : ∀ b ∈ bs, b.x_min ≤ b.x_max ∧ b.y_min ≤ b.y_max) (x y : ℝ) (m0 : WithTop ℝ) :
    min_maxdist hypot x y (build t bs) m0
      = some (min m0 (leastMaxDistance hypot x y (build t bs).leaves)) ∧
    leastMaxDistance hypot x y (build t bs).leaves = leastMaxDistance hypot x y bs ∧
    ∃ v : ℝ, min_maxdist hypot x y (build t bs) ⊤ = some (v : WithTop ℝ) ∧
      leastMaxDistance hypot x y (build t bs).leaves = (v : WithTop ℝ) := by
  have hv := build_valid _ t bs le_rfl hne
  have hperm := leaves_build _ t bs le_rfl
  have hl := wellFormed_leaves_build t bs hwf
  have hfin : leastMaxDistance hypot x y (build t bs).leaves ≠ ⊤ := by
    intro h
    rw [leastMaxDistance, List.minimum_eq_top, List.map_eq_nil_iff] at h
    exact hne (List.Perm.eq_nil (h ▸ hperm.symm))
  refine ⟨min_maxdist_eq x y _ hv hl m0, leastMaxDistance_perm hperm, ?_⟩
  obtain ⟨v, hveq⟩ := WithTop.ne_top_iff_exists.mp hfin
  refine ⟨v, ?_, hveq.symm⟩
  rw [min_maxdist_eq x y _ hv hl ⊤, ← hveq, min_eq_right le_top]

/-- C16 at the three boxes of the end-to-end scenario, the point `(0, 0)` and the
starting bound `+infinity`. -/
theorem C16_min_maxdist_exact_witness :
    (scenarioBoxes ℝ ≠ [] ∧
      ∀ b ∈ scenarioBoxes ℝ, b.x_min ≤ b.x_max ∧ b.y_min ≤ b.y_max) ∧
    (min_maxdist hypot 0 0 (build fresh (scenarioBoxes ℝ)) ⊤
      = some (min ⊤ (leastMaxDistance hypot 0 0 (build fresh (scenarioBoxes ℝ)).leaves)) ∧
    leastMaxDistance hypot 0 0 (build fresh (scenarioBoxes ℝ)).leaves
      = leastMaxDistance hypot 0 0 (scenarioBoxes ℝ) ∧
    ∃ v : ℝ, min_maxdist hypot 0 0 (build fresh (scenarioBoxes ℝ)) ⊤ = some (v : WithTop ℝ) ∧
      leastMaxDistance hypot 0 0 (build fresh (scenarioBoxes ℝ)).leaves = (v : WithTop ℝ)) := by
  have hwf : ∀ b ∈ scenarioBoxes ℝ, b.x_min ≤ b.x_max ∧ b.y_min ≤ b.y_max := by
    intro b hb
    simp only [scenarioBoxes, List.mem_cons, List.mem_singleton, List.not_mem_nil,
      or_false] at hb
    rcases hb with rfl | rfl | rfl <;> norm_num
  exact ⟨⟨by decide, hwf⟩,
    C16_min_maxdist_exact fresh (scenarioBoxes ℝ) (by decide) hwf 0 0 ⊤⟩

/-- C17: for the tree built from a non-empty list of well-formed boxes, a point
`(x, y)` and a bound `d`, `min_maxdist_select` appends to `out` exactly the leaf boxes
whose `distance(x, y)` is at most `d`, each once and in left-to-right order. -/
theorem C17_select_exact (t : AABBtree ℝ) (bs : List (BBox ℝ)) (hne : bs ≠ [])
    (hwf : ∀ b ∈ bs, b.x_min ≤ b.x_max ∧ b.y_min ≤ b.y_max) (x y : ℝ) (d : WithTop ℝ)
    (out : List (BBox ℝ)) :
    min_maxdist_select hypot x y d (build t bs) out
      = some (out ++ (build t bs).leaves.filter
          (fun L => decide (((L.distance hypot x y : ℝ) : WithTop ℝ) ≤ d))) :=
  min_maxdist_select_eq x y d _ (build_valid _ t bs le_rfl hne)
    (wellFormed_leaves_build t bs hwf) out

/-- C17 at the three boxes of the end-to-end scenario, the point `(0, 0)`, the
bound `1` and an empty list. -/
theorem C17_select_exact_witness :
    (scenarioBoxes ℝ ≠ [] ∧
      ∀ b ∈ scenarioBoxes ℝ, b.x_min ≤ b.x_max ∧ b.y_min ≤ b.y_max) ∧
    min_maxdist_select hypot 0 0 ((1 : ℝ) : WithTop ℝ) (build fresh (scenarioBoxes ℝ)) []
      = some ([] ++ (build fresh (scenarioBoxes ℝ)).leaves.filter
          (fun L => decide (((L.distance hypot 0 0 : ℝ) : WithTop ℝ) ≤ ((1 : ℝ) : WithTop ℝ)))) := by
  have hwf : ∀ b ∈ scenarioBoxes ℝ, b.x_min ≤ b.x_max ∧ b.y_min ≤ b.y_max := by
    intro b hb
    simp only [scenarioBoxes, List.mem_cons, List.mem_singleton, List.not_mem_nil,
      or_false] at hb
    rcases hb with rfl | rfl | rfl <;> norm_num
  exact ⟨⟨by decide, hwf⟩,
    C17_select_exact fresh (scenarioBoxes ℝ) (by decide) hwf 0 0 _ []⟩

/-- C18 as stated fails: on the end-to-end scenario `intersect` does not return
exactly one pair. -/
theorem C18_counterexample :
    ¬ ∃ l, (build fresh (scenarioBoxes ℚ)).intersect (build fresh (queryBoxes ℚ)) [] false
        = some l ∧ l.length = 1 := by
  rw [intersect_scenario]
  rintro ⟨l, hl, hlen⟩
  rw [← Option.some.inj hl] at hlen
  exact absurd hlen (by decide)

/-- C18, amended: on the end-to-end scenario `intersect` returns exactly three pairs,
each of the three boxes with the query box; the boxes with `ipos = 2` and `ipos = 1`
only touch the query box (along the line `y = 2` and at the corner `(2, 2)`), and
touching boxes collide. -/
theorem C18_intersect_scenario_three_pairs :
    (build fresh (scenarioBoxes ℚ)).intersect (build fresh (queryBoxes ℚ)) [] false
      = some [(⟨0, 0, 1, 1, 0, 0⟩, ⟨1 / 2, 1 / 2, 2, 2, 0, 0⟩),
              (⟨0, 2, 1, 3, 0, 2⟩, ⟨1 / 2, 1 / 2, 2, 2, 0, 0⟩),
              (⟨2, 2, 3, 3, 0, 1⟩, ⟨1 / 2, 1 / 2, 2, 2, 0, 0⟩)] ∧
    (∃ l, (build fresh (scenarioBoxes ℚ)).intersect (build fresh (queryBoxes ℚ)) [] false
        = some l ∧ l.length = 3) ∧
    (⟨0, 2, 1, 3, 0, 2⟩ : BBox ℚ).collision ⟨1 / 2, 1 / 2, 2, 2, 0, 0⟩ = true ∧
    (⟨2, 2, 3, 3, 0, 1⟩ : BBox ℚ).collision ⟨1 / 2, 1 / 2, 2, 2, 0, 0⟩ = true := by
  refine ⟨intersect_scenario, ⟨_, intersect_scenario, rfl⟩, ?_, ?_⟩
  · rw [BBox.collision_iff]; norm_num
  · rw [BBox.collision_iff]; norm_num

/-- C19: for the tree built from a non-empty list of well-formed boxes and a query
point inside the closed rectangle of an input box `b`, `min_distance` returns and
`b` is among the candidates it appends. -/
theorem C19_containing_box_is_candidate (t : AABBtree ℝ) (bs : List (BBox ℝ)) (hne : bs ≠ [])
    (hwf : ∀ b ∈ bs, b.x_min ≤ b.x_max ∧ b.y_min ≤ b.y_max) (px py : ℝ)
    (b : BBox ℝ) (hb : b ∈ bs) (hp : b.contains px py) (cand : List (BBox ℝ)) :
    ∃ l, (build t bs).min_distance hypot px py cand = some (cand ++ l) ∧ b ∈ l := by
  have hv := build_valid _ t bs le_rfl hne
  have hperm := leaves_build _ t bs le_rfl
  obtain ⟨r, e, p⟩ := min_maxdist_ok px py _ hv ⊤
  have h0 : euclid px py px py = 0 := by simp [euclid]
  have hr : ((euclid px py px py : ℝ) : WithTop ℝ) ≤ r := by
    rcases p with ⟨_, h⟩ | ⟨L, hL, rfl⟩
    · exact absurd rfl h
    · rw [h0]
      exact WithTop.coe_le_coe.mpr (by unfold BBox.maxDistance hypot; exact Real.sqrt_nonneg _)
  obtain ⟨l, e2, p2⟩ := min_maxdist_select_ok px py r _ hv cand
  refine ⟨l, ?_, p2 b (hperm.symm.subset hb) ⟨px, py, hp, hr⟩⟩
  rw [min_distance, e]
  exact e2

/-- C19 at the three boxes of the end-to-end scenario and the query point
`(1/2, 1/2)`: the box with `ipos = 0` is a candidate. -/
theorem C19_containing_box_is_candidate_witness :
    (scenarioBoxes ℝ ≠ [] ∧
      (∀ b ∈ scenarioBoxes ℝ, b.x_min ≤ b.x_max ∧ b.y_min ≤ b.y_max) ∧
      (⟨0, 0, 1, 1, 0, 0⟩ : BBox ℝ) ∈ scenarioBoxes ℝ ∧
      (⟨0, 0, 1, 1, 0, 0⟩ : BBox ℝ).contains (1 / 2) (1 / 2)) ∧
    ∃ l, (build fresh (scenarioBoxes ℝ)).min_distance hypot (1 / 2) (1 / 2) []
        = some ([] ++ l) ∧ (⟨0, 0, 1, 1, 0, 0⟩ : BBox ℝ) ∈ l := by
  have hwf : ∀ b ∈ scenarioBoxes ℝ, b.x_min ≤ b.x_max ∧ b.y_min ≤ b.y_max := by
    intro b hb
    simp only [scenarioBoxes, List.mem_cons, List.mem_singleton, List.not_mem_nil,
      or_false] at hb
    rcases hb with rfl | rfl | rfl <;> norm_num
  have hmem : (⟨0, 0, 1, 1, 0, 0⟩ : BBox ℝ) ∈ scenarioBoxes ℝ := List.mem_cons_self _ _
  have hp : (⟨0, 0, 1, 1, 0, 0⟩ : BBox ℝ).contains (1 / 2) (1 / 2) := by
    unfold BBox.contains; norm_num
  exact ⟨⟨by decide, hwf, hmem, hp⟩,
    C19_containing_box_is_candidate fresh (scenarioBoxes ℝ) (by decide) hwf (1 / 2) (1 / 2)
      _ hmem hp []⟩

/-- C20 as stated fails when width and height of the node box are equal: for the two
boxes `(1,0,2,2)` and `(0,0,1,2)` the node box is the square `(0,0,2,2)`, `build`
cuts by x-midpoints (`posBoxes` is the first box, `negBoxes` the second), while the
partition by y-midpoints puts both boxes in `negBoxes`. -/
theorem C20_counterexample :
    2 ≤ tieBoxes.length ∧
    (BBox.ofBoxes tieBoxes 0 0).y_max - (BBox.ofBoxes tieBoxes 0 0).y_min
      = (BBox.ofBoxes tieBoxes 0 0).x_max - (BBox.ofBoxes tieBoxes 0 0).x_min ∧
    cutBoxes (BBox.ofBoxes tieBoxes 0 0) tieBoxes = ([⟨1, 0, 2, 2, 0, 0⟩], [⟨0, 0, 1, 2, 0, 1⟩]) ∧
    partitionByY (BBox.ofBoxes tieBoxes 0 0) tieBoxes
      = ([], [⟨1, 0, 2, 2, 0, 0⟩, ⟨0, 0, 1, 2, 0, 1⟩]) ∧
    cutBoxes (BBox.ofBoxes tieBoxes 0 0) tieBoxes
      ≠ partitionByY (BBox.ofBoxes tieBoxes 0 0) tieBoxes := by
  have h1 : cutBoxes (BBox.ofBoxes tieBoxes 0 0) tieBoxes
      = ([⟨1, 0, 2, 2, 0, 0⟩], [⟨0, 0, 1, 2, 0, 1⟩]) := by
    rw [ofBoxes_tieBoxes]
    simp [cutBoxes, tieBoxes]
    norm_num
  have h2 : partitionByY (BBox.ofBoxes tieBoxes 0 0) tieBoxes
      = ([], [⟨1, 0, 2, 2, 0, 0⟩, ⟨0, 0, 1, 2, 0, 1⟩]) := by
    rw [ofBoxes_tieBoxes]
    simp [partitionByY, tieBoxes]
  refine ⟨by decide, by rw [ofBoxes_tieBoxes], h1, h2, ?_⟩
  rw [h1, h2]
  simp

/-- C20, amended: when `build` is given two or more boxes, the lists it hands to
the recursive builds are the rebalanced cut of the input by the node box; the cut is
the partition by y-midpoints when the node box is taller than wide, and the
partition by x-midpoints when it is wider than tall and also when width and height
are equal. -/
theorem C20_split_axis (bs : List (BBox K)) (h : 2 ≤ bs.length) :
    splitBoxes bs = rebalance (cutBoxes (BBox.ofBoxes bs 0 0) bs) ∧
    ((BBox.ofBoxes bs 0 0).y_max - (BBox.ofBoxes bs 0 0).y_min
        > (BBox.ofBoxes bs 0 0).x_max - (BBox.ofBoxes bs 0 0).x_min →
      cutBoxes (BBox.ofBoxes bs 0 0) bs = partitionByY (BBox.ofBoxes bs 0 0) bs) ∧
    ((BBox.ofBoxes bs 0 0).x_max - (BBox.ofBoxes bs 0 0).x_min
        > (BBox.ofBoxes bs 0 0).y_max - (BBox.ofBoxes bs 0 0).y_min →
      cutBoxes (BBox.ofBoxes bs 0 0) bs = partitionByX (BBox.ofBoxes bs 0 0) bs) ∧
    ((BBox.ofBoxes bs 0 0).y_max - (BBox.ofBoxes bs 0 0).y_min
        = (BBox.ofBoxes bs 0 0).x_max - (BBox.ofBoxes bs 0 0).x_min →
      cutBoxes (BBox.ofBoxes bs 0 0) bs = partitionByX (BBox.ofBoxes bs 0 0) bs) :=
  ⟨rfl, fun hy => cutBoxes_of_taller _ bs hy,
    fun hx => cutBoxes_of_not_taller _ bs (not_lt.mpr hx.le),
    fun he => cutBoxes_of_not_taller _ bs (not_lt.mpr he.le)⟩

/-- C20, amended, at two boxes whose node box is a square. -/
theorem C20_split_axis_witness :
    (2 ≤ tieBoxes.length ∧
      (BBox.ofBoxes tieBoxes 0 0).y_max - (BBox.ofBoxes tieBoxes 0 0).y_min
        = (BBox.ofBoxes tieBoxes 0 0).x_max - (BBox.ofBoxes tieBoxes 0 0).x_min) ∧
    cutBoxes (BBox.ofBoxes tieBoxes 0 0) tieBoxes
      = partitionByX (BBox.ofBoxes tieBoxes 0 0) tieBoxes :=
  ⟨⟨by decide, by rw [ofBoxes_tieBoxes]⟩,
   (C20_split_axis tieBoxes (by decide)).2.2.2 (by rw [ofBoxes_tieBoxes])⟩

end Claims2

/-! ## The nodes of a built tree -/

section Nodes

variable {K : Type} [LinearOrderedField K]

namespace AABBtree

theorem build_eq_fresh (t : AABBtree K) (bs : List (BBox K)) : build t bs = build fresh bs := by
  by_cases h0 : bs = []
  · subst h0; rw [build_nil, build_nil]
  by_cases h1 : bs.length = 1
  · obtain ⟨b, rfl⟩ := List.length_eq_one.mp h1
    rw [build_singleton, build_singleton]
  have h2 : 2 ≤ bs.length := by
    have := List.length_pos.mpr h0
    omega
  rw [build_node t bs h2, build_node fresh bs h2]

theorem mem_subtrees_self (t : AABBtree K) : t ∈ subtrees t := by
  cases t with
  | mk pb cs => rw [subtrees]; exact List.mem_cons_self _ _

theorem mem_subtreesList {n : AABBtree K} (cs : List (AABBtree K)) :
    n ∈ subtreesList cs ↔ ∃ c ∈ cs, n ∈ subtrees c := by
  induction cs with
  | nil => simp [subtreesList]
  | cons c cs ih => simp [subtreesList, ih]

theorem mem_subtrees_mk {n : AABBtree K} (pb : Option (BBox K)) (cs : List (AABBtree K)) :
    n ∈ subtrees (mk pb cs) ↔ n = mk pb cs ∨ ∃ c ∈ cs, n ∈ subtrees c := by
  rw [subtrees, List.mem_cons, mem_subtreesList]

/-- Every node of a built tree is itself the tree built from a non-empty part of
the input. -/
theorem subtrees_build (k : Nat) : ∀ (t : AABBtree K) (bs : List (BBox K)), bs.length ≤ k →
    bs ≠ [] → ∀ n ∈ subtrees (build t bs),
      ∃ bs' : List (BBox K), bs' ≠ [] ∧ (∀ b ∈ bs', b ∈ bs) ∧ n = build fresh bs' := by
  induction k with
  | zero =>
    intro t bs h hne
    exact absurd (List.length_eq_zero.mp (by omega)) hne
  | succ k ih =>
    intro t bs h hne n hn
    by_cases h1 : bs.length = 1
    · obtain ⟨b, rfl⟩ := List.length_eq_one.mp h1
      rw [build_singleton, mem_subtrees_mk] at hn
      rcases hn with rfl | ⟨c, hc, _⟩
      · exact ⟨[b], hne, fun _ h => h, by rw [build_singleton]⟩
      · exact absurd hc (List.not_mem_nil _)
    · have h2 : 2 ≤ bs.length := by
        have := List.length_pos.mpr hne
        omega
      have hl := splitBoxes_length bs h2
      have hperm := splitBoxes_perm bs
      rw [build_node t bs h2, mem_subtrees_mk] at hn
      rcases hn with rfl | ⟨c, hc, hnc⟩
      · exact ⟨bs, hne, fun _ h => h, by rw [build_node fresh bs h2]⟩
      · simp only [List.mem_cons, List.mem_singleton, List.not_mem_nil, or_false] at hc
        rcases hc with rfl | rfl
        · obtain ⟨bs', h1', h2', h3'⟩ :=
            ih _ _ (by omega) (List.length_pos.mp hl.2.2.1) n hnc
          exact ⟨bs', h1', fun b hb => hperm.subset (List.mem_append_left _ (h2' b hb)), h3'⟩
        · obtain ⟨bs', h1', h2', h3'⟩ :=
            ih _ _ (by omega) (List.length_pos.mp hl.1) n hnc
          exact ⟨bs', h1', fun b hb => hperm.subset (List.mem_append_right _ (h2' b hb)), h3'⟩

/-- The root box of a tree built from a non-empty list: each extremum is the
extremum of the list. -/
theorem build_box_extrema (t : AABBtree K) (bs : List (BBox K)) (h : bs ≠ []) :
    ∃ b, (build t bs).pBBox = some b ∧
      (bs.map BBox.x_min).minimum = ↑b.x_min ∧ (bs.map BBox.y_min).minimum = ↑b.y_min ∧
      (bs.map BBox.x_max).maximum = ↑b.x_max ∧ (bs.map BBox.y_max).maximum = ↑b.y_max := by
  by_cases h1 : bs.length = 1
  · obtain ⟨b, rfl⟩ := List.length_eq_one.mp h1
    refine ⟨b, by rw [build_singleton]; rfl, ?_⟩
    simp
  · have h2 : 2 ≤ bs.length := by
      have := List.length_pos.mpr h
      omega
    exact ⟨BBox.ofBoxes bs 0 0, by rw [build_node t bs h2]; rfl, BBox.join_extrema _ bs h⟩

theorem subtrees_trans {n d : AABBtree K} : ∀ t : AABBtree K, n ∈ subtrees t →
    d ∈ subtrees n → d ∈ subtrees t := by
  apply tree_induction
  · intro pb cs ih hn hd
    rw [mem_subtrees_mk] at hn
    rcases hn with rfl | ⟨c, hc, hnc⟩
    · exact hd
    · rw [mem_subtrees_mk]
      exact Or.inr ⟨c, hc, ih c hc hnc hd⟩


theorem BBox_ofBoxes_tags (bs : List (BBox K)) (id ipos : Int) :
    (BBox.ofBoxes bs id ipos).Id = id ∧ (BBox.ofBoxes bs id ipos).Ipos = ipos := by
  cases bs with
  | nil => exact ⟨rfl, rfl⟩
  | cons first rest => exact BBox.foldl_joinStep_tags rest _

theorem minimum_eq_of_perm {l1 l2 : List K} (h : l1.Perm l2) : l1.minimum = l2.minimum := by
  apply le_antisymm
  · exact List.le_minimum_of_forall_le (fun a ha => List.minimum_le_of_mem' (h.symm.subset ha))
  · exact List.le_minimum_of_forall_le (fun a ha => List.minimum_le_of_mem' (h.subset ha))

theorem maximum_eq_of_perm {l1 l2 : List K} (h : l1.Perm l2) : l1.maximum = l2.maximum := by
  apply le_antisymm
  · exact List.maximum_le_of_forall_le (fun a ha => List.le_maximum_of_mem' (h.subset ha))
  · exact List.maximum_le_of_forall_le (fun a ha => List.le_maximum_of_mem' (h.symm.subset ha))

/-- A box whose extrema are the extrema of a list encloses the boxes of the list. -/
theorem covers_of_extrema {b : BBox K} {bs : List (BBox K)}
    (hx : (bs.map BBox.x_min).minimum = ↑b.x_min) (hy : (bs.map BBox.y_min).minimum = ↑b.y_min)
    (hX : (bs.map BBox.x_max).maximum = ↑b.x_max) (hY : (bs.map BBox.y_max).maximum = ↑b.y_max) :
    ∀ e ∈ bs, b.covers e :=
  fun e he => ⟨(List.minimum_eq_coe_iff.mp hx).2 _ (List.mem_map_of_mem _ he),
    (List.minimum_eq_coe_iff.mp hy).2 _ (List.mem_map_of_mem _ he),
    (List.maximum_eq_coe_iff.mp hX).2 _ (List.mem_map_of_mem _ he),
    (List.maximum_eq_coe_iff.mp hY).2 _ (List.mem_map_of_mem _ he)⟩

/-- A box that encloses the boxes of a list encloses the box whose extrema are
the extrema of the list. -/
theorem covers_extrema {A d : BBox K} {bs : List (BBox K)} (hA : ∀ e ∈ bs, A.covers e)
    (hx : (bs.map BBox.x_min).minimum = ↑d.x_min) (hy : (bs.map BBox.y_min).minimum = ↑d.y_min)
    (hX : (bs.map BBox.x_max).maximum = ↑d.x_max) (hY : (bs.map BBox.y_max).maximum = ↑d.y_max) :
    A.covers d := by
  obtain ⟨e1, h1, r1⟩ := List.mem_map.mp (List.minimum_eq_coe_iff.mp hx).1
  obtain ⟨e2, h2, r2⟩ := List.mem_map.mp (List.minimum_eq_coe_iff.mp hy).1
  obtain ⟨e3, h3, r3⟩ := List.mem_map.mp (List.maximum_eq_coe_iff.mp hX).1
  obtain ⟨e4, h4, r4⟩ := List.mem_map.mp (List.maximum_eq_coe_iff.mp hY).1
  exact ⟨r1 ▸ (hA e1 h1).1, r2 ▸ (hA e2 h2).2.1, r3 ▸ (hA e3 h3).2.2.1, r4 ▸ (hA e4 h4).2.2.2⟩

/-- A box whose extrema are the extrema of a non-empty list of well-formed boxes is
well formed. -/
theorem wellFormed_of_extrema {b : BBox K} {bs : List (BBox K)}
    (hwf : ∀ e ∈ bs, e.wellFormed)
    (hx : (bs.map BBox.x_min).minimum = ↑b.x_min) (hy : (bs.map BBox.y_min).minimum = ↑b.y_min)
    (hX : (bs.map BBox.x_max).maximum = ↑b.x_max) (hY : (bs.map BBox.y_max).maximum = ↑b.y_max) :
    b.wellFormed := by
  obtain ⟨e1, h1, r1⟩ := List.mem_map.mp (List.minimum_eq_coe_iff.mp hx).1
  obtain ⟨e2, h2, r2⟩ := List.mem_map.mp (List.minimum_eq_coe_iff.mp hy).1
  have c := covers_of_extrema hx hy hX hY
  exact ⟨r1 ▸ (hwf e1 h1).1.trans (c e1 h1).2.2.1, r2 ▸ (hwf e2 h2).2.trans (c e2 h2).2.2.2⟩

theorem join_wellFormed (s : BBox K) (bs : List (BBox K)) (hwf : ∀ e ∈ bs, e.wellFormed) :
    (s.join bs).wellFormed := by
  by_cases h : bs = []
  · subst h
    exact ⟨le_rfl, le_rfl⟩
  · obtain ⟨hx, hy, hX, hY⟩ := BBox.join_extrema s bs h
    exact wellFormed_of_extrema hwf hx hy hX hY

theorem min_maxdistLoop_some (hypot : K → K → K) (x y : K) (cs : List (AABBtree K))
    (h : ∀ c ∈ cs, ∀ m, ∃ r, min_maxdist hypot x y c m = some r) :
    ∀ m, ∃ r, min_maxdistLoop hypot x y cs m = some r := by
  induction cs with
  | nil => intro m; exact ⟨m, by rw [min_maxdistLoop]⟩
  | cons c cs ih =>
    intro m
    obtain ⟨r1, e1⟩ := h c (List.mem_cons_self _ _) m
    obtain ⟨r2, e2⟩ := ih (fun c' hc' => h c' (List.mem_cons_of_mem _ hc')) r1
    exact ⟨r2, by rw [min_maxdistLoop, e1]; exact e2⟩

theorem min_maxdist_some (hypot : K → K → K) (x y : K) : ∀ tree : AABBtree K, Valid tree →
    ∀ m, ∃ r, min_maxdist hypot x y tree m = some r := by
  apply tree_induction
  · intro pb cs ih hv m
    obtain ⟨b, rfl, _, hch⟩ := valid_mk hv
    rw [min_maxdist]
    by_cases hcs : cs = []
    · subst hcs
      simp only [List.isEmpty_nil, if_true]
      exact ⟨_, rfl⟩
    · have hne : cs.isEmpty = false := by simpa using hcs
      simp only [hne, Bool.false_eq_true, if_false]
      split
      · exact ⟨m, rfl⟩
      · exact min_maxdistLoop_some hypot x y cs (fun c hc => ih c hc (hch c hc)) m

theorem min_maxdist_selectLoop_some (hypot : K → K → K) (x y : K) (d : WithTop K)
    (cs : List (AABBtree K))
    (h : ∀ c ∈ cs, ∀ out, ∃ l, min_maxdist_select hypot x y d c out = some l) :
    ∀ out, ∃ l, min_maxdist_selectLoop hypot x y d cs out = some l := by
  induction cs with
  | nil => intro out; exact ⟨out, by rw [min_maxdist_selectLoop]⟩
  | cons c cs ih =>
    intro out
    obtain ⟨l1, e1⟩ := h c (List.mem_cons_self _ _) out
    obtain ⟨l2, e2⟩ := ih (fun c' hc' => h c' (List.mem_cons_of_mem _ hc')) l1
    exact ⟨l2, by rw [min_maxdist_selectLoop, e1]; exact e2⟩

theorem min_maxdist_select_some (hypot : K → K → K) (x y : K) (d : WithTop K) :
    ∀ tree : AABBtree K, Valid tree →
    ∀ out, ∃ l, min_maxdist_select hypot x y d tree out = some l := by
  apply tree_induction
  · intro pb cs ih hv out
    obtain ⟨b, rfl, _, hch⟩ := valid_mk hv
    rw [min_maxdist_select]
    split
    · by_cases hcs : cs = []
      · subst hcs
        simp only [List.isEmpty_nil, if_true]
        exact ⟨_, rfl⟩
      · have hne : cs.isEmpty = false := by simpa using hcs
        simp only [hne, Bool.false_eq_true, if_false]
        exact min_maxdist_selectLoop_some hypot x y d cs (fun c hc => ih c hc (hch c hc)) out
    · exact ⟨out, rfl⟩

theorem min_distance_some (hypot : K → K → K) (x y : K) (tree : AABBtree K) (hv : Valid tree)
    (cand : List (BBox K)) : ∃ l, min_distance hypot tree x y cand = some l := by
  obtain ⟨r, e⟩ := min_maxdist_some hypot x y tree hv ⊤
  obtain ⟨l, e2⟩ := min_maxdist_select_some hypot x y r tree hv cand
  exact ⟨l, by rw [min_distance, e]; exact e2⟩

end AABBtree

end Nodes

/-! ## Cuts by midpoint, absent boxes, orders of the input -/

section Cuts

variable {K : Type} [LinearOrderedField K]

namespace AABBtree

/-- The cut of `build` in terms of the midpoints on the split axis. -/
theorem cutBoxes_eq_filter (box : BBox K) (bs : List (BBox K)) :
    cutBoxes box bs = (bs.filter (fun it => decide (axisMid box it > cutPos box)),
      bs.filter (fun it => !decide (axisMid box it > cutPos box))) := by
  by_cases h : box.y_max - box.y_min > box.x_max - box.x_min
  · rw [cutBoxes_of_taller box bs h]
    have hs : splitsOnY box := h
    simp only [partitionByY, axisMid, cutPos, hs, if_true]
  · rw [cutBoxes_of_not_taller box bs h]
    have hs : ¬ splitsOnY box := h
    simp only [partitionByX, axisMid, cutPos, hs, if_false]

theorem rebalance_of_ne_nil {pn : List (BBox K) × List (BBox K)} (h1 : pn.1 ≠ []) (h2 : pn.2 ≠ []) :
    rebalance pn = pn := by
  obtain ⟨pos, neg⟩ := pn
  simp only [rebalance, List.isEmpty_eq_true]
  rw [if_neg h2, if_neg h1]

theorem rebalance_nil_left (neg : List (BBox K)) (h : neg ≠ []) :
    rebalance (([] : List (BBox K)), neg)
      = (neg.drop (neg.length / 2), neg.take (neg.length / 2)) := by
  simp only [rebalance, List.isEmpty_eq_true, List.nil_append]
  rw [if_neg h]
  simp

theorem rebalance_nil_right (pos : List (BBox K)) :
    rebalance (pos, ([] : List (BBox K)))
      = (pos.take (pos.length / 2), pos.drop (pos.length / 2)) := by
  simp [rebalance]

theorem collision_none_left (tree : AABBtree K) (cs : List (AABBtree K))
    (ifun : BBox K → BBox K → Bool) (swap : Bool) :
    collision (mk none cs) tree ifun swap = none := by
  cases tree with
  | mk tb tc => cases tb <;> simp [collision]

theorem collision_none_right (self : AABBtree K) (cs : List (AABBtree K))
    (ifun : BBox K → BBox K → Bool) (swap : Bool) :
    collision self (mk none cs) ifun swap = none := by
  cases self with
  | mk sb sc => simp [collision]

theorem intersect_none_right (self : AABBtree K) (cs : List (AABBtree K))
    (out : List (BBox K × BBox K)) (swap : Bool) :
    intersect self (mk none cs) out swap = none := by
  cases self with
  | mk sb sc => simp [intersect]

/-- Two lists of pairs that `intersect` may add for leaf lists that are permutations
of each other are permutations of each other. -/
theorem pairsOf_perm {swap : Bool} {xs xs' ys : List (BBox K)}
    {l l' : List (BBox K × BBox K)} (hx : xs.Perm xs')
    (h : PairsOf swap xs ys l) (h' : PairsOf swap xs' ys l') : l.Perm l' := by
  rw [List.perm_iff_count]
  rintro ⟨a, b⟩
  cases swap with
  | false =>
    have h1 := h a b
    have h2 := h' a b
    rw [← hx.count_eq a, ← h1] at h2
    simp only [orient, Bool.false_eq_true, if_false] at h2
    rw [beq_pair_eq] at h2
    exact h2.symm
  | true =>
    have h1 := h b a
    have h2 := h' b a
    rw [← hx.count_eq b, ← h1] at h2
    simp only [orient, if_true] at h2
    rw [beq_pair_eq] at h2
    exact h2.symm

end AABBtree

end Cuts

/-! ## Exact results on small inputs, continued -/

section NodeBoxes

open AABBtree

theorem ofBoxes_scenario : BBox.ofBoxes (scenarioBoxes ℚ) 0 0 = ⟨0, 0, 3, 3, 0, 0⟩ := by
  simp [BBox.ofBoxes, BBox.join, BBox.joinStep_eq, scenarioBoxes]

theorem ofBoxes_sameCenter : BBox.ofBoxes sameCenterBoxes 0 0 = ⟨0, 0, 2, 2, 0, 0⟩ := by
  simp [BBox.ofBoxes, BBox.join, BBox.joinStep_eq, sameCenterBoxes]

end NodeBoxes

/-! ## The claims, third part -/

section Claims3

variable {K : Type} [LinearOrderedField K]

open AABBtree

/-- C21: in a tree made by `build` every node has either no children or exactly two,
the tree built from `negBoxes` first and the tree built from `posBoxes` second, and
both children are non-empty trees; no node has exactly one child. -/
theorem C21_two_children_or_none (t : AABBtree K) (bs : List (BBox K)) :
    ∀ n ∈ subtrees (build t bs), n.children = [] ∨
      ∃ bs' : List (BBox K), 2 ≤ bs'.length ∧
        n.children = [build fresh (splitBoxes bs').2, build fresh (splitBoxes bs').1] ∧
        (build fresh (splitBoxes bs').2).empty = false ∧
        (build fresh (splitBoxes bs').1).empty = false := by
  intro n hn
  by_cases h0 : bs = []
  · subst h0
    rw [build_nil, mem_subtrees_mk] at hn
    rcases hn with rfl | ⟨c, hc, _⟩
    · exact Or.inl rfl
    · exact absurd hc (List.not_mem_nil _)
  obtain ⟨bs', hne, _, rfl⟩ := subtrees_build _ t bs le_rfl h0 n hn
  by_cases h1 : bs'.length = 1
  · obtain ⟨b, rfl⟩ := List.length_eq_one.mp h1
    rw [build_singleton]
    exact Or.inl rfl
  · have h2 : 2 ≤ bs'.length := by
      have := List.length_pos.mpr hne
      omega
    have hl := splitBoxes_length bs' h2
    refine Or.inr ⟨bs', h2, by rw [build_node fresh bs' h2]; rfl,
      build_empty_eq_false _ _ (List.length_pos.mp hl.2.2.1),
      build_empty_eq_false _ _ (List.length_pos.mp hl.1)⟩

/-- C21 at the root of the tree built from the three boxes of the end-to-end
scenario. -/
theorem C21_two_children_or_none_witness :
    build fresh (scenarioBoxes ℚ) ∈ subtrees (build fresh (scenarioBoxes ℚ)) ∧
    ((build fresh (scenarioBoxes ℚ)).children = [] ∨
      ∃ bs' : List (BBox ℚ), 2 ≤ bs'.length ∧
        (build fresh (scenarioBoxes ℚ)).children
          = [build fresh (splitBoxes bs').2, build fresh (splitBoxes bs').1] ∧
        (build fresh (splitBoxes bs').2).empty = false ∧
        (build fresh (splitBoxes bs').1).empty = false) :=
  ⟨mem_subtrees_self _,
    C21_two_children_or_none fresh (scenarioBoxes ℚ) _ (mem_subtrees_self _)⟩

/-- C22: `PolyLine::collision` has no emptiness check. For a poly line with no
segments whose tree is not cached, `build_AABBtree` leaves the root box absent and
`AABBtree::collision` is entered with it and dereferences the null `pBBox`, whatever
the other poly line is and on whichever side the empty one stands. -/
theorem C22_collision_unguarded {S : Type} (ops : LineSegmentOps S K) (t : AABBtree K)
    (C : PolyLine S K) :
    ((PolyLine.build_AABBtree ops (⟨[], false, t⟩ : PolyLine S K)).m_aabb_tree.pBBox = none) ∧
    PolyLine.collision ops ⟨[], false, t⟩ C = none ∧
    PolyLine.collision ops C ⟨[], false, t⟩ = none := by
  have hb : PolyLine.build_AABBtree ops (⟨[], false, t⟩ : PolyLine S K)
      = ⟨[], true, mk none []⟩ := by
    simp [PolyLine.build_AABBtree, PolyLine.build_AABBtree_into, PolyLine.segmentBoxes,
      build_nil]
  refine ⟨by rw [hb]; rfl, ?_, ?_⟩
  · simp only [PolyLine.collision, hb]
    exact collision_none_left _ _ _ _
  · simp only [PolyLine.collision, hb]
    exact collision_none_right _ _ _ _

/-- C23: the constructor `BBox(extrema, id, ipos)` of the Python binding reads the
tuple as `((x_min, x_max), (y_min, y_max))`. For `((0, 1), (2, 3))` it makes the box
`x_min = 0, y_min = 2, x_max = 1, y_max = 3`, not `x_min = 0, y_min = 1, x_max = 2,
y_max = 3`; and the tuple that `AABBtree.bbox()` returns for a tree whose root box is
`(0, 1, 2, 3)`, passed to the constructor, gives a box with other extrema. -/
theorem C23_extrema_transposed :
    Py.BBox_init_extrema (((0 : ℚ), 1), (2, 3)) 0 0 = ⟨0, 2, 1, 3, 0, 0⟩ ∧
    Py.BBox_init_extrema (((0 : ℚ), 1), (2, 3)) 0 0 ≠ ⟨0, 1, 2, 3, 0, 0⟩ ∧
    Py.AABBtree_bbox (mk (some (⟨0, 1, 2, 3, 0, 0⟩ : BBox ℚ)) []) = some ((0, 1), (2, 3)) ∧
    (∀ (e : (ℚ × ℚ) × (ℚ × ℚ)) (id ipos : Int),
      Py.BBox_init_extrema e id ipos = ⟨e.1.1, e.2.1, e.1.2, e.2.2, id, ipos⟩) := by
  refine ⟨rfl, ?_, rfl, fun e id ipos => rfl⟩
  intro h
  have h1 := congrArg BBox.y_min h
  simp [Py.BBox_init_extrema] at h1

/-- C24: query results do not depend on the order of the boxes given to `build`.
For non-empty lists `L` and `L'` of well-formed boxes (`x_min ≤ x_max` and
`y_min ≤ y_max`, the invariant of the data model) that are permutations of each
other, the tree built from any list `B` and any point, the trees built from `L` and
`L'` return the same pairs from `intersect` against the tree of `B` and the same
candidates from `min_distance`: the same set, and each element as often (when `B` is
empty both calls of `intersect` dereference the absent root box). -/
theorem C24_order_independent (tL tL' tB : AABBtree ℝ) (L L' B : List (BBox ℝ))
    (hL : L ≠ []) (hperm : L.Perm L')
    (hwf : ∀ b ∈ L, b.x_min ≤ b.x_max ∧ b.y_min ≤ b.y_max) :
    (∀ out swap,
      (B = [] ∧ intersect (build tL L) (build tB B) out swap = none ∧
        intersect (build tL' L') (build tB B) out swap = none) ∨
      ∃ l l', intersect (build tL L) (build tB B) out swap = some (out ++ l) ∧
        intersect (build tL' L') (build tB B) out swap = some (out ++ l') ∧
        (∀ p, p ∈ l ↔ p ∈ l') ∧ l.Perm l') ∧
    (∀ x y cand, ∃ l l',
      min_distance hypot (build tL L) x y cand = some (cand ++ l) ∧
      min_distance hypot (build tL' L') x y cand = some (cand ++ l') ∧
      (∀ b, b ∈ l ↔ b ∈ l') ∧ l.Perm l') := by
  have hL' : L' ≠ [] := by
    intro h
    subst h
    exact hL hperm.eq_nil
  have hv := build_valid _ tL L le_rfl hL
  have hv' := build_valid _ tL' L' le_rfl hL'
  have hp := leaves_build _ tL L le_rfl
  have hp' := leaves_build _ tL' L' le_rfl
  have hleaves : (build tL L).leaves.Perm (build tL' L').leaves :=
    hp.trans (hperm.trans hp'.symm)
  constructor
  · intro out swap
    by_cases hB : B = []
    · left
      subst hB
      rw [build_nil]
      exact ⟨rfl, intersect_none_right _ _ _ _, intersect_none_right _ _ _ _⟩
    · right
      have hvB := build_valid _ tB B le_rfl hB
      obtain ⟨l, e, p⟩ := intersect_ok _ _ _ le_rfl hv hvB out swap
      obtain ⟨l', e', p'⟩ := intersect_ok _ _ _ le_rfl hv' hvB out swap
      have hpp := pairsOf_perm hleaves p p'
      exact ⟨l, l', e, e', fun q => hpp.mem_iff, hpp⟩
  · intro x y cand
    have hwf' : ∀ b ∈ L', b.x_min ≤ b.x_max ∧ b.y_min ≤ b.y_max :=
      fun b hb => hwf b (hperm.symm.subset hb)
    have hl := wellFormed_leaves_build tL L hwf
    have hl' := wellFormed_leaves_build tL' L' hwf'
    have e1 := min_maxdist_eq x y _ hv hl ⊤
    have e1' := min_maxdist_eq x y _ hv' hl' ⊤
    rw [← leastMaxDistance_perm hleaves] at e1'
    have hpp : ((build tL L).leaves.filter (fun b =>
          decide (((b.distance hypot x y : ℝ) : WithTop ℝ)
            ≤ min ⊤ (leastMaxDistance hypot x y (build tL L).leaves)))).Perm
        ((build tL' L').leaves.filter (fun b =>
          decide (((b.distance hypot x y : ℝ) : WithTop ℝ)
            ≤ min ⊤ (leastMaxDistance hypot x y (build tL L).leaves)))) :=
      hleaves.filter _
    refine ⟨_, _, ?_, ?_, fun b => hpp.mem_iff, hpp⟩
    · rw [min_distance, e1]
      exact min_maxdist_select_eq x y _ _ hv hl cand
    · rw [min_distance, e1']
      exact min_maxdist_select_eq x y _ _ hv' hl' cand

/-- C24 at the three boxes of the end-to-end scenario and their reverse, against the
tree of the query box and for the point `(0, 0)`. -/
theorem C24_order_independent_witness :
    (scenarioBoxes ℝ ≠ [] ∧ (scenarioBoxes ℝ).Perm (scenarioBoxes ℝ).reverse ∧
      ∀ b ∈ scenarioBoxes ℝ, b.x_min ≤ b.x_max ∧ b.y_min ≤ b.y_max) ∧
    (∃ l l', intersect (build fresh (scenarioBoxes ℝ)) (build fresh (queryBoxes ℝ)) [] false
          = some ([] ++ l) ∧
        intersect (build fresh (scenarioBoxes ℝ).reverse) (build fresh (queryBoxes ℝ)) [] false
          = some ([] ++ l') ∧ (∀ p, p ∈ l ↔ p ∈ l') ∧ l.Perm l') ∧
    (∃ l l', min_distance hypot (build fresh (scenarioBoxes ℝ)) 0 0 [] = some ([] ++ l) ∧
        min_distance hypot (build fresh (scenarioBoxes ℝ).reverse) 0 0 [] = some ([] ++ l') ∧
        (∀ b, b ∈ l ↔ b ∈ l') ∧ l.Perm l') := by
  have hwf : ∀ b ∈ scenarioBoxes ℝ, b.x_min ≤ b.x_max ∧ b.y_min ≤ b.y_max := by
    intro b hb
    simp only [scenarioBoxes, List.mem_cons, List.mem_singleton, List.not_mem_nil,
      or_false] at hb
    rcases hb with rfl | rfl | rfl <;> norm_num
  have hperm : (scenarioBoxes ℝ).Perm (scenarioBoxes ℝ).reverse := (List.reverse_perm _).symm
  have hq : queryBoxes ℝ ≠ [] := by decide
  have h := C24_order_independent fresh fresh fresh (scenarioBoxes ℝ) (scenarioBoxes ℝ).reverse
    (queryBoxes ℝ) (by decide) hperm hwf
  refine ⟨⟨by decide, hperm, hwf⟩, ?_, h.2 0 0 []⟩
  rcases h.1 [] false with ⟨e, _⟩ | h1
  · exact absurd e hq
  · exact h1

/-- C25: `PolyLine::translate` moves the segments and leaves `m_aabb_done` and the
cached tree as they are. For the poly line of the one segment `(0,0)-(1,0)`, after
`build_AABBtree()` and `translate(5, 0)` the flag is still true and the cached tree
is still the leaf `(0,0,1,0)`, while the tree of the current segments is the leaf
`(5,0,6,0)`; a further `build_AABBtree()` keeps the old tree. -/
theorem C25_cache_stale_after_translate :
    (∀ (S : Type) (ops : LineSegmentOps S ℚ) (P : PolyLine S ℚ) (tx ty : ℚ),
      (P.translate ops tx ty).m_aabb_done = P.m_aabb_done ∧
      (P.translate ops tx ty).m_aabb_tree = P.m_aabb_tree) ∧
    (((⟨[((0, 0), (1, 0))], false, fresh⟩ : PolyLine ((ℚ × ℚ) × (ℚ × ℚ)) ℚ).build_AABBtree
        pointSegments).translate pointSegments 5 0).m_aabb_done = true ∧
    (((⟨[((0, 0), (1, 0))], false, fresh⟩ : PolyLine ((ℚ × ℚ) × (ℚ × ℚ)) ℚ).build_AABBtree
        pointSegments).translate pointSegments 5 0).m_aabb_tree
      = mk (some ⟨0, 0, 1, 0, 0, 0⟩) [] ∧
    PolyLine.build_AABBtree_into pointSegments
      (((⟨[((0, 0), (1, 0))], false, fresh⟩ : PolyLine ((ℚ × ℚ) × (ℚ × ℚ)) ℚ).build_AABBtree
        pointSegments).translate pointSegments 5 0) fresh
      = mk (some ⟨5, 0, 6, 0, 0, 0⟩) [] ∧
    ((((⟨[((0, 0), (1, 0))], false, fresh⟩ : PolyLine ((ℚ × ℚ) × (ℚ × ℚ)) ℚ).build_AABBtree
        pointSegments).translate pointSegments 5 0).build_AABBtree pointSegments).m_aabb_tree
      = mk (some ⟨0, 0, 1, 0, 0, 0⟩) [] := by
  have hb : (⟨[((0, 0), (1, 0))], false, fresh⟩ : PolyLine ((ℚ × ℚ) × (ℚ × ℚ)) ℚ).build_AABBtree
      pointSegments = ⟨[((0, 0), (1, 0))], true, mk (some ⟨0, 0, 1, 0, 0, 0⟩) []⟩ := by
    simp [PolyLine.build_AABBtree, PolyLine.build_AABBtree_into, PolyLine.segmentBoxes,
      pointSegments, build_singleton]
  have ht : (⟨[((0, 0), (1, 0))], true, mk (some ⟨0, 0, 1, 0, 0, 0⟩) []⟩ :
        PolyLine ((ℚ × ℚ) × (ℚ × ℚ)) ℚ).translate pointSegments 5 0
      = ⟨[((5, 0), (6, 0))], true, mk (some ⟨0, 0, 1, 0, 0, 0⟩) []⟩ := by
    simp [PolyLine.translate, pointSegments]
    norm_num
  rw [hb, ht]
  refine ⟨fun S ops P tx ty => ⟨rfl, rfl⟩, rfl, rfl, ?_, ?_⟩
  · simp [PolyLine.build_AABBtree_into, PolyLine.segmentBoxes, pointSegments, build_singleton]
    norm_num
  · simp [PolyLine.build_AABBtree]

/-- C26: every node of a tree built from a non-empty box list has a box, and
`collision`, `intersect` and `min_distance` on such trees return a value: they never
take the branch of an absent box. -/
theorem C26_boxes_present (tA tB : AABBtree K) (as bs : List (BBox K))
    (hA : as ≠ []) (hB : bs ≠ []) (pred : BBox K → BBox K → Bool) (swap : Bool)
    (out : List (BBox K × BBox K)) (hypot : K → K → K) (x y : K) (cand : List (BBox K)) :
    (∀ n ∈ subtrees (build tA as), ∃ b, n.pBBox = some b) ∧
    (∃ r, (build tA as).collision (build tB bs) pred swap = some r) ∧
    (∃ l, (build tA as).intersect (build tB bs) out swap = some l) ∧
    (∃ l, (build tA as).min_distance hypot x y cand = some l) := by
  have hvA := build_valid _ tA as le_rfl hA
  have hvB := build_valid _ tB bs le_rfl hB
  refine ⟨?_, ?_, ?_, min_distance_some hypot x y _ hvA cand⟩
  · intro n hn
    obtain ⟨bs', hne, _, rfl⟩ := subtrees_build _ tA as le_rfl hA n hn
    exact build_pBBox _ bs' hne
  · obtain ⟨r, e, _⟩ := collision_ok pred _ _ _ le_rfl hvA hvB swap
    exact ⟨r, e⟩
  · obtain ⟨l, e, _⟩ := intersect_ok _ _ _ le_rfl hvA hvB out swap
    exact ⟨_, e⟩

/-- C26 at the end-to-end scenario of the specification. -/
theorem C26_boxes_present_witness :
    (scenarioBoxes ℚ ≠ [] ∧ queryBoxes ℚ ≠ []) ∧
    (∀ n ∈ subtrees (build fresh (scenarioBoxes ℚ)), ∃ b, n.pBBox = some b) ∧
    (∃ r, (build fresh (scenarioBoxes ℚ)).collision (build fresh (queryBoxes ℚ))
      (fun _ _ => true) false = some r) ∧
    (∃ l, (build fresh (scenarioBoxes ℚ)).intersect (build fresh (queryBoxes ℚ)) [] false
      = some l) ∧
    (∃ l, (build fresh (scenarioBoxes ℚ)).min_distance (fun a b => |a| + |b|) 0 0 []
      = some l) :=
  ⟨⟨by decide, by decide⟩,
   C26_boxes_present fresh fresh (scenarioBoxes ℚ) (queryBoxes ℚ) (by decide) (by decide)
     (fun _ _ => true) false [] (fun a b => |a| + |b|) 0 0 []⟩

/-- C27: for `n ≥ 2` boxes, with `cutPos` the midpoint of the node box on the split
axis: when some box has its midpoint on that axis above `cutPos` and some box has it
at or below `cutPos`, the first child is built from exactly the boxes with midpoint
`≤ cutPos` and the second from exactly those with midpoint `> cutPos`, each in input
order; the midpoint `(min + max) / 2` of the box decides. -/
theorem C27_midpoint_partition (t : AABBtree K) (bs : List (BBox K)) (h : 2 ≤ bs.length)
    (hpos : ∃ b ∈ bs, axisMid (BBox.ofBoxes bs 0 0) b > cutPos (BBox.ofBoxes bs 0 0))
    (hneg : ∃ b ∈ bs, axisMid (BBox.ofBoxes bs 0 0) b ≤ cutPos (BBox.ofBoxes bs 0 0)) :
    build t bs = mk (some (BBox.ofBoxes bs 0 0))
      [build fresh (bs.filter
          (fun b => decide (axisMid (BBox.ofBoxes bs 0 0) b ≤ cutPos (BBox.ofBoxes bs 0 0)))),
       build fresh (bs.filter
          (fun b => decide (axisMid (BBox.ofBoxes bs 0 0) b > cutPos (BBox.ofBoxes bs 0 0))))] := by
  have hcut := cutBoxes_eq_filter (BBox.ofBoxes bs 0 0) bs
  have hfil : (fun it : BBox K =>
        !decide (axisMid (BBox.ofBoxes bs 0 0) it > cutPos (BBox.ofBoxes bs 0 0)))
      = (fun b => decide (axisMid (BBox.ofBoxes bs 0 0) b ≤ cutPos (BBox.ofBoxes bs 0 0))) := by
    funext it
    by_cases hh : axisMid (BBox.ofBoxes bs 0 0) it > cutPos (BBox.ofBoxes bs 0 0)
    · simp [hh]
    · simp [hh, not_lt.mp hh]
  rw [hfil] at hcut
  have h1 : (cutBoxes (BBox.ofBoxes bs 0 0) bs).1 ≠ [] := by
    rw [hcut]
    obtain ⟨b, hb, hgt⟩ := hpos
    exact List.ne_nil_of_mem (List.mem_filter.mpr ⟨hb, decide_eq_true hgt⟩)
  have h2 : (cutBoxes (BBox.ofBoxes bs 0 0) bs).2 ≠ [] := by
    rw [hcut]
    obtain ⟨b, hb, hle⟩ := hneg
    exact List.ne_nil_of_mem (List.mem_filter.mpr ⟨hb, decide_eq_true hle⟩)
  have hs : splitBoxes bs = cutBoxes (BBox.ofBoxes bs 0 0) bs := rebalance_of_ne_nil h1 h2
  rw [build_node t bs h, hs, hcut]
  rfl

/-- C27 at the three boxes of the end-to-end scenario: the node box is the square
`(0,0,3,3)`, cut at `x = 3/2`. -/
theorem C27_midpoint_partition_witness :
    (2 ≤ (scenarioBoxes ℚ).length ∧
      (∃ b ∈ scenarioBoxes ℚ, axisMid (BBox.ofBoxes (scenarioBoxes ℚ) 0 0) b
        > cutPos (BBox.ofBoxes (scenarioBoxes ℚ) 0 0)) ∧
      (∃ b ∈ scenarioBoxes ℚ, axisMid (BBox.ofBoxes (scenarioBoxes ℚ) 0 0) b
        ≤ cutPos (BBox.ofBoxes (scenarioBoxes ℚ) 0 0))) ∧
    build fresh (scenarioBoxes ℚ) = mk (some (BBox.ofBoxes (scenarioBoxes ℚ) 0 0))
      [build fresh ((scenarioBoxes ℚ).filter (fun b =>
          decide (axisMid (BBox.ofBoxes (scenarioBoxes ℚ) 0 0) b
            ≤ cutPos (BBox.ofBoxes (scenarioBoxes ℚ) 0 0)))),
       build fresh ((scenarioBoxes ℚ).filter (fun b =>
          decide (axisMid (BBox.ofBoxes (scenarioBoxes ℚ) 0 0) b
            > cutPos (BBox.ofBoxes (scenarioBoxes ℚ) 0 0))))] := by
  have hpos : ∃ b ∈ scenarioBoxes ℚ, axisMid (BBox.ofBoxes (scenarioBoxes ℚ) 0 0) b
      > cutPos (BBox.ofBoxes (scenarioBoxes ℚ) 0 0) := by
    refine ⟨⟨2, 2, 3, 3, 0, 1⟩, by simp [scenarioBoxes], ?_⟩
    rw [ofBoxes_scenario]
    simp [axisMid, cutPos, splitsOnY]
    norm_num
  have hneg : ∃ b ∈ scenarioBoxes ℚ, axisMid (BBox.ofBoxes (scenarioBoxes ℚ) 0 0) b
      ≤ cutPos (BBox.ofBoxes (scenarioBoxes ℚ) 0 0) := by
    refine ⟨⟨0, 0, 1, 1, 0, 0⟩, by simp [scenarioBoxes], ?_⟩
    rw [ofBoxes_scenario]
    simp [axisMid, cutPos, splitsOnY]
    norm_num
  exact ⟨⟨by decide, hpos, hneg⟩,
    C27_midpoint_partition fresh (scenarioBoxes ℚ) (by decide) hpos hneg⟩

/-- C28: the degenerate-partition guard. For `n ≥ 2` boxes that all have their
midpoint at or below `cutPos`, `negBoxes` keeps the first `n / 2` boxes in input order
and `posBoxes` receives the other `n - n / 2`, in input order; when all boxes are above
`cutPos` it is `posBoxes` that keeps the first `n / 2` and `negBoxes` that receives
the rest. The two parts together are the input: no box is lost or duplicated. -/
theorem C28_degenerate_guard (bs : List (BBox K)) (h : 2 ≤ bs.length) :
    ((∀ b ∈ bs, axisMid (BBox.ofBoxes bs 0 0) b ≤ cutPos (BBox.ofBoxes bs 0 0)) →
      splitBoxes bs = (bs.drop (bs.length / 2), bs.take (bs.length / 2))) ∧
    ((∀ b ∈ bs, axisMid (BBox.ofBoxes bs 0 0) b > cutPos (BBox.ofBoxes bs 0 0)) →
      splitBoxes bs = (bs.take (bs.length / 2), bs.drop (bs.length / 2))) ∧
    bs.take (bs.length / 2) ++ bs.drop (bs.length / 2) = bs ∧
    (bs.take (bs.length / 2)).length = bs.length / 2 ∧
    (bs.drop (bs.length / 2)).length = bs.length - bs.length / 2 := by
  have hcut := cutBoxes_eq_filter (BBox.ofBoxes bs 0 0) bs
  have hne : bs ≠ [] := by
    intro h0; subst h0; simp at h
  refine ⟨?_, ?_, List.take_append_drop _ _, ?_, List.length_drop _ _⟩
  · intro hall
    have e1 : bs.filter (fun it =>
        decide (axisMid (BBox.ofBoxes bs 0 0) it > cutPos (BBox.ofBoxes bs 0 0))) = [] := by
      rw [List.filter_eq_nil_iff]
      intro b hb hgt
      exact absurd (of_decide_eq_true hgt) (not_lt.mpr (hall b hb))
    have e2 : bs.filter (fun it =>
        !decide (axisMid (BBox.ofBoxes bs 0 0) it > cutPos (BBox.ofBoxes bs 0 0))) = bs := by
      rw [List.filter_eq_self]
      intro b hb
      simp [not_lt.mpr (hall b hb)]
    rw [e1, e2] at hcut
    rw [splitBoxes, hcut, rebalance_nil_left bs hne]
  · intro hall
    have e1 : bs.filter (fun it =>
        decide (axisMid (BBox.ofBoxes bs 0 0) it > cutPos (BBox.ofBoxes bs 0 0))) = bs := by
      rw [List.filter_eq_self]
      intro b hb
      exact decide_eq_true (hall b hb)
    have e2 : bs.filter (fun it =>
        !decide (axisMid (BBox.ofBoxes bs 0 0) it > cutPos (BBox.ofBoxes bs 0 0))) = [] := by
      rw [List.filter_eq_nil_iff]
      intro b hb hgt
      simp [hall b hb] at hgt
    rw [e1, e2] at hcut
    rw [splitBoxes, hcut, rebalance_nil_right bs]
  · rw [List.length_take]
    omega

/-- C28 at three boxes that share one center: all midpoints are at `cutPos`. -/
theorem C28_degenerate_guard_witness :
    (2 ≤ sameCenterBoxes.length ∧
      ∀ b ∈ sameCenterBoxes, axisMid (BBox.ofBoxes sameCenterBoxes 0 0) b
        ≤ cutPos (BBox.ofBoxes sameCenterBoxes 0 0)) ∧
    splitBoxes sameCenterBoxes
      = (sameCenterBoxes.drop (sameCenterBoxes.length / 2),
         sameCenterBoxes.take (sameCenterBoxes.length / 2)) := by
  have hall : ∀ b ∈ sameCenterBoxes, axisMid (BBox.ofBoxes sameCenterBoxes 0 0) b
      ≤ cutPos (BBox.ofBoxes sameCenterBoxes 0 0) := by
    intro b hb
    rw [ofBoxes_sameCenter]
    simp only [sameCenterBoxes, List.mem_cons, List.mem_singleton, List.not_mem_nil,
      or_false] at hb
    rcases hb with rfl | rfl | rfl <;> simp [axisMid, cutPos, splitsOnY]
  exact ⟨⟨by decide, hall⟩, (C28_degenerate_guard sameCenterBoxes (by decide)).1 hall⟩

/-- C29: in a tree built from a non-empty box list every internal node has
`id = 0` and `ipos = 0` and its box is the tight union of the leaf boxes below it
(the least `x_min` and `y_min`, the greatest `x_max` and `y_max`), and the box of
every node encloses the box of each of its descendants. -/
theorem C29_internal_boxes (t : AABBtree K) (bs : List (BBox K)) (h : bs ≠ []) :
    (∀ n ∈ subtrees (build t bs), n.children ≠ [] →
      ∃ b, n.pBBox = some b ∧ b.Id = 0 ∧ b.Ipos = 0 ∧
        (n.leaves.map BBox.x_min).minimum = ↑b.x_min ∧
        (n.leaves.map BBox.y_min).minimum = ↑b.y_min ∧
        (n.leaves.map BBox.x_max).maximum = ↑b.x_max ∧
        (n.leaves.map BBox.y_max).maximum = ↑b.y_max) ∧
    (∀ n ∈ subtrees (build t bs), ∀ d ∈ subtrees n, ∀ bn bd : BBox K,
      n.pBBox = some bn → d.pBBox = some bd → bn.covers bd) := by
  constructor
  · intro n hn hch
    obtain ⟨bs', hne, _, rfl⟩ := subtrees_build _ t bs le_rfl h n hn
    have h2 : 2 ≤ bs'.length := by
      by_contra hlt
      have h1 : bs'.length = 1 := by
        have := List.length_pos.mpr hne
        omega
      obtain ⟨b, rfl⟩ := List.length_eq_one.mp h1
      rw [build_singleton] at hch
      exact hch rfl
    have hperm := leaves_build _ fresh bs' le_rfl
    obtain ⟨hx, hy, hX, hY⟩ := BBox.join_extrema
      ({ x_min := 0, y_min := 0, x_max := 0, y_max := 0, m_id := 0, m_ipos := 0 } : BBox K) bs' hne
    refine ⟨BBox.ofBoxes bs' 0 0, by rw [build_node fresh bs' h2]; rfl,
      (BBox_ofBoxes_tags bs' 0 0).1, (BBox_ofBoxes_tags bs' 0 0).2, ?_, ?_, ?_, ?_⟩
    · rw [minimum_eq_of_perm (hperm.map _)]; exact hx
    · rw [minimum_eq_of_perm (hperm.map _)]; exact hy
    · rw [maximum_eq_of_perm (hperm.map _)]; exact hX
    · rw [maximum_eq_of_perm (hperm.map _)]; exact hY
  · intro n hn d hd bn bd hbn hbd
    obtain ⟨bs', hne, _, rfl⟩ := subtrees_build _ t bs le_rfl h n hn
    obtain ⟨bs'', hne', hsub, rfl⟩ := subtrees_build _ fresh bs' le_rfl hne d hd
    obtain ⟨b1, e1, x1, y1, X1, Y1⟩ := build_box_extrema fresh bs' hne
    obtain ⟨b2, e2, x2, y2, X2, Y2⟩ := build_box_extrema fresh bs'' hne'
    rw [e1] at hbn
    rw [e2] at hbd
    obtain rfl := Option.some.inj hbn
    obtain rfl := Option.some.inj hbd
    have hc := covers_of_extrema x1 y1 X1 Y1
    exact covers_extrema (fun e he => hc e (hsub e he)) x2 y2 X2 Y2

/-- C29 at the three boxes of the end-to-end scenario. -/
theorem C29_internal_boxes_witness :
    scenarioBoxes ℚ ≠ [] ∧
    ((∀ n ∈ subtrees (build fresh (scenarioBoxes ℚ)), n.children ≠ [] →
      ∃ b, n.pBBox = some b ∧ b.Id = 0 ∧ b.Ipos = 0 ∧
        (n.leaves.map BBox.x_min).minimum = ↑b.x_min ∧
        (n.leaves.map BBox.y_min).minimum = ↑b.y_min ∧
        (n.leaves.map BBox.x_max).maximum = ↑b.x_max ∧
        (n.leaves.map BBox.y_max).maximum = ↑b.y_max) ∧
    (∀ n ∈ subtrees (build fresh (scenarioBoxes ℚ)), ∀ d ∈ subtrees n, ∀ bn bd : BBox ℚ,
      n.pBBox = some bn → d.pBBox = some bd → bn.covers bd)) :=
  ⟨by decide, C29_internal_boxes fresh (scenarioBoxes ℚ) (by decide)⟩

/-- C30: `join` over a list, empty or not, of boxes with `x_min ≤ x_max` and
`y_min ≤ y_max` gives a box with `x_min ≤ x_max` and `y_min ≤ y_max`, and every node
box of a tree built from such boxes satisfies the same. -/
theorem C30_wellFormed_preserved (s : BBox K) (t : AABBtree K) (bs : List (BBox K))
    (hwf : ∀ b ∈ bs, b.x_min ≤ b.x_max ∧ b.y_min ≤ b.y_max) :
    ((s.join bs).x_min ≤ (s.join bs).x_max ∧ (s.join bs).y_min ≤ (s.join bs).y_max) ∧
    ∀ n ∈ subtrees (build t bs), ∀ b, n.pBBox = some b →
      b.x_min ≤ b.x_max ∧ b.y_min ≤ b.y_max := by
  refine ⟨join_wellFormed s bs hwf, ?_⟩
  intro n hn b hb
  by_cases h0 : bs = []
  · subst h0
    rw [build_nil, mem_subtrees_mk] at hn
    rcases hn with rfl | ⟨c, hc, _⟩
    · exact absurd hb (by simp [pBBox])
    · exact absurd hc (List.not_mem_nil _)
  obtain ⟨bs', hne, hsub, rfl⟩ := subtrees_build _ t bs le_rfl h0 n hn
  obtain ⟨b1, e1, x1, y1, X1, Y1⟩ := build_box_extrema fresh bs' hne
  rw [e1] at hb
  obtain rfl := Option.some.inj hb
  exact wellFormed_of_extrema (fun e he => hwf e (hsub e he)) x1 y1 X1 Y1

/-- C30 at the three boxes of the end-to-end scenario. -/
theorem C30_wellFormed_preserved_witness :
    (∀ b ∈ scenarioBoxes ℚ, b.x_min ≤ b.x_max ∧ b.y_min ≤ b.y_max) ∧
    (((⟨7, 7, 7, 7, 1, 1⟩ : BBox ℚ).join (scenarioBoxes ℚ)).x_min
        ≤ ((⟨7, 7, 7, 7, 1, 1⟩ : BBox ℚ).join (scenarioBoxes ℚ)).x_max ∧
      ((⟨7, 7, 7, 7, 1, 1⟩ : BBox ℚ).join (scenarioBoxes ℚ)).y_min
        ≤ ((⟨7, 7, 7, 7, 1, 1⟩ : BBox ℚ).join (scenarioBoxes ℚ)).y_max) ∧
    ∀ n ∈ subtrees (build fresh (scenarioBoxes ℚ)), ∀ b, n.pBBox = some b →
      b.x_min ≤ b.x_max ∧ b.y_min ≤ b.y_max := by
  have hwf : ∀ b ∈ scenarioBoxes ℚ, b.x_min ≤ b.x_max ∧ b.y_min ≤ b.y_max := by
    intro b hb
    simp only [scenarioBoxes, List.mem_cons, List.mem_singleton, List.not_mem_nil,
      or_false] at hb
    rcases hb with rfl | rfl | rfl <;> norm_num
  exact ⟨hwf, C30_wellFormed_preserved ⟨7, 7, 7, 7, 1, 1⟩ fresh (scenarioBoxes ℚ) hwf⟩

end Claims3

/-! ## The interval search -/

section Search

variable {K : Type} [LinearOrderedField K]

namespace Utils

theorem rd_some (X : List K) (i : Int) (h0 : 0 ≤ i) (h1 : i < X.length) :
    rd X i = some (val X i) := by
  have hlt : i.toNat < X.length := by omega
  rw [rd, if_pos h0, val, List.getD_eq_getElem _ _ hlt, List.getElem?_eq_getElem hlt]

theorem at_mono (X : List K) (hs : X.Sorted (· ≤ ·)) (i j : Int) (h0 : 0 ≤ i) (hij : i ≤ j)
    (h1 : j < X.length) : val X i ≤ val X j := by
  have hi : i.toNat < X.length := by omega
  have hj : j.toNat < X.length := by omega
  rw [val, val, List.getD_eq_getElem _ _ hi, List.getD_eq_getElem _ _ hj]
  have := hs.rel_get_of_le (a := ⟨i.toNat, hi⟩) (b := ⟨j.toNat, hj⟩) (by
    show i.toNat ≤ j.toNat
    omega)
  simpa using this

/-- On a non-decreasing array the binary search returns the first index of the range
whose element is not below `x`, or the end of the range. -/
theorem lower_boundLoop_spec (X : List K) (hs : X.Sorted (· ≤ ·)) (x : K) :
    ∀ (len : Nat) (first : Int), 0 ≤ first → first + len ≤ X.length →
      ∃ p, lower_boundLoop X x first len = some p ∧ first ≤ p ∧ p ≤ first + len ∧
        (∀ i, first ≤ i → i < p → val X i < x) ∧ (p < first + len → x ≤ val X p) := by
  intro len
  induction len using Nat.strong_induction_on with
  | _ len ih =>
    intro first h0 h1
    rw [lower_boundLoop]
    by_cases hlen : 0 < len
    · rw [dif_pos hlen]
      have hmid : rd X (first + ((len / 2 : Nat) : Int)) = some (val X (first + ((len / 2 : Nat) : Int))) :=
        rd_some X _ (by omega) (by omega)
      simp only [hmid]
      by_cases hv : val X (first + ((len / 2 : Nat) : Int)) < x
      · rw [if_pos hv]
        obtain ⟨p, e, hp1, hp2, hp3, hp4⟩ := ih (len - len / 2 - 1) (by omega)
          (first + ((len / 2 : Nat) : Int) + 1) (by omega) (by omega)
        refine ⟨p, e, by omega, by omega, ?_, ?_⟩
        · intro i hi1 hi2
          by_cases hi : i ≤ first + ((len / 2 : Nat) : Int)
          · exact lt_of_le_of_lt (at_mono X hs i _ (by omega) hi (by omega)) hv
          · exact hp3 i (by omega) hi2
        · intro hlt
          exact hp4 (by omega)
      · rw [if_neg hv]
        obtain ⟨p, e, hp1, hp2, hp3, hp4⟩ := ih (len / 2) (by omega) first h0 (by omega)
        refine ⟨p, e, hp1, by omega, hp3, ?_⟩
        intro hlt
        by_cases hp : p < first + ((len / 2 : Nat) : Int)
        · exact hp4 hp
        · have : p = first + ((len / 2 : Nat) : Int) := by omega
          rw [this]
          exact not_lt.mp hv
    · rw [dif_neg hlen]
      have : len = 0 := by omega
      subst this
      exact ⟨first, rfl, le_rfl, by simp, fun i h1 h2 => absurd h2 (by omega), fun h => absurd h (by simp)⟩

theorem lower_bound_spec (X : List K) (hs : X.Sorted (· ≤ ·)) (x : K) (first last : Int)
    (h0 : 0 ≤ first) (h1 : first ≤ last) (h2 : last ≤ X.length) :
    ∃ p, lower_bound X first last x = some p ∧ first ≤ p ∧ p ≤ last ∧
      (∀ i, first ≤ i → i < p → val X i < x) ∧ (p < last → x ≤ val X p) := by
  obtain ⟨p, e, hp1, hp2, hp3, hp4⟩ := lower_boundLoop_spec X hs x (last - first).toNat first h0
    (by omega)
  exact ⟨p, e, hp1, by omega, hp3, fun h => hp4 (by omega)⟩

theorem search_interval_ok (fmod : K → K → K) (X : List K) (npts : Int)
    (hlen : npts = X.length) (h2 : 2 ≤ npts) (hs : X.Sorted (· ≤ ·))
    (h : Int) (h0 : 0 ≤ h) (h1 : h ≤ npts - 2) (x : K)
    (hlo : val X 0 ≤ x) (hhi : x ≤ val X (npts - 1)) (can_extend : Bool) :
    ∃ i, search_interval fmod npts X x h false can_extend = some (x, i) ∧
      0 ≤ i ∧ i ≤ npts - 2 ∧ val X i ≤ x ∧ x ≤ val X (i + 1) := by
  have r0 : rd X 0 = some (val X 0) := rd_some X 0 le_rfl (by omega)
  have rn : rd X (npts - 1) = some (val X (npts - 1)) := rd_some X _ (by omega) (by omega)
  have rh : rd X h = some (val X h) := rd_some X _ h0 (by omega)
  have rh1 : rd X (h + 1) = some (val X (h + 1)) := rd_some X _ (by omega) (by omega)
  have rn1 : rd X (npts - 1 - 1) = some (val X (npts - 1 - 1)) :=
    rd_some X _ (by omega) (by omega)
  have r1 : rd X 1 = some (val X 1) := rd_some X _ (by omega) (by omega)
  have hpre : (!(decide (npts > 1) && decide (h ≥ 0) && decide (h < npts - 1))) = false := by
    simp only [Bool.not_eq_false', Bool.and_eq_true, decide_eq_true_eq]
    omega
  have hrange : (!(can_extend || (decide (x ≥ val X 0) && decide (x ≤ val X (npts - 1))))) = false := by
    simp [hlo, hhi]
  have hfin : ∀ i : Int, 0 ≤ i → i ≤ npts - 2 →
      (!(decide (i ≥ 0) && decide (i < npts - 1))) = false := by
    intro i hi0 hi1
    simp only [Bool.not_eq_false', Bool.and_eq_true, decide_eq_true_eq]
    omega
  unfold search_interval
  simp only [hpre, Bool.false_eq_true, if_false, r0, rn, rh1, Option.some_bind, hrange]
  by_cases c1 : val X (h + 1) < x
  · simp only [if_pos c1, rn1, Option.some_bind]
    by_cases c11 : x ≥ val X (npts - 1 - 1)
    · simp only [if_pos c11, Option.some_bind, hfin (npts - 1 - 1) (by omega) (by omega)]
      refine ⟨npts - 1 - 1, rfl, by omega, by omega, c11, ?_⟩
      rw [show npts - 1 - 1 + 1 = npts - 1 by ring]
      exact hhi
    · have hh : h + 2 ≤ npts - 2 := by
        by_contra hcon
        have hm := at_mono X hs (npts - 1 - 1) (h + 1) (by omega) (by omega) (by omega)
        exact c11 (le_of_lt (lt_of_le_of_lt hm c1))
      have rh2 : rd X (h + 2) = some (val X (h + 2)) := rd_some X _ (by omega) (by omega)
      simp only [if_neg c11, rh2, Option.some_bind]
      by_cases c12 : x < val X (h + 2)
      · simp only [if_pos c12, Option.some_bind, hfin (h + 1) (by omega) (by omega)]
        refine ⟨h + 1, rfl, by omega, by omega, le_of_lt c1, ?_⟩
        rw [show h + 1 + 1 = h + 2 by ring]
        exact le_of_lt c12
      · obtain ⟨p, e, hp1, hp2, hp3, hp4⟩ :=
          lower_bound_spec X hs x h (npts - 1) h0 (by omega) (by omega)
        have hpn : p ≤ npts - 2 := by
          by_contra hcon
          exact c11 (le_of_lt (hp3 (npts - 1 - 1) (by omega) (by omega)))
        have hxp : x ≤ val X p := hp4 (by omega)
        have hpl : h + 2 ≤ p := by
          by_contra hcon
          have hm := at_mono X hs p (h + 1) (by omega) (by omega) (by omega)
          exact absurd (lt_of_le_of_lt (le_trans hxp hm) c1) (lt_irrefl _)
        have rp : rd X p = some (val X p) := rd_some X _ (by omega) (by omega)
        have rp1 : rd X (p + 1) = some (val X (p + 1)) := rd_some X _ (by omega) (by omega)
        simp only [if_neg c12, e, Option.some_bind, show h + (p - h) = p by ring, rp, rp1]
        by_cases c13 : x < val X p
        · simp only [if_pos c13, Option.some_bind, hfin (p - 1) (by omega) (by omega)]
          refine ⟨p - 1, rfl, by omega, by omega, le_of_lt (hp3 (p - 1) (by omega) (by omega)), ?_⟩
          rw [show p - 1 + 1 = p by ring]
          exact hxp
        · simp only [if_neg c13]
          by_cases c14 : isZero (val X p - val X (p + 1)) = true
          · simp only [c14, if_true, Option.some_bind, hfin (p - 1) (by omega) (by omega)]
            refine ⟨p - 1, rfl, by omega, by omega,
              le_of_lt (hp3 (p - 1) (by omega) (by omega)), ?_⟩
            rw [show p - 1 + 1 = p by ring]
            exact hxp
          · simp only [c14, Bool.false_eq_true, if_false, Option.some_bind,
              hfin p (by omega) (by omega)]
            exact ⟨p, rfl, by omega, by omega, not_lt.mp c13,
              le_trans hxp (at_mono X hs p (p + 1) (by omega) (by omega) (by omega))⟩
  · simp only [if_neg c1, rh, Option.some_bind]
    by_cases c2 : x < val X h
    · simp only [if_pos c2, r1, Option.some_bind]
      by_cases c21 : x ≤ val X 1
      · simp only [if_pos c21, Option.some_bind, hfin 0 le_rfl (by omega)]
        exact ⟨0, rfl, le_rfl, by omega, hlo, by simpa using c21⟩
      · have hh : 2 ≤ h := by
          by_contra hcon
          have hm := at_mono X hs h 1 (by omega) (by omega) (by omega)
          exact c21 (le_of_lt (lt_of_lt_of_le c2 hm))
        have rhm : rd X (h - 1) = some (val X (h - 1)) := rd_some X _ (by omega) (by omega)
        simp only [if_neg c21, rhm, Option.some_bind]
        by_cases c22 : val X (h - 1) ≤ x
        · simp only [if_pos c22, Option.some_bind, hfin (h - 1) (by omega) (by omega)]
          refine ⟨h - 1, rfl, by omega, by omega, c22, ?_⟩
          rw [show h - 1 + 1 = h by ring]
          exact le_of_lt c2
        · obtain ⟨p, e, hp1, hp2, hp3, hp4⟩ :=
            lower_bound_spec X hs x 1 h (by omega) (by omega) (by omega)
          have hpn : p ≤ h - 1 := by
            by_contra hcon
            exact c22 (le_of_lt (hp3 (h - 1) (by omega) (by omega)))
          have hxp : x ≤ val X p := hp4 (by omega)
          have hpl : 2 ≤ p := by
            by_contra hcon
            have hm := at_mono X hs p 1 (by omega) (by omega) (by omega)
            exact c21 (le_trans hxp hm)
          have rp : rd X p = some (val X p) := rd_some X _ (by omega) (by omega)
          have rp1 : rd X (p + 1) = some (val X (p + 1)) := rd_some X _ (by omega) (by omega)
          simp only [if_neg c22, e, Option.some_bind, rp, rp1]
          by_cases c23 : x < val X p
          · simp only [if_pos c23, Option.some_bind, hfin (p - 1) (by omega) (by omega)]
            refine ⟨p - 1, rfl, by omega, by omega,
              le_of_lt (hp3 (p - 1) (by omega) (by omega)), ?_⟩
            rw [show p - 1 + 1 = p by ring]
            exact hxp
          · simp only [if_neg c23]
            by_cases c24 : isZero (val X p - val X (p + 1)) = true
            · simp only [c24, if_true, Option.some_bind, hfin (p - 1) (by omega) (by omega)]
              refine ⟨p - 1, rfl, by omega, by omega,
                le_of_lt (hp3 (p - 1) (by omega) (by omega)), ?_⟩
              rw [show p - 1 + 1 = p by ring]
              exact hxp
            · simp only [c24, Bool.false_eq_true, if_false, Option.some_bind,
                hfin p (by omega) (by omega)]
              exact ⟨p, rfl, by omega, by omega, not_lt.mp c23,
                le_trans hxp (at_mono X hs p (p + 1) (by omega) (by omega) (by omega))⟩
    · simp only [if_neg c2, Option.some_bind, hfin h h0 (by omega)]
      exact ⟨h, rfl, h0, h1, not_lt.mp c2, not_lt.mp c1⟩

end Utils

end Search

/-! ## The claims, fourth part -/

section Claims4

variable {K : Type} [LinearOrderedField K]

open AABBtree

/-- C31: `search_interval` re-validates its hint. For a non-decreasing array `X` of
`npts ≥ 2` values, a hint `h` with `0 ≤ h ≤ npts - 2` and `x` with
`X[0] ≤ x ≤ X[npts - 1]`, the call with `closed = false` returns, leaves `x` as it
was and stores an index `i` with `0 ≤ i ≤ npts - 2` and `X[i] ≤ x ≤ X[i + 1]`: no
assertion fails and no read leaves the array, whatever the hint and `can_extend`. -/
theorem C31_search_interval_revalidates (fmod : K → K → K) (X : List K) (npts : Int)
    (hlen : npts = X.length) (h2 : 2 ≤ npts) (hs : X.Sorted (· ≤ ·))
    (h : Int) (h0 : 0 ≤ h) (h1 : h ≤ npts - 2) (x xl xr : K)
    (hxl : Utils.rd X 0 = some xl) (hxr : Utils.rd X (npts - 1) = some xr)
    (hlo : xl ≤ x) (hhi : x ≤ xr) (can_extend : Bool) :
    ∃ i a b, Utils.search_interval fmod npts X x h false can_extend = some (x, i) ∧
      0 ≤ i ∧ i ≤ npts - 2 ∧
      Utils.rd X i = some a ∧ Utils.rd X (i + 1) = some b ∧ a ≤ x ∧ x ≤ b := by
  have r0 := Utils.rd_some X 0 le_rfl (by omega)
  have rn := Utils.rd_some X (npts - 1) (by omega) (by omega)
  rw [hxl] at r0
  rw [hxr] at rn
  obtain ⟨i, e, hi0, hi1, ha, hb⟩ := Utils.search_interval_ok fmod X npts hlen h2 hs h h0 h1 x
    (by rw [← Option.some.inj r0]; exact hlo) (by rw [← Option.some.inj rn]; exact hhi) can_extend
  exact ⟨i, _, _, e, hi0, hi1, Utils.rd_some X i hi0 (by omega),
    Utils.rd_some X (i + 1) (by omega) (by omega), ha, hb⟩

/-- C31 at the array `[0, 1, 1, 2]`, the hint `0` and `x = 3/2`. -/
theorem C31_search_interval_revalidates_witness :
    ((4 : Int) = ([0, 1, 1, 2] : List ℚ).length ∧ (2 : Int) ≤ 4 ∧
      ([0, 1, 1, 2] : List ℚ).Sorted (· ≤ ·) ∧ (0 : Int) ≤ 0 ∧ (0 : Int) ≤ 4 - 2 ∧
      Utils.rd ([0, 1, 1, 2] : List ℚ) 0 = some 0 ∧
      Utils.rd ([0, 1, 1, 2] : List ℚ) (4 - 1) = some 2 ∧
      (0 : ℚ) ≤ 3 / 2 ∧ (3 / 2 : ℚ) ≤ 2) ∧
    ∃ i a b, Utils.search_interval (fun u _ => u) 4 ([0, 1, 1, 2] : List ℚ) (3 / 2) 0 false false
        = some (3 / 2, i) ∧ 0 ≤ i ∧ i ≤ 4 - 2 ∧
      Utils.rd ([0, 1, 1, 2] : List ℚ) i = some a ∧
      Utils.rd ([0, 1, 1, 2] : List ℚ) (i + 1) = some b ∧ a ≤ 3 / 2 ∧ 3 / 2 ≤ b := by
  have hs : ([0, 1, 1, 2] : List ℚ).Sorted (· ≤ ·) := by
    simp [List.Sorted]
  have hxl : Utils.rd ([0, 1, 1, 2] : List ℚ) 0 = some 0 := by simp [Utils.rd]
  have hxr : Utils.rd ([0, 1, 1, 2] : List ℚ) (4 - 1) = some 2 := by simp [Utils.rd]
  exact ⟨⟨rfl, by decide, hs, le_rfl, by decide, hxl, hxr, by norm_num, by norm_num⟩,
    C31_search_interval_revalidates (fun u _ => u) [0, 1, 1, 2] 4 rfl (by decide) hs 0 le_rfl
      (by decide) (3 / 2) 0 2 hxl hxr (by norm_num) (by norm_num) false⟩

/-- C32: for a tree built from a non-empty list of well-formed boxes and any point,
`min_distance` appends a non-empty list of candidates: the bound of phase 1 is the
`maxDistance` of some leaf, and every leaf whose `maxDistance` is that bound has
`distance ≤` the bound and is appended by phase 2. -/
theorem C32_candidates_nonempty (t : AABBtree ℝ) (bs : List (BBox ℝ)) (hne : bs ≠ [])
    (hwf : ∀ b ∈ bs, b.x_min ≤ b.x_max ∧ b.y_min ≤ b.y_max) (x y : ℝ)
    (cand : List (BBox ℝ)) :
    ∃ l, min_distance hypot (build t bs) x y cand = some (cand ++ l) ∧ l ≠ [] ∧
      (∃ L ∈ (build t bs).leaves, min_maxdist hypot x y (build t bs) ⊤
        = some ((L.maxDistance hypot x y : ℝ) : WithTop ℝ)) ∧
      ∀ L ∈ (build t bs).leaves, min_maxdist hypot x y (build t bs) ⊤
        = some ((L.maxDistance hypot x y : ℝ) : WithTop ℝ) → L ∈ l := by
  have hv := build_valid _ t bs le_rfl hne
  have hperm := leaves_build _ t bs le_rfl
  have hl := wellFormed_leaves_build t bs hwf
  have e1 := min_maxdist_eq x y _ hv hl ⊤
  rw [top_inf_eq] at e1
  have e2 := min_maxdist_select_eq x y (leastMaxDistance hypot x y (build t bs).leaves) _ hv hl cand
  have key : ∀ L ∈ (build t bs).leaves, min_maxdist hypot x y (build t bs) ⊤
      = some ((L.maxDistance hypot x y : ℝ) : WithTop ℝ) →
      L ∈ (build t bs).leaves.filter (fun L => decide (((L.distance hypot x y : ℝ) : WithTop ℝ)
        ≤ leastMaxDistance hypot x y (build t bs).leaves)) := by
    intro L hL hr
    rw [e1] at hr
    rw [List.mem_filter, decide_eq_true_eq, Option.some.inj hr]
    exact ⟨hL, WithTop.coe_le_coe.mpr (distance_le_maxDistance L x y (hl L hL))⟩
  have hex : ∃ L ∈ (build t bs).leaves, min_maxdist hypot x y (build t bs) ⊤
      = some ((L.maxDistance hypot x y : ℝ) : WithTop ℝ) := by
    have hne' : (build t bs).leaves.map (fun L => L.maxDistance hypot x y) ≠ [] := by
      intro h
      rw [List.map_eq_nil_iff] at h
      exact hne (List.Perm.eq_nil (h ▸ hperm.symm))
    obtain ⟨m, hm⟩ := WithTop.ne_top_iff_exists.mp
      (fun h => hne' (List.minimum_eq_top.mp h))
    obtain ⟨L, hL, rfl⟩ := List.mem_map.mp (List.minimum_mem hm.symm)
    exact ⟨L, hL, by rw [e1, leastMaxDistance, ← hm]⟩
  refine ⟨_, by rw [min_distance, e1]; exact e2, ?_, hex, key⟩
  obtain ⟨L, hL, hr⟩ := hex
  exact List.ne_nil_of_mem (key L hL hr)

/-- C32 at the three boxes of the end-to-end scenario and the point `(0, 0)`. -/
theorem C32_candidates_nonempty_witness :
    (scenarioBoxes ℝ ≠ [] ∧
      ∀ b ∈ scenarioBoxes ℝ, b.x_min ≤ b.x_max ∧ b.y_min ≤ b.y_max) ∧
    ∃ l, min_distance hypot (build fresh (scenarioBoxes ℝ)) 0 0 [] = some ([] ++ l) ∧ l ≠ [] ∧
      (∃ L ∈ (build fresh (scenarioBoxes ℝ)).leaves,
        min_maxdist hypot 0 0 (build fresh (scenarioBoxes ℝ)) ⊤
          = some ((L.maxDistance hypot 0 0 : ℝ) : WithTop ℝ)) ∧
      ∀ L ∈ (build fresh (scenarioBoxes ℝ)).leaves,
        min_maxdist hypot 0 0 (build fresh (scenarioBoxes ℝ)) ⊤
          = some ((L.maxDistance hypot 0 0 : ℝ) : WithTop ℝ) → L ∈ l := by
  have hwf : ∀ b ∈ scenarioBoxes ℝ, b.x_min ≤ b.x_max ∧ b.y_min ≤ b.y_max := by
    intro b hb
    simp only [scenarioBoxes, List.mem_cons, List.mem_singleton, List.not_mem_nil,
      or_false] at hb
    rcases hb with rfl | rfl | rfl <;> norm_num
  exact ⟨⟨by decide, hwf⟩,
    C32_candidates_nonempty fresh (scenarioBoxes ℝ) (by decide) hwf 0 0 []⟩

/-- C33: in `build` with two or more boxes a box that attains the minimum of the node
box on the split axis has its midpoint on that axis at or below `cutPos`, such a box
exists, and so `negBoxes` is not empty after the two loops; the branch
`negBoxes.empty()` of the rebalancing is never taken: the lists handed to the
recursive calls are the cut itself or, when `posBoxes` is empty, the two halves of
`negBoxes`. -/
theorem C33_negBoxes_nonempty (bs : List (BBox K)) (h : 2 ≤ bs.length) :
    (∀ b ∈ bs,
      (if splitsOnY (BBox.ofBoxes bs 0 0) then b.y_min = (BBox.ofBoxes bs 0 0).y_min
        else b.x_min = (BBox.ofBoxes bs 0 0).x_min) →
      axisMid (BBox.ofBoxes bs 0 0) b ≤ cutPos (BBox.ofBoxes bs 0 0) ∧
      b ∈ (cutBoxes (BBox.ofBoxes bs 0 0) bs).2) ∧
    (∃ b ∈ bs, if splitsOnY (BBox.ofBoxes bs 0 0) then b.y_min = (BBox.ofBoxes bs 0 0).y_min
        else b.x_min = (BBox.ofBoxes bs 0 0).x_min) ∧
    (cutBoxes (BBox.ofBoxes bs 0 0) bs).2 ≠ [] ∧
    (cutBoxes (BBox.ofBoxes bs 0 0) bs).2.isEmpty = false ∧
    splitBoxes bs =
      (if (cutBoxes (BBox.ofBoxes bs 0 0) bs).1.isEmpty then
        ((cutBoxes (BBox.ofBoxes bs 0 0) bs).1 ++ (cutBoxes (BBox.ofBoxes bs 0 0) bs).2.drop
            ((cutBoxes (BBox.ofBoxes bs 0 0) bs).2.length / 2),
          (cutBoxes (BBox.ofBoxes bs 0 0) bs).2.take
            ((cutBoxes (BBox.ofBoxes bs 0 0) bs).2.length / 2))
      else cutBoxes (BBox.ofBoxes bs 0 0) bs) := by
  have hne : bs ≠ [] := by
    intro h0; subst h0; simp at h
  obtain ⟨hx, hy, hX, hY⟩ := BBox.join_extrema
    ({ x_min := 0, y_min := 0, x_max := 0, y_max := 0, m_id := 0, m_ipos := 0 } : BBox K) bs hne
  have hcut := cutBoxes_eq_filter (BBox.ofBoxes bs 0 0) bs
  have hmid : ∀ b ∈ bs,
      (if splitsOnY (BBox.ofBoxes bs 0 0) then b.y_min = (BBox.ofBoxes bs 0 0).y_min
        else b.x_min = (BBox.ofBoxes bs 0 0).x_min) →
      axisMid (BBox.ofBoxes bs 0 0) b ≤ cutPos (BBox.ofBoxes bs 0 0) := by
    intro b hb hmin
    by_cases hs : splitsOnY (BBox.ofBoxes bs 0 0)
    · simp only [hs, if_true] at hmin
      simp only [axisMid, cutPos, hs, if_true]
      have hle : b.y_max ≤ (BBox.ofBoxes bs 0 0).y_max :=
        WithBot.coe_le_coe.mp (hY ▸ List.le_maximum_of_mem' (List.mem_map_of_mem _ hb))
      rw [hmin]
      linarith
    · simp only [hs, if_false] at hmin
      simp only [axisMid, cutPos, hs, if_false]
      have hle : b.x_max ≤ (BBox.ofBoxes bs 0 0).x_max :=
        WithBot.coe_le_coe.mp (hX ▸ List.le_maximum_of_mem' (List.mem_map_of_mem _ hb))
      rw [hmin]
      linarith
  have hmem : ∀ b ∈ bs,
      (if splitsOnY (BBox.ofBoxes bs 0 0) then b.y_min = (BBox.ofBoxes bs 0 0).y_min
        else b.x_min = (BBox.ofBoxes bs 0 0).x_min) →
      axisMid (BBox.ofBoxes bs 0 0) b ≤ cutPos (BBox.ofBoxes bs 0 0) ∧
      b ∈ (cutBoxes (BBox.ofBoxes bs 0 0) bs).2 := by
    intro b hb hmin
    refine ⟨hmid b hb hmin, ?_⟩
    rw [hcut]
    simp only [List.mem_filter, Bool.not_eq_true', decide_eq_false_iff_not, not_lt]
    exact ⟨hb, hmid b hb hmin⟩
  have hex : ∃ b ∈ bs, if splitsOnY (BBox.ofBoxes bs 0 0)
      then b.y_min = (BBox.ofBoxes bs 0 0).y_min
      else b.x_min = (BBox.ofBoxes bs 0 0).x_min := by
    by_cases hs : splitsOnY (BBox.ofBoxes bs 0 0)
    · obtain ⟨b, hb, e⟩ := List.mem_map.mp (List.minimum_mem hy)
      exact ⟨b, hb, by simp only [hs, if_true]; exact e⟩
    · obtain ⟨b, hb, e⟩ := List.mem_map.mp (List.minimum_mem hx)
      exact ⟨b, hb, by simp only [hs, if_false]; exact e⟩
  have hneg : (cutBoxes (BBox.ofBoxes bs 0 0) bs).2 ≠ [] := by
    obtain ⟨b, hb, hmin⟩ := hex
    exact List.ne_nil_of_mem (hmem b hb hmin).2
  have hemp : (cutBoxes (BBox.ofBoxes bs 0 0) bs).2.isEmpty = false := by
    simpa using hneg
  refine ⟨hmem, hex, hneg, hemp, ?_⟩
  rw [splitBoxes, rebalance]
  simp only [hemp, Bool.false_eq_true, if_false]

/-- C33 at the three boxes of the end-to-end scenario: `negBoxes` is not empty. -/
theorem C33_negBoxes_nonempty_witness :
    2 ≤ (scenarioBoxes ℚ).length ∧
    (cutBoxes (BBox.ofBoxes (scenarioBoxes ℚ) 0 0) (scenarioBoxes ℚ)).2 ≠ [] ∧
    (cutBoxes (BBox.ofBoxes (scenarioBoxes ℚ) 0 0) (scenarioBoxes ℚ)).2.isEmpty = false :=
  ⟨by decide, (C33_negBoxes_nonempty (scenarioBoxes ℚ) (by decide)).2.2.1,
    (C33_negBoxes_nonempty (scenarioBoxes ℚ) (by decide)).2.2.2.1⟩

end Claims4

end G2lib
